import Mathlib

/-!
# logspout metrics: a shallow embedding of `router/metrics.go`

The development embeds the metric aggregation code of `router/metrics.go`
(`init`, `aggregateAndSendMetrics`, `checkMetricHistoryForDeadLogStreams`, `writePoint`,
`SortByteSlices`, `intmin`) as executable Lean functions and proves properties
of them.

Modelling conventions

* A Go `string` / `[]byte` is a list of bytes (`Bytes`).
* A Go `int` / `int64` / `time.Duration` is an integer of `Int`, and the sum and the
  product of the detector (lines 137 and 163) are exact.  They are the 64-bit values of the
  code as long as they fit 64 bits (`InIntRange`, `goSum`, `wrapInt64`); the theorems on
  the test and on `DeadFor` for arbitrary histories carry that range as a hypothesis.
* A Go `map[string]V` is an association list `GoMap V`; `range` visits the entries in
  list order.  Every theorem quantifies over all association lists, hence over every
  iteration order, and the transition system has an explicit `shuffle` step.
* A run-time panic (index out of range, nil dereference of a missing map entry) is the
  value `none` of `Option`.
* A `float64` is a value of `F64`, with IEEE 754 binary64 round-to-nearest-even
  arithmetic on exact dyadic numbers.
* The clock (`time.Now`, `time.Since`) and the samples found on `metricChannel` are
  inputs of a tick.
* The alerts sent on `deadLogStreamAlertChannel` are first given as the list of the sends
  (`checkMetricHistoryForDeadLogStreams`), then with the buffered channel as a queue of
  capacity `deadLogStreamAlertChannelSize` (`checkMetricHistoryOnChannel`): a send on a
  full channel leaves the sender parked (`Run.waiting`), as no receiver is part of the code.
* The environment lookup `getopt` and `time.ParseDuration` are parameters of `init`.
-/

namespace Logspout

/-! ## Strings -/

/-- Go strings and byte slices. -/
abbrev Bytes := List UInt8

/-- The bytes (UTF-8) of a string literal. -/
def str (s : String) : Bytes := s.toUTF8.data.toList

def newlineByte : UInt8 := 10
def escapeByte : UInt8 := 92
def spaceByte : UInt8 := 32
def commaByte : UInt8 := 44
def equalsByte : UInt8 := 61

def metricsChannelSize : Nat := 10000
def deadLogStreamAlertChannelSize : Nat := 100
abbrev metricHistorySampleCount : Nat := 20

/-! ## Data model -/

structure MetricSample where
  ContainerName : Bytes
  PumpId : Bytes
  LogCount : Int
  deriving DecidableEq, Repr

structure DeadPumpAlert where
  PumpId : Bytes
  DeadFor : Int
  deriving DecidableEq, Repr

/-- A Go map with string keys: association list, `range` order is list order. -/
abbrev GoMap (β : Type) := List (Bytes × β)

/-- Map read `m[k]`; `none` when the key is absent. -/
def GoMap.get {β : Type} : GoMap β → Bytes → Option β
  | [], _ => none
  | (k', v) :: t, k => if k' = k then some v else GoMap.get t k

/-- Map write `m[k] = v`: overwrite the entry of `k`, or add one. -/
def GoMap.set {β : Type} : GoMap β → Bytes → β → GoMap β
  | [], k, v => [(k, v)]
  | (k', v') :: t, k, v => if k' = k then (k, v) :: t else (k', v') :: GoMap.set t k v

/-- The keys of a map, in iteration order. -/
def GoMap.keys {β : Type} (m : GoMap β) : List Bytes := m.map Prod.fst

/-! ## The drain loop of `aggregateAndSendMetrics` -/

/-- The key `fmt.Sprintf("%s,%s", s.PumpId, s.ContainerName)`. -/
def tagsStringOf (s : MetricSample) : Bytes :=
  s.PumpId ++ commaByte :: s.ContainerName

/-- One iteration of the drain loop: the body of `case s := <-metricChannel`. -/
def drainSample (metricBuffer : GoMap MetricSample) (s : MetricSample) : GoMap MetricSample :=
  let tagsString := tagsStringOf s
  match metricBuffer.get tagsString with
  | none => metricBuffer.set tagsString { s with LogCount := 1 }
  | some b => metricBuffer.set tagsString { b with LogCount := b.LogCount + 1 }

/-- The drain loop run on the samples that the channel delivers before it reports empty. -/
def drainChannel (metricBuffer : GoMap MetricSample) (samples : List MetricSample) :
    GoMap MetricSample :=
  samples.foldl drainSample metricBuffer

/-! ## Go standard library functions used by the program -/

/-- Go `strings.Split(s, sep)` for a one-byte separator: the pieces of `s` between the
occurrences of `sep`; always at least one piece. -/
def Split : Bytes → UInt8 → List Bytes
  | [], _ => [[]]
  | c :: cs, sep =>
    if c = sep then [] :: Split cs sep
    else
      match Split cs sep with
      | [] => [[c]]
      | piece :: pieces => (c :: piece) :: pieces

/-- Go `bytes.Compare`: lexicographic comparison of byte slices, result `-1`, `0` or `1`. -/
def bytesCompare : Bytes → Bytes → Int
  | [], [] => 0
  | [], _ :: _ => -1
  | _ :: _, [] => 1
  | a :: as, b :: bs =>
    if a.toNat < b.toNat then -1 else if b.toNat < a.toNat then 1 else bytesCompare as bs

/-- The decimal digits of a natural number, most significant first. -/
def natDigits : Nat → Nat → Bytes → Bytes
  | 0, _, acc => acc
  | fuel + 1, n, acc =>
    if n / 10 = 0 then (48 + n % 10).toUInt8 :: acc
    else natDigits fuel (n / 10) ((48 + n % 10).toUInt8 :: acc)

/-- Go `strconv.FormatInt(i, 10)`, also `fmt.Sprintf("%d", i)`. -/
def FormatInt (i : Int) : Bytes :=
  if i < 0 then 45 :: natDigits (i.natAbs + 1) i.natAbs []
  else natDigits (i.natAbs + 1) i.natAbs []

/-! ## float64 -/

/-- A `float64`: IEEE 754 binary64.  `fin neg m e` is the number `(-1)^neg * m * 2^e`. -/
inductive F64 where
  | nan : F64
  | inf (neg : Bool) : F64
  | fin (neg : Bool) (m : Nat) (e : Int) : F64
  deriving DecidableEq, Repr

namespace F64

/-- The position of the leading bit: `log2 n = k` when `2^k ≤ n < 2^(k+1)`, and `log2 0 = 0`;
`log2Fuel` halves `n` at most `fuel` times. -/
def log2Fuel : Nat → Nat → Nat
  | 0, _ => 0
  | fuel + 1, n => if 2 ≤ n then log2Fuel fuel (n / 2) + 1 else 0

def log2 (n : Nat) : Nat := log2Fuel n n

/-- Round the exact dyadic number `(-1)^neg * m * 2^e` to the nearest binary64 value, ties to
even: 53 significant bits, least exponent `-1074`, overflow to infinity. -/
def round (neg : Bool) (m : Nat) (e : Int) : F64 :=
  if m = 0 then fin neg 0 0
  else
    let E : Int := max (e + (log2 m : Int) - 52) (-1074)
    let sh : Nat := (E - e).toNat
    let q : Nat := if E ≤ e then m * 2 ^ (e - E).toNat else m / 2 ^ sh
    let r : Nat := if E ≤ e then 0 else m % 2 ^ sh
    let half : Nat := 2 ^ (sh - 1)
    let up : Bool := decide (half < r) || (decide (r = half) && decide (q % 2 = 1))
    let m' : Nat := if up then q + 1 else q
    let m'' : Nat := if m' = 2 ^ 53 then 2 ^ 52 else m'
    let E' : Int := if m' = 2 ^ 53 then E + 1 else E
    if 971 < E' then inf neg else if m'' = 0 then fin neg 0 0 else fin neg m'' E'

/-- The conversion `float64(i)` of an integer. -/
def ofInt (i : Int) : F64 := round (decide (i < 0)) i.natAbs 0

/-- The signed integer `(-1)^neg * m * 2^(e - e0)` for `e0 ≤ e`. -/
def scaled (neg : Bool) (m : Nat) (e e0 : Int) : Int :=
  (if neg then -1 else 1) * ((m * 2 ^ (e - e0).toNat : Nat) : Int)

def neg : F64 → F64
  | nan => nan
  | inf s => inf (!s)
  | fin s m e => fin (!s) m e

def add : F64 → F64 → F64
  | nan, _ => nan
  | _, nan => nan
  | inf s, inf t => if s = t then inf s else nan
  | inf s, fin _ _ _ => inf s
  | fin _ _ _, inf t => inf t
  | fin s1 m1 e1, fin s2 m2 e2 =>
    let e0 := min e1 e2
    let v := scaled s1 m1 e1 e0 + scaled s2 m2 e2 e0
    if v = 0 then fin (s1 && s2 && decide (m1 = 0) && decide (m2 = 0)) 0 0
    else round (decide (v < 0)) v.natAbs e0

def sub (a b : F64) : F64 := add a (neg b)

def mul : F64 → F64 → F64
  | nan, _ => nan
  | _, nan => nan
  | inf s, inf t => inf (xor s t)
  | inf s, fin t m _ => if m = 0 then nan else inf (xor s t)
  | fin s m _, inf t => if m = 0 then nan else inf (xor s t)
  | fin s1 m1 e1, fin s2 m2 e2 => round (xor s1 s2) (m1 * m2) (e1 + e2)

def div : F64 → F64 → F64
  | nan, _ => nan
  | _, nan => nan
  | inf _, inf _ => nan
  | inf s, fin t _ _ => inf (xor s t)
  | fin s _ _, inf t => fin (xor s t) 0 0
  | fin s1 m1 e1, fin s2 m2 e2 =>
    if m2 = 0 then (if m1 = 0 then nan else inf (xor s1 s2))
    else
      let k := log2 m2 + 65
      let q := (m1 * 2 ^ k) / m2
      let r := (m1 * 2 ^ k) % m2
      round (xor s1 s2) (2 * q + (if r = 0 then 0 else 1)) (e1 - e2 - k - 1)

/-- Integer square root by bisection on the bits, `k` bits still to decide. -/
def sqrtBits (n : Nat) : Nat → Nat → Nat
  | 0, acc => acc
  | k + 1, acc => if (acc + 2 ^ k) * (acc + 2 ^ k) ≤ n then sqrtBits n k (acc + 2 ^ k)
      else sqrtBits n k acc

def sqrt : F64 → F64
  | nan => nan
  | inf s => if s then nan else inf false
  | fin s m e =>
    if m = 0 then fin s 0 0
    else if s then nan
    else
      let k : Nat := 130 + (if (e - 130) % 2 = 0 then 0 else 1)
      let n := m * 2 ^ k
      let q := sqrtBits n (log2 n / 2 + 1) 0
      round false (2 * q + (if q * q = n then 0 else 1)) ((e - k) / 2 - 1)

/-- The comparison `a > b`. -/
def gt : F64 → F64 → Bool
  | nan, _ => false
  | _, nan => false
  | inf s, inf t => !s && t
  | inf s, fin _ _ _ => !s
  | fin _ _ _, inf t => t
  | fin s1 m1 e1, fin s2 m2 e2 =>
    decide (scaled s2 m2 e2 (min e1 e2) < scaled s1 m1 e1 (min e1 e2))

end F64

/-! ## `writePoint` and `SortByteSlices` -/

/-- The wire-level point.  The `*string` values of the two maps are represented by the
strings they point to. -/
structure InfluxDbPointModel where
  MeasurementName : Bytes
  Tags : GoMap Bytes
  Fields : GoMap Bytes
  Timestamp : Int

/-- The method `sortByteArrays.Less` on two elements of the slice; the `default` branch of the
source (`log.Panic` followed by `return false`) is the final `false`. -/
def Less (a b : Bytes) : Bool :=
  if bytesCompare a b = -1 then true
  else if bytesCompare a b = 0 ∨ bytesCompare a b = 1 then false
  else false

/-- Insert `a` before the first element that is not `Less` than it. -/
def sortInsert (a : Bytes) : List Bytes → List Bytes
  | [] => [a]
  | b :: l => if Less b a then b :: sortInsert a l else a :: b :: l

/-- `SortByteSlices`: `sort.Sort` (Go standard library) with `Less` as the order, here by
insertion. -/
def SortByteSlices : List Bytes → List Bytes
  | [] => []
  | a :: l => sortInsert a (SortByteSlices l)

/-- The loop over `sortedTagKeys` of `writePoint`; `none` is the nil dereference of a tag
that is not in the map. -/
def writeTags (Tags : GoMap Bytes) (tagsCount : Nat) : List Bytes → Bytes → Nat → Option Bytes
  | [], writer, _ => some writer
  | k :: ks, writer, tagIndex =>
    match Tags.get k with
    | none => none
    | some v =>
      writeTags Tags tagsCount ks
        (if tagIndex + 1 < tagsCount then writer ++ k ++ [equalsByte] ++ v ++ [commaByte]
         else writer ++ k ++ [equalsByte] ++ v)
        (tagIndex + 1)

/-- The loop over `point.Fields` of `writePoint`. -/
def writeFields (fieldsCount : Nat) : List (Bytes × Bytes) → Bytes → Nat → Bytes
  | [], writer, _ => writer
  | (k, v) :: rest, writer, fieldIndex =>
    writeFields fieldsCount rest
      (if fieldIndex + 1 < fieldsCount then writer ++ k ++ [equalsByte] ++ v ++ [commaByte]
       else writer ++ k ++ [equalsByte] ++ v)
      (fieldIndex + 1)

/-- The function `writePoint`: the new contents of the buffer `writer`. -/
def writePoint (writer : Bytes) (point : InfluxDbPointModel) (hasMore : Bool) : Option Bytes :=
  let writer := writer ++ point.MeasurementName
  let tagsCount := point.Tags.length
  let writer := if 0 < tagsCount then writer ++ [commaByte] else writer
  let tagKeys := point.Tags.map Prod.fst
  let sortedTagKeys := SortByteSlices tagKeys
  match writeTags point.Tags tagsCount sortedTagKeys writer 0 with
  | none => none
  | some writer =>
    let writer := writer ++ [spaceByte]
    let fieldsCount := point.Fields.length
    let writer := writeFields fieldsCount point.Fields writer 0
    let writer := writer ++ [spaceByte]
    let writer := writer ++ FormatInt point.Timestamp
    some (if hasMore then writer ++ [newlineByte] else writer)

def intmin (a b : Int) : Int :=
  if a < b then a else b

/-! ## `checkMetricHistoryForDeadLogStreams` -/

/-- The constant `deadLogStreamThresholdFudgeFactor = float64(6)`. -/
def deadLogStreamThresholdFudgeFactor : F64 := F64.ofInt 6

/-- A loop `for i := i0; i < len(h); i++ { st = body st h[i] }`, `fuel` iterations at most;
`none` is an index out of range or the fuel running out. -/
def forIndex {α σ : Type} (h : List α) (body : σ → α → σ) : Nat → Nat → σ → Option σ
  | 0, i, st => if i < h.length then none else some st
  | fuel + 1, i, st =>
    if i < h.length then
      match h[i]? with
      | none => none
      | some x => forIndex h body fuel (i + 1) (body st x)
    else some st

/-- The loop that finds `numberOfSamplesInARowThatHadZeroLogs`: the first index with a
non-zero `LogCount`, or the length when there is none. -/
def zeroRunLoop (logStreamHistory : List MetricSample) : Nat → Nat → Option Nat
  | 0, i => if i < logStreamHistory.length then none else some logStreamHistory.length
  | fuel + 1, i =>
    if i < logStreamHistory.length then
      match logStreamHistory[i]? with
      | none => none
      | some s => if s.LogCount ≠ 0 then some i else zeroRunLoop logStreamHistory fuel (i + 1)
    else some logStreamHistory.length

/-- The body of the loop of `checkMetricHistoryForDeadLogStreams` for one entry of
`metricHistory`: the alerts sent on `deadLogStreamAlertChannel` (none or one).  The sum of
the counts and the product for `DeadFor` are exact integers: the values of the code when
they fit 64 bits. -/
def checkLogStream (metricsFlushInterval : Int) (tagValuesCSV : Bytes)
    (logStreamHistory : List MetricSample) : Option (List DeadPumpAlert) :=
  if logStreamHistory.length < metricHistorySampleCount then some []
  else
    match zeroRunLoop logStreamHistory logStreamHistory.length 0 with
    | none => none
    | some numberOfSamplesInARowThatHadZeroLogs =>
      if 0 < numberOfSamplesInARowThatHadZeroLogs then
        match forIndex logStreamHistory
            (fun (acc : Int × Int) (s : MetricSample) => (acc.1 + s.LogCount, acc.2 + 1))
            logStreamHistory.length numberOfSamplesInARowThatHadZeroLogs (0, 0) with
        | none => none
        | some (previousSamplesLogCountSum, previousSamplesCount) =>
          let previousSamplesAverageLogCount :=
            F64.div (F64.ofInt previousSamplesLogCountSum) (F64.ofInt previousSamplesCount)
          match forIndex logStreamHistory
              (fun (acc : F64) (s : MetricSample) =>
                F64.add acc
                  (F64.mul (F64.sub (F64.ofInt s.LogCount) previousSamplesAverageLogCount)
                    (F64.sub (F64.ofInt s.LogCount) previousSamplesAverageLogCount)))
              logStreamHistory.length numberOfSamplesInARowThatHadZeroLogs (F64.ofInt 0) with
          | none => none
          | some sumOfSquaresOfDeviationFromMean =>
            let standardDeviation :=
              F64.sqrt (F64.div sumOfSquaresOfDeviationFromMean (F64.ofInt previousSamplesCount))
            let distanceFromAverageToZeroInStandardDeviations :=
              F64.div previousSamplesAverageLogCount standardDeviation
            let logStreamIsDead :=
              F64.gt distanceFromAverageToZeroInStandardDeviations
                (F64.div deadLogStreamThresholdFudgeFactor
                  (F64.ofInt numberOfSamplesInARowThatHadZeroLogs))
            if logStreamIsDead then
              match (Split tagValuesCSV commaByte)[0]? with
              | none => none
              | some pumpId =>
                some [{ PumpId := pumpId,
                        DeadFor := (numberOfSamplesInARowThatHadZeroLogs : Int) *
                          metricsFlushInterval }]
            else some []
      else some []

/-- The function `checkMetricHistoryForDeadLogStreams`: the alerts it sends on
`deadLogStreamAlertChannel`, in the order of the sends. -/
def checkMetricHistoryForDeadLogStreams (metricsFlushInterval : Int) :
    GoMap (List MetricSample) → Option (List DeadPumpAlert)
  | [] => some []
  | (tagValuesCSV, logStreamHistory) :: rest =>
    match checkLogStream metricsFlushInterval tagValuesCSV logStreamHistory with
    | none => none
    | some alerts =>
      match checkMetricHistoryForDeadLogStreams metricsFlushInterval rest with
      | none => none
      | some more => some (alerts ++ more)

/-! ## The publish cycle of `aggregateAndSendMetrics` -/

/-- The configuration variables read by the publish cycle. -/
structure Config where
  metricName : Bytes
  metricsFlushInterval : Int

/-- The package variables `metricBuffer`, `metricHistory` and `lastMetricSent`. -/
structure State where
  metricBuffer : GoMap MetricSample
  metricHistory : GoMap (List MetricSample)
  lastMetricSent : Int
  deriving DecidableEq, Repr

/-- The loop `for tagsString, sample := range metricBuffer` that creates the missing
histories and encodes one point per buffered key; `now i` is `time.Now().UnixNano()` at
iteration `i`, `bufferLen` is `len(metricBuffer)`. -/
def encodeLoop (metricName : Bytes) (now : Nat → Int) (bufferLen : Nat) :
    List (Bytes × MetricSample) → Nat → Bytes → GoMap (List MetricSample) →
      Option (Bytes × GoMap (List MetricSample))
  | [], _, buffer, metricHistory => some (buffer, metricHistory)
  | (tagsString, sample) :: rest, i, buffer, metricHistory =>
    let metricHistory :=
      match metricHistory.get tagsString with
      | some _ => metricHistory
      | none => metricHistory.set tagsString []
    let Count := FormatInt sample.LogCount
    let metricPoint : InfluxDbPointModel :=
      { MeasurementName := metricName
        Fields := [(str "Count", Count)]
        Tags := [(str "ContainerName", sample.ContainerName), (str "PumpId", sample.PumpId)]
        Timestamp := now i }
    match writePoint buffer metricPoint (decide ((i : Int) < (bufferLen : Int) - 1)) with
    | none => none
    | some buffer => encodeLoop metricName now bufferLen rest (i + 1) buffer metricHistory

/-- The copy loop `for i = 1; i < newHistoryLength; i++ { newHistory[i] = old[i-1] }`;
`none` is an index out of range or the fuel running out. -/
def copyLoop (historyForTheseTags : List MetricSample) (newHistoryLength : Nat) :
    Nat → Nat → List MetricSample → Option (List MetricSample)
  | 0, i, newHistory => if i < newHistoryLength then none else some newHistory
  | fuel + 1, i, newHistory =>
    if i < newHistoryLength then
      match historyForTheseTags[i - 1]? with
      | none => none
      | some x =>
        if i < newHistory.length then
          copyLoop historyForTheseTags newHistoryLength fuel (i + 1) (newHistory.set i x)
        else none
    else some newHistory

/-- The sample recorded for a key in this cycle: the buffered one, or a zero sample whose
names are cut out of the key. -/
def sampleFor (metricBuffer : GoMap MetricSample) (tagsString : Bytes) : Option MetricSample :=
  match metricBuffer.get tagsString with
  | some sample => some sample
  | none =>
    match (Split tagsString commaByte)[0]?, (Split tagsString commaByte)[1]? with
    | some pumpId, some containerName =>
      some { PumpId := pumpId, ContainerName := containerName, LogCount := 0 }
    | _, _ => none

/-- The new history of one key: lines 238 to 243. -/
def newHistoryFor (sample : MetricSample) (historyForTheseTags : List MetricSample) :
    Option (List MetricSample) :=
  let newHistoryLength := (intmin metricHistorySampleCount (historyForTheseTags.length + 1)).toNat
  let newHistory : List MetricSample := List.replicate newHistoryLength ⟨[], [], 0⟩
  if 0 < newHistory.length then
    copyLoop historyForTheseTags newHistoryLength newHistoryLength 1 (newHistory.set 0 sample)
  else none

/-- The loop `for tagsString, historyForTheseTags := range metricHistory` that builds
`newMetricHistory`. -/
def historyLoop (metricBuffer : GoMap MetricSample) :
    List (Bytes × List MetricSample) → GoMap (List MetricSample) →
      Option (GoMap (List MetricSample))
  | [], newMetricHistory => some newMetricHistory
  | (tagsString, historyForTheseTags) :: rest, newMetricHistory =>
    match sampleFor metricBuffer tagsString with
    | none => none
    | some sample =>
      match newHistoryFor sample historyForTheseTags with
      | none => none
      | some newHistory =>
        historyLoop metricBuffer rest (newMetricHistory.set tagsString newHistory)

/-- What a publish cycle hands to the outside: the encoded payload and the alerts sent. -/
structure Published where
  payload : Bytes
  alerts : List DeadPumpAlert
  deriving DecidableEq, Repr

/-- The publish cycle, lines 201 to 294: `now i` is the clock at the `i`-th point and
`nowAfter` the clock at the end.  The payload is handed to the transport. -/
def publishCycle (cfg : Config) (st : State) (now : Nat → Int) (nowAfter : Int) :
    Option (State × Published) :=
  match encodeLoop cfg.metricName now st.metricBuffer.length st.metricBuffer 0 []
      st.metricHistory with
  | none => none
  | some (buffer, metricHistory) =>
    match historyLoop st.metricBuffer metricHistory [] with
    | none => none
    | some newMetricHistory =>
      match checkMetricHistoryForDeadLogStreams cfg.metricsFlushInterval newMetricHistory with
      | none => none
      | some alerts =>
        some ({ metricBuffer := [], metricHistory := newMetricHistory,
                lastMetricSent := nowAfter },
              { payload := buffer, alerts := alerts })

/-- What the environment supplies to one run of `aggregateAndSendMetrics`: the samples the
channel delivers, the clock at the flush test, at each point and at the end. -/
structure TickInput where
  samples : List MetricSample
  now : Int
  pointTime : Nat → Int
  nowAfter : Int

/-- One run of `aggregateAndSendMetrics`: drain, then publish when
`time.Since(lastMetricSent) > metricsFlushInterval`. -/
def aggregateAndSendMetrics (cfg : Config) (st : State) (inp : TickInput) :
    Option (State × Option Published) :=
  let st1 : State := { st with metricBuffer := drainChannel st.metricBuffer inp.samples }
  if inp.now - st.lastMetricSent > cfg.metricsFlushInterval then
    match publishCycle cfg st1 inp.pointTime inp.nowAfter with
    | none => none
    | some (st2, out) => some (st2, some out)
  else some (st1, none)

/-- The state after `init`. -/
def initState (now : Int) : State :=
  { metricBuffer := [], metricHistory := [], lastMetricSent := now }

/-- The states the program can be in: after `init`, after a run of `aggregateAndSendMetrics`,
and with the entries of the two maps visited in any other order. -/
inductive Reachable (cfg : Config) : State → Prop where
  | init (now : Int) : Reachable cfg (initState now)
  | tick (st st' : State) (inp : TickInput) (out : Option Published) :
      Reachable cfg st → aggregateAndSendMetrics cfg st inp = some (st', out) →
      Reachable cfg st'
  | shuffle (st : State) (buf : GoMap MetricSample) (hist : GoMap (List MetricSample)) :
      Reachable cfg st → buf.Perm st.metricBuffer → hist.Perm st.metricHistory →
      Reachable cfg { st with metricBuffer := buf, metricHistory := hist }

/-! ## Specification-level functions -/

/-- The number of leading (newest) entries of a history whose count is zero. -/
def zeroRun (h : List MetricSample) : Nat :=
  (h.takeWhile (fun s => decide (s.LogCount = 0))).length

/-- The counts of the baseline: the entries after the leading zeros. -/
def baseline (h : List MetricSample) : List Int :=
  (h.drop (zeroRun h)).map (fun s => s.LogCount)

/-- The arithmetic mean of a list of counts, in float64. -/
def mean (xs : List Int) : F64 :=
  F64.div (F64.ofInt xs.sum) (F64.ofInt xs.length)

/-- The squared deviation of one count from `mu`, in float64. -/
def sqDev (mu : F64) (x : Int) : F64 :=
  F64.mul (F64.sub (F64.ofInt x) mu) (F64.sub (F64.ofInt x) mu)

/-- The population standard deviation of a list of counts, in float64; the squared
deviations are added from left to right. -/
def stdDev (xs : List Int) : F64 :=
  F64.sqrt (F64.div ((xs.map (sqDev (mean xs))).foldl F64.add (F64.ofInt 0))
    (F64.ofInt xs.length))

/-- The dead-stream test of the specification on a history, in float64:
`mean / stdDev > 6 / Z`. -/
def deadTest (h : List MetricSample) : Bool :=
  F64.gt (F64.div (mean (baseline h)) (stdDev (baseline h)))
    (F64.div deadLogStreamThresholdFudgeFactor (F64.ofInt (zeroRun h)))

/-! ## 64-bit integers -/

/-- The integers that a Go `int`, `int64` or `time.Duration` holds on a 64-bit platform. -/
def isInt64 (x : Int) : Prop :=
  -9223372036854775808 ≤ x ∧ x < 9223372036854775808

instance isInt64.instDecidable (x : Int) : Decidable (isInt64 x) :=
  inferInstanceAs (Decidable (-9223372036854775808 ≤ x ∧ x < 9223372036854775808))

/-- The result of a Go operation on 64-bit integers whose exact value is `x`: two's
complement wrap-around. -/
def wrapInt64 (x : Int) : Int :=
  (x + 9223372036854775808) % 18446744073709551616 - 9223372036854775808

/-- The loop of line 137 with Go's addition: `previousSamplesLogCountSum += LogCount` for
each count of the baseline. -/
def goSum (xs : List Int) : Int :=
  xs.foldl (fun acc x => wrapInt64 (acc + x)) 0

/-- The integer arithmetic of the detector on one history stays within 64 bits: the flush
interval and every count are 64-bit integers, and so are the exact sum of the baseline
counts (line 137) and the exact product `Z * metricsFlushInterval` (line 163).  On such a
history the exact integers of `checkLogStream` are the 64-bit values of the code. -/
def InIntRange (metricsFlushInterval : Int) (h : List MetricSample) : Prop :=
  isInt64 metricsFlushInterval ∧ (∀ s ∈ h, isInt64 s.LogCount) ∧
    isInt64 (baseline h).sum ∧ isInt64 ((zeroRun h : Int) * metricsFlushInterval)

instance InIntRange.instDecidable (metricsFlushInterval : Int) (h : List MetricSample) :
    Decidable (InIntRange metricsFlushInterval h) :=
  inferInstanceAs (Decidable (isInt64 metricsFlushInterval ∧ (∀ s ∈ h, isInt64 s.LogCount) ∧
    isInt64 (baseline h).sum ∧ isInt64 ((zeroRun h : Int) * metricsFlushInterval)))

/-- The float64 value `x` is finite, positive and equal to the rational number `v`. -/
def IsFloat (x : F64) (v : ℚ) : Prop :=
  ∃ (m : Nat) (e : Int), x = F64.fin false m e ∧ 0 < m ∧ m < 2 ^ 53 ∧ (m : ℚ) * 2 ^ e = v

/-- Join byte strings with a one-byte separator between consecutive ones. -/
def joinSep (sep : UInt8) : List Bytes → Bytes
  | [] => []
  | [x] => x
  | x :: y :: rest => x ++ sep :: joinSep sep (y :: rest)

/-- A map entry rendered as `key=value`. -/
def keyValue (kv : Bytes × Bytes) : Bytes :=
  kv.1 ++ equalsByte :: kv.2

/-- The encoded points of the entries of a buffer, the first one with index `i`. -/
def encodedPoints (metricName : Bytes) (now : Nat → Int) :
    Nat → List (Bytes × MetricSample) → List Bytes
  | _, [] => []
  | i, (_, sample) :: rest =>
    (metricName ++ str ",ContainerName=" ++ sample.ContainerName ++ str ",PumpId=" ++
      sample.PumpId ++ str " Count=" ++ FormatInt sample.LogCount ++ str " " ++
      FormatInt (now i)) :: encodedPoints metricName now (i + 1) rest

/-- The invariant of the reachable states: the keys of each map are distinct, every key
contains a comma, and no history is longer than `metricHistorySampleCount`. -/
def State.WF (st : State) : Prop :=
  st.metricBuffer.keys.Nodup ∧ st.metricHistory.keys.Nodup ∧
  (∀ k ∈ st.metricBuffer.keys, commaByte ∈ k) ∧
  (∀ k ∈ st.metricHistory.keys, commaByte ∈ k) ∧
  ∀ k h, (k, h) ∈ st.metricHistory → h.length ≤ metricHistorySampleCount

/-- The effect of the first loop of the publish cycle on `metricHistory`: an empty history
for each buffered key that has none. -/
def addMissing (metricHistory : GoMap (List MetricSample)) :
    List (Bytes × MetricSample) → GoMap (List MetricSample)
  | [] => metricHistory
  | (tagsString, _) :: rest =>
    addMissing (match metricHistory.get tagsString with
      | some _ => metricHistory
      | none => metricHistory.set tagsString []) rest

/-- The sample a publish cycle records for a key (the zero value when `sampleFor` fails). -/
def recorded (metricBuffer : GoMap MetricSample) (tagsString : Bytes) : MetricSample :=
  (sampleFor metricBuffer tagsString).getD ⟨[], [], 0⟩

/-! ## Concrete inputs -/

/-- A sample of the stream `p`, `c` with the given count. -/
def sampleOf (n : Int) : MetricSample :=
  { ContainerName := str "c", PumpId := str "p", LogCount := n }

/-- One silent interval after a baseline of 19 counts with mean 10 and standard deviation 2. -/
def oneZeroHistory : List MetricSample :=
  [0, 12, 12, 12, 12, 12, 12, 12, 8, 8, 8, 8, 8, 8, 8, 13, 7, 11, 9, 10].map sampleOf

/-- Two silent intervals after a baseline of 18 counts with mean 10 and standard deviation 2. -/
def twoZeroHistory : List MetricSample :=
  [0, 0, 12, 12, 12, 12, 12, 12, 12, 12, 12, 8, 8, 8, 8, 8, 8, 8, 8, 8].map sampleOf

/-- Two silent intervals after nine counts of `2^25 + 1` and nine counts of twice that:
the mean is exactly three standard deviations. -/
def roundingHistory : List MetricSample :=
  [0, 0, 33554433, 33554433, 33554433, 33554433, 33554433, 33554433, 33554433, 33554433,
    33554433, 67108866, 67108866, 67108866, 67108866, 67108866, 67108866, 67108866,
    67108866, 67108866].map sampleOf

/-- Successive runs of `aggregateAndSendMetrics`, one per input, with what each run
published. -/
def runTicks (cfg : Config) : State → List TickInput → Option (State × List (Option Published))
  | st, [] => some (st, [])
  | st, inp :: rest =>
    match aggregateAndSendMetrics cfg st inp with
    | none => none
    | some (st', out) =>
      match runTicks cfg st' rest with
      | none => none
      | some (st'', outs) => some (st'', out :: outs)

/-- All the alerts sent during a run. -/
def alertsOfRun : Option (State × List (Option Published)) → List DeadPumpAlert
  | none => []
  | some (_, outs) =>
    (outs.map (fun o => match o with
      | none => []
      | some p => p.alerts)).flatten

/-- A sample whose `PumpId` contains a comma. -/
def commaSample : MetricSample :=
  { ContainerName := str "c", PumpId := str "a,b", LogCount := 1 }

/-- Twenty runs that all publish (flush interval 10, clock 11 after a publish at 0): the
first nineteen drain one `commaSample`, the last one drains nothing. -/
def commaTicks : List TickInput :=
  List.replicate 19 { samples := [commaSample], now := 11, pointTime := fun _ => 0,
                      nowAfter := 0 } ++
    [{ samples := [], now := 11, pointTime := fun _ => 0, nowAfter := 0 }]

/-- The entry of one key sends an alert: at least 20 samples, a run of zeros, and the
float64 test. -/
def flagged (h : List MetricSample) : Bool :=
  decide (metricHistorySampleCount ≤ h.length) && decide (0 < zeroRun h) && deadTest h

/-- A configuration with flush interval 10. -/
def demoConfig : Config :=
  { metricName := str "m", metricsFlushInterval := 10 }

/-- A run that drains two samples and publishes (the clock is 11 after `init` at 0). -/
def demoTickA : TickInput :=
  { samples := [sampleOf 5, sampleOf 7], now := 11, pointTime := fun _ => 1000, nowAfter := 20 }

/-- A run that drains one sample and does not publish (5 after the publish at 20). -/
def demoTickB : TickInput :=
  { samples := [sampleOf 1], now := 25, pointTime := fun _ => 2000, nowAfter := 26 }

/-- The state after `init`, `demoTickA` and `demoTickB`: one key, history `[2]`, buffer
count 1. -/
def demoState : State :=
  { metricBuffer := [(str "p,c", sampleOf 1)]
    metricHistory := [(str "p,c", [sampleOf 2])]
    lastMetricSent := 20 }

/-- The state after `init` at 0 and the twenty runs `commaTicks`: one key with a full
history, a zero in front of nineteen ones. -/
def fullState : State :=
  { metricBuffer := []
    metricHistory := [(str "a,b,c",
      { ContainerName := str "b", PumpId := str "a", LogCount := 0 } ::
        List.replicate 19 commaSample)]
    lastMetricSent := 0 }

/-! ## More concrete inputs -/

/-- A sample with a comma in its `PumpId`. -/
def keyClashA : MetricSample :=
  { ContainerName := str "c", PumpId := str "a,b", LogCount := 1 }

/-- A sample with a comma in its `ContainerName`; its joined key is that of `keyClashA`. -/
def keyClashB : MetricSample :=
  { ContainerName := str "b,c", PumpId := str "a", LogCount := 1 }

/-- One silent interval after a baseline of 19 counts with mean 4 and standard deviation 2:
zero is two standard deviations away from the mean. -/
def twoSigmaOneZero : List MetricSample :=
  [0, 6, 6, 6, 6, 6, 6, 6, 2, 2, 2, 2, 2, 2, 2, 7, 1, 5, 3, 4].map sampleOf

/-- One silent interval after a baseline of 19 counts with mean 2 and standard deviation 2:
zero is one standard deviation away from the mean. -/
def oneSigmaOneZero : List MetricSample :=
  [0, 3, 3, 3, 3, 3, 4, 4, 5, 5, 5, 0, 0, 0, 0, 0, 0, 0, 0, 0].map sampleOf

/-- Two silent intervals after a baseline of 18 counts with mean 1 and standard deviation 1:
zero is one standard deviation away from the mean. -/
def oneSigmaTwoZeros : List MetricSample :=
  [0, 0, 2, 2, 2, 2, 2, 2, 2, 2, 2, 0, 0, 0, 0, 0, 0, 0, 0, 0].map sampleOf

/-! ## The alert channel -/

/-- How code that sends on `deadLogStreamAlertChannel` ends: it runs to completion, or it
is parked at a send on the full channel (with the queue as it is and the alert it is
sending), or it panics. -/
inductive Run (σ : Type) where
  | done (result : σ) : Run σ
  | waiting (queue : List DeadPumpAlert) (alert : DeadPumpAlert) : Run σ
  | panicked : Run σ
  deriving DecidableEq, Repr

/-- The send statement `deadLogStreamAlertChannel <- alert` on the buffered channel made
by `make(chan DeadPumpAlert, deadLogStreamAlertChannelSize)`, when no receiver runs in
between: the alert is queued if there is room, otherwise the sender waits. -/
def chanSend (queue : List DeadPumpAlert) (alert : DeadPumpAlert) :
    Run (List DeadPumpAlert) :=
  if queue.length < deadLogStreamAlertChannelSize then Run.done (queue ++ [alert])
  else Run.waiting queue alert

/-- The sends of one loop body, in order. -/
def chanSendAll : List DeadPumpAlert → List DeadPumpAlert → Run (List DeadPumpAlert)
  | queue, [] => Run.done queue
  | queue, alert :: rest =>
    match chanSend queue alert with
    | Run.done queue' => chanSendAll queue' rest
    | Run.waiting q a => Run.waiting q a
    | Run.panicked => Run.panicked

/-- The function `checkMetricHistoryForDeadLogStreams` with the alert channel as state:
the loop over `metricHistory`, each body sending its alert on the channel. -/
def checkMetricHistoryOnChannel (metricsFlushInterval : Int) :
    GoMap (List MetricSample) → List DeadPumpAlert → Run (List DeadPumpAlert)
  | [], queue => Run.done queue
  | (tagValuesCSV, logStreamHistory) :: rest, queue =>
    match checkLogStream metricsFlushInterval tagValuesCSV logStreamHistory with
    | none => Run.panicked
    | some alerts =>
      match chanSendAll queue alerts with
      | Run.done queue' => checkMetricHistoryOnChannel metricsFlushInterval rest queue'
      | Run.waiting q a => Run.waiting q a
      | Run.panicked => Run.panicked

/-- The publish cycle with the alert channel as state: the new state, the payload and the
queue, when the cycle runs to its end. -/
def publishCycleOnChannel (cfg : Config) (st : State) (now : Nat → Int) (nowAfter : Int)
    (queue : List DeadPumpAlert) : Run (State × Bytes × List DeadPumpAlert) :=
  match encodeLoop cfg.metricName now st.metricBuffer.length st.metricBuffer 0 []
      st.metricHistory with
  | none => Run.panicked
  | some (buffer, metricHistory) =>
    match historyLoop st.metricBuffer metricHistory [] with
    | none => Run.panicked
    | some newMetricHistory =>
      match checkMetricHistoryOnChannel cfg.metricsFlushInterval newMetricHistory queue with
      | Run.panicked => Run.panicked
      | Run.waiting q a => Run.waiting q a
      | Run.done queue' =>
        Run.done ({ metricBuffer := [], metricHistory := newMetricHistory,
                    lastMetricSent := nowAfter }, buffer, queue')

/-- A full alert queue: one hundred alerts. -/
def fullQueue : List DeadPumpAlert :=
  List.replicate 100 { PumpId := str "q", DeadFor := 10 }

/-- A state whose only key has nineteen counts behind one zero, all buffers empty: the next
publish cycle records a second zero and flags the key. -/
def silentState : State :=
  { metricBuffer := []
    metricHistory := [(str "p,c",
      [0, 12, 12, 12, 12, 12, 12, 12, 12, 12, 8, 8, 8, 8, 8, 8, 8, 8, 8].map sampleOf)]
    lastMetricSent := 0 }

/-! ## `init` and the transport dispatch -/

/-- The constant `metricsChannelFlushIntervalString`. -/
def metricsChannelFlushIntervalString : Bytes := str "100ms"

/-- The configuration variables set by `init`. -/
structure Settings where
  metricsProtocol : Bytes
  metricsHostPort : Bytes
  metricsDatabaseName : Bytes
  metricName : Bytes
  logMetrics : Bytes
  metricsChannelFlushInterval : Int
  metricsFlushInterval : Int
  deriving DecidableEq, Repr

/-- The function `init`, up to the start of the scheduler.  The environment lookup
`getopt name fallback` is not part of the sources and is a parameter, as are
`time.ParseDuration` (`none` for an error) and the clock; a panic is `none`. -/
def init (getopt : Bytes → Bytes → Bytes) (ParseDuration : Bytes → Option Int) (now : Int) :
    Option (Settings × State) :=
  let metricsProtocol := getopt (str "METRICS_PROTOCOL") (str "udp")
  let metricsHostPort := getopt (str "METRICS_HOST_PORT") (str "172.17.0.1:8092")
  let metricsDatabaseName := getopt (str "METRICS_DATABASE_NAME") (str "aws")
  let metricName := getopt (str "METRIC_NAME") (str "logspout_log_count_by_container")
  let logMetrics := getopt (str "LOG_METRICS") (str "0")
  let metricsFlushIntervalString := getopt (str "METRICS_FLUSH_INTERVAL") (str "10s")
  match ParseDuration metricsChannelFlushIntervalString with
  | none => none
  | some _ =>
    match ParseDuration metricsFlushIntervalString with
    | none => none
    | some metricsFlushInterval =>
      match ParseDuration metricsChannelFlushIntervalString with
      | none => none
      | some metricsChannelFlushInterval =>
        if metricsProtocol ≠ str "udp" ∧ metricsProtocol ≠ str "http" ∧
            metricsProtocol ≠ str "https" then none
        else
          some ({ metricsProtocol := metricsProtocol
                  metricsHostPort := metricsHostPort
                  metricsDatabaseName := metricsDatabaseName
                  metricName := metricName
                  logMetrics := logMetrics
                  metricsChannelFlushInterval := metricsChannelFlushInterval
                  metricsFlushInterval := metricsFlushInterval },
                initState now)

/-- The branch of the publish cycle that hands the payload to the transport, lines 257 to
292. -/
inductive Dispatch where
  | httpPost (url : Bytes) (body : Bytes) : Dispatch
  | udpWrite (hostPort : Bytes) (datagram : Bytes) : Dispatch
  | unsupported : Dispatch
  deriving DecidableEq, Repr

/-- The choice of the transport from `metricsProtocol`. -/
def dispatch (s : Settings) (buffer : Bytes) : Dispatch :=
  if s.metricsProtocol = str "http" ∨ s.metricsProtocol = str "https" then
    Dispatch.httpPost (s.metricsProtocol ++ str "://" ++ s.metricsHostPort ++
      str "/write?db=" ++ s.metricsDatabaseName) buffer
  else if s.metricsProtocol = str "udp" then Dispatch.udpWrite s.metricsHostPort buffer
  else Dispatch.unsupported

/-- An environment without any of the variables: `getopt` returns the fallback. -/
def noEnv (_name fallback : Bytes) : Bytes := fallback

/-- An environment that sets `METRICS_PROTOCOL` to `tcp`. -/
def tcpEnv (name fallback : Bytes) : Bytes :=
  if name = str "METRICS_PROTOCOL" then str "tcp" else fallback

/-- The values of `time.ParseDuration` on the two strings used here, in nanoseconds. -/
def parseTwo (s : Bytes) : Option Int :=
  if s = str "100ms" then some 100000000
  else if s = str "10s" then some 10000000000
  else none

/-- Nineteen runs that all publish (flush interval 10, clock 11 after a publish at 0): nine
with 8 samples, nine with 12 samples, one with none. -/
def silentTicks : List TickInput :=
  List.replicate 9 { samples := List.replicate 8 (sampleOf 1), now := 11,
                     pointTime := fun _ => 0, nowAfter := 0 } ++
  List.replicate 9 { samples := List.replicate 12 (sampleOf 1), now := 11,
                     pointTime := fun _ => 0, nowAfter := 0 } ++
    [{ samples := [], now := 11, pointTime := fun _ => 0, nowAfter := 0 }]

/-! ## Publish cycles of a run -/

/-- The number of publish cycles since, and including, the first one whose buffer held
`key`; the published buffers are listed oldest first.  Zero when no cycle had the key. -/
def cyclesSince (key : Bytes) : List (GoMap MetricSample) → Nat
  | [] => 0
  | buf :: rest => if key ∈ buf.keys then rest.length + 1 else cyclesSince key rest

/-- The length of the history of a key, zero for a key without history. -/
def histLen (metricHistory : GoMap (List MetricSample)) (key : Bytes) : Nat :=
  ((metricHistory.get key).map List.length).getD 0

/-- The states reached from `init` (empty history), with the buffers that the publish
cycles of the run published, oldest first. -/
inductive ReachableAfter (cfg : Config) : List (GoMap MetricSample) → State → Prop where
  | init (now : Int) : ReachableAfter cfg [] (initState now)
  | idle (bufs : List (GoMap MetricSample)) (st st' : State) (inp : TickInput) :
      ReachableAfter cfg bufs st → aggregateAndSendMetrics cfg st inp = some (st', none) →
      ReachableAfter cfg bufs st'
  | publish (bufs : List (GoMap MetricSample)) (st st' : State) (inp : TickInput)
      (out : Published) :
      ReachableAfter cfg bufs st → aggregateAndSendMetrics cfg st inp = some (st', some out) →
      ReachableAfter cfg (bufs ++ [drainChannel st.metricBuffer inp.samples]) st'
  | shuffle (bufs : List (GoMap MetricSample)) (st : State) (buf : GoMap MetricSample)
      (hist : GoMap (List MetricSample)) :
      ReachableAfter cfg bufs st → buf.Perm st.metricBuffer → hist.Perm st.metricHistory →
      ReachableAfter cfg bufs { st with metricBuffer := buf, metricHistory := hist }

/-- The buffers published by successive runs of `aggregateAndSendMetrics`, oldest first. -/
def publishedBuffers (cfg : Config) : State → List TickInput → List (GoMap MetricSample)
  | _, [] => []
  | st, inp :: rest =>
    match aggregateAndSendMetrics cfg st inp with
    | none => []
    | some (st', none) => publishedBuffers cfg st' rest
    | some (st', some _) =>
      drainChannel st.metricBuffer inp.samples :: publishedBuffers cfg st' rest

/-! ## Map lemmas -/

theorem GoMap.get_set {β : Type} (m : GoMap β) (k k' : Bytes) (v : β) :
    (m.set k v).get k' = if k = k' then some v else m.get k' := by
  induction m with
  | nil => simp [GoMap.set, GoMap.get]
  | cons p t ih =>
    obtain ⟨a, b⟩ := p
    by_cases h : a = k
    · subst h
      by_cases h' : a = k' <;> simp [GoMap.set, GoMap.get, h']
    · by_cases h' : a = k'
      · subst h'
        have : ¬ k = a := fun e => h e.symm
        simp [GoMap.set, GoMap.get, h, this]
      · simp [GoMap.set, GoMap.get, h, h', ih]

/-! ## The loops of the detector -/

theorem forIndex_eq {α σ : Type} (h : List α) (body : σ → α → σ) (fuel i : Nat) (st : σ)
    (hf : h.length ≤ i + fuel) :
    forIndex h body fuel i st = some ((h.drop i).foldl body st) := by
  induction fuel generalizing i st with
  | zero =>
    have hi : ¬ i < h.length := by omega
    simp [forIndex, hi, List.drop_eq_nil_of_le (show h.length ≤ i by omega)]
  | succ fuel ih =>
    by_cases hi : i < h.length
    · have hd : h.drop i = h[i] :: h.drop (i + 1) := List.drop_eq_getElem_cons hi
      simp only [forIndex, hi, if_true, List.getElem?_eq_getElem hi]
      rw [ih (i + 1) (body st h[i]) (by omega), hd]
      rfl
    · simp [forIndex, hi, List.drop_eq_nil_of_le (show h.length ≤ i by omega)]

theorem zeroRun_cons (s : MetricSample) (t : List MetricSample) :
    zeroRun (s :: t) = if s.LogCount = 0 then zeroRun t + 1 else 0 := by
  by_cases h : s.LogCount = 0 <;> simp [zeroRun, List.takeWhile_cons, h]

theorem zeroRun_le (h : List MetricSample) : zeroRun h ≤ h.length := by
  induction h with
  | nil => simp [zeroRun]
  | cons s t ih =>
    rw [zeroRun_cons]
    split
    · simp only [List.length_cons]; omega
    · simp

theorem zeroRunLoop_eq (h : List MetricSample) (fuel i : Nat)
    (hf : h.length ≤ i + fuel) (hi : i ≤ h.length) :
    zeroRunLoop h fuel i = some (i + zeroRun (h.drop i)) := by
  induction fuel generalizing i with
  | zero =>
    have hlt : ¬ i < h.length := by omega
    have : h.drop i = [] := List.drop_eq_nil_of_le (by omega)
    simp [zeroRunLoop, hlt, this, zeroRun]
    omega
  | succ fuel ih =>
    by_cases hlt : i < h.length
    · have hd : h.drop i = h[i] :: h.drop (i + 1) := List.drop_eq_getElem_cons hlt
      simp only [zeroRunLoop, hlt, if_true, List.getElem?_eq_getElem hlt]
      rw [hd, zeroRun_cons]
      by_cases hz : h[i].LogCount = 0
      · simp only [hz, ne_eq, not_true_eq_false, if_false, if_true]
        rw [ih (i + 1) (by omega) (by omega)]
        congr 1
        omega
      · simp [hz]
    · have : h.drop i = [] := List.drop_eq_nil_of_le (by omega)
      simp [zeroRunLoop, hlt, this, zeroRun]
      omega

theorem Split_ne_nil (s : Bytes) (sep : UInt8) : Split s sep ≠ [] := by
  induction s with
  | nil => simp [Split]
  | cons c cs ih =>
    by_cases h : c = sep
    · simp [Split, h]
    · cases hs : Split cs sep with
      | nil => exact absurd hs ih
      | cons p ps => simp [Split, h, hs]

theorem Split_head (s : Bytes) (sep : UInt8) :
    (Split s sep)[0]? = some ((Split s sep).headD []) := by
  cases h : Split s sep with
  | nil => exact absurd h (Split_ne_nil s sep)
  | cons p ps => simp

theorem foldl_sum_count (xs : List MetricSample) (a b : Int) :
    xs.foldl (fun (acc : Int × Int) (s : MetricSample) => (acc.1 + s.LogCount, acc.2 + 1))
      (a, b) = (a + (xs.map (fun s => s.LogCount)).sum, b + (xs.length : Int)) := by
  induction xs generalizing a b with
  | nil => simp
  | cons x t ih =>
    simp only [List.foldl_cons, ih, List.map_cons, List.sum_cons, List.length_cons]
    congr 1
    · omega
    · push_cast; omega

theorem foldl_sqDev (xs : List MetricSample) (mu acc : F64) :
    xs.foldl (fun (acc : F64) (s : MetricSample) =>
        F64.add acc (F64.mul (F64.sub (F64.ofInt s.LogCount) mu)
          (F64.sub (F64.ofInt s.LogCount) mu))) acc =
      ((xs.map (fun s => s.LogCount)).map (sqDev mu)).foldl F64.add acc := by
  induction xs generalizing acc with
  | nil => rfl
  | cons x t ih => simp only [List.foldl_cons, List.map_cons, ih]; rfl

/-- The loops of `checkLogStream` compute the float64 test of the specification. -/
theorem checkLogStream_eq (metricsFlushInterval : Int) (tagValuesCSV : Bytes)
    (h : List MetricSample) :
    checkLogStream metricsFlushInterval tagValuesCSV h =
      if h.length < metricHistorySampleCount then some []
      else if 0 < zeroRun h ∧ deadTest h = true then
        some [{ PumpId := (Split tagValuesCSV commaByte).headD [],
                DeadFor := (zeroRun h : Int) * metricsFlushInterval }]
      else some [] := by
  unfold checkLogStream
  by_cases hlen : h.length < metricHistorySampleCount
  · simp [hlen]
  · rw [if_neg hlen, if_neg hlen]
    have hz := zeroRunLoop_eq h h.length 0 (by omega) (by omega)
    simp only [List.drop_zero, Nat.zero_add] at hz
    rw [hz]
    by_cases hpos : 0 < zeroRun h
    · simp only [hpos, if_true, true_and]
      rw [forIndex_eq h _ h.length (zeroRun h) (0, 0) (by omega), foldl_sum_count]
      simp only [Int.zero_add]
      rw [forIndex_eq h _ h.length (zeroRun h) (F64.ofInt 0) (by omega), foldl_sqDev]
      have hb : (h.drop (zeroRun h)).map (fun s => s.LogCount) = baseline h := rfl
      have hl : ((h.drop (zeroRun h)).length : Int) = ((baseline h).length : Int) := by
        simp [baseline]
      rw [hb, hl, Split_head]
      have hmean : F64.div (F64.ofInt (baseline h).sum)
          (F64.ofInt ((baseline h).length : Int)) = mean (baseline h) := rfl
      rw [hmean]
      dsimp only
      have hsd : F64.sqrt (F64.div (((baseline h).map (sqDev (mean (baseline h)))).foldl
          F64.add (F64.ofInt 0)) (F64.ofInt ((baseline h).length : Int))) =
            stdDev (baseline h) := rfl
      rw [hsd]
      rfl
    · simp [hpos]

/-! ## The detector as a whole -/

/-- The alerts of one entry of the history map, by the float64 test of the specification. -/
theorem checkLogStream_cases (metricsFlushInterval : Int) (tagValuesCSV : Bytes)
    (h : List MetricSample) :
    (checkLogStream metricsFlushInterval tagValuesCSV h =
        some [{ PumpId := (Split tagValuesCSV commaByte).headD [],
                DeadFor := (zeroRun h : Int) * metricsFlushInterval }] ∧
      metricHistorySampleCount ≤ h.length ∧ 0 < zeroRun h ∧ deadTest h = true) ∨
    (checkLogStream metricsFlushInterval tagValuesCSV h = some [] ∧
      ¬ (metricHistorySampleCount ≤ h.length ∧ 0 < zeroRun h ∧ deadTest h = true)) := by
  rw [checkLogStream_eq]
  by_cases hlen : h.length < metricHistorySampleCount
  · right
    rw [if_pos hlen]
    exact ⟨rfl, fun hc => absurd hc.1 (by omega)⟩
  · rw [if_neg hlen]
    by_cases hd : 0 < zeroRun h ∧ deadTest h = true
    · left
      rw [if_pos hd]
      exact ⟨rfl, by omega, hd.1, hd.2⟩
    · right
      rw [if_neg hd]
      exact ⟨rfl, fun hc => hd ⟨hc.2.1, hc.2.2⟩⟩

theorem checkMetricHistory_cons (metricsFlushInterval : Int) (k : Bytes)
    (h : List MetricSample) (rest : GoMap (List MetricSample))
    (alerts more : List DeadPumpAlert)
    (ha : checkLogStream metricsFlushInterval k h = some alerts)
    (hm : checkMetricHistoryForDeadLogStreams metricsFlushInterval rest = some more) :
    checkMetricHistoryForDeadLogStreams metricsFlushInterval ((k, h) :: rest) =
      some (alerts ++ more) := by
  simp [checkMetricHistoryForDeadLogStreams, ha, hm]

theorem checkLogStream_total (metricsFlushInterval : Int) (k : Bytes) (h : List MetricSample) :
    ∃ alerts, checkLogStream metricsFlushInterval k h = some alerts := by
  rcases checkLogStream_cases metricsFlushInterval k h with hc | hc
  · exact ⟨_, hc.1⟩
  · exact ⟨_, hc.1⟩

theorem checkMetricHistory_total (metricsFlushInterval : Int) (m : GoMap (List MetricSample)) :
    ∃ alerts, checkMetricHistoryForDeadLogStreams metricsFlushInterval m = some alerts := by
  induction m with
  | nil => exact ⟨[], rfl⟩
  | cons e rest ih =>
    obtain ⟨k, h⟩ := e
    obtain ⟨more, hm⟩ := ih
    obtain ⟨alerts, ha⟩ := checkLogStream_total metricsFlushInterval k h
    exact ⟨_, checkMetricHistory_cons _ _ _ _ _ _ ha hm⟩

theorem checkMetricHistory_append (metricsFlushInterval : Int)
    (pre post : GoMap (List MetricSample)) (a b : List DeadPumpAlert)
    (ha : checkMetricHistoryForDeadLogStreams metricsFlushInterval pre = some a)
    (hb : checkMetricHistoryForDeadLogStreams metricsFlushInterval post = some b) :
    checkMetricHistoryForDeadLogStreams metricsFlushInterval (pre ++ post) = some (a ++ b) := by
  induction pre generalizing a with
  | nil =>
    simp only [checkMetricHistoryForDeadLogStreams, Option.some.injEq] at ha
    subst ha
    simpa using hb
  | cons e rest ih =>
    obtain ⟨k, h⟩ := e
    obtain ⟨al, hal⟩ := checkLogStream_total metricsFlushInterval k h
    obtain ⟨more, hm⟩ := checkMetricHistory_total metricsFlushInterval rest
    rw [checkMetricHistory_cons _ _ _ _ _ _ hal hm] at ha
    simp only [Option.some.injEq] at ha
    subst ha
    rw [List.cons_append, checkMetricHistory_cons _ _ _ _ _ _ hal (ih more hm)]
    simp

/-- An entry that sends no alert can be left out of the history map. -/
theorem checkMetricHistory_skip (metricsFlushInterval : Int) (k : Bytes)
    (h : List MetricSample) (pre post : GoMap (List MetricSample))
    (hk : checkLogStream metricsFlushInterval k h = some []) :
    checkMetricHistoryForDeadLogStreams metricsFlushInterval (pre ++ (k, h) :: post) =
      checkMetricHistoryForDeadLogStreams metricsFlushInterval (pre ++ post) := by
  obtain ⟨a, ha⟩ := checkMetricHistory_total metricsFlushInterval pre
  obtain ⟨b, hb⟩ := checkMetricHistory_total metricsFlushInterval post
  rw [checkMetricHistory_append _ _ _ _ _ ha (checkMetricHistory_cons _ _ _ _ _ _ hk hb),
    checkMetricHistory_append _ _ _ _ _ ha hb]
  simp

theorem zeroRun_all_zero (h : List MetricSample) (hz : ∀ s ∈ h, s.LogCount = 0) :
    zeroRun h = h.length := by
  induction h with
  | nil => rfl
  | cons s t ih =>
    rw [zeroRun_cons, if_pos (hz s (List.mem_cons_self s t)),
      ih (fun x hx => hz x (List.mem_cons_of_mem s hx))]
    rfl

/-- C7: a key whose history has fewer than 20 entries gets no alert, whatever the entries
are: its loop body sends nothing, and the detector's alerts are those of the map without
the entry. -/
theorem short_history_no_alert (metricsFlushInterval : Int) (key : Bytes)
    (hist : List MetricSample) (hlen : hist.length < 20) :
    checkLogStream metricsFlushInterval key hist = some [] ∧
    ∀ pre post : GoMap (List MetricSample),
      checkMetricHistoryForDeadLogStreams metricsFlushInterval (pre ++ (key, hist) :: post) =
        checkMetricHistoryForDeadLogStreams metricsFlushInterval (pre ++ post) := by
  have hk : checkLogStream metricsFlushInterval key hist = some [] := by
    rw [checkLogStream_eq, if_pos hlen]
  exact ⟨hk, fun pre post => checkMetricHistory_skip _ _ _ _ _ hk⟩

theorem short_history_no_alert_witness :
    checkLogStream 10 (str "p,c") (List.replicate 19 (sampleOf 0)) = some [] ∧
    ∀ pre post : GoMap (List MetricSample),
      checkMetricHistoryForDeadLogStreams 10
          (pre ++ (str "p,c", List.replicate 19 (sampleOf 0)) :: post) =
        checkMetricHistoryForDeadLogStreams 10 (pre ++ post) :=
  short_history_no_alert 10 (str "p,c") (List.replicate 19 (sampleOf 0)) (by decide)

/-- C9: a key whose 20-entry history holds only zero counts gets no alert: the run of zeros
is the whole history, the baseline is empty, its mean and standard deviation are NaN, and
the comparison with NaN is false. -/
theorem all_zero_history_no_alert (metricsFlushInterval : Int) (key : Bytes)
    (hist : List MetricSample) (hlen : hist.length = 20)
    (hzero : ∀ s ∈ hist, s.LogCount = 0) :
    zeroRun hist = 20 ∧ baseline hist = [] ∧
    mean (baseline hist) = F64.nan ∧ stdDev (baseline hist) = F64.nan ∧
    checkLogStream metricsFlushInterval key hist = some [] ∧
    ∀ pre post : GoMap (List MetricSample),
      checkMetricHistoryForDeadLogStreams metricsFlushInterval (pre ++ (key, hist) :: post) =
        checkMetricHistoryForDeadLogStreams metricsFlushInterval (pre ++ post) := by
  have hz : zeroRun hist = 20 := by rw [zeroRun_all_zero hist hzero, hlen]
  have hb : baseline hist = [] := by
    unfold baseline
    rw [hz, List.drop_eq_nil_of_le (by omega)]
    rfl
  have hm : mean ([] : List Int) = F64.nan := by decide
  have hs : stdDev ([] : List Int) = F64.nan := by decide
  have hd : deadTest hist = false := by
    unfold deadTest
    rw [hb, hm, hs]
    simp [F64.div, F64.gt]
  have hk : checkLogStream metricsFlushInterval key hist = some [] := by
    rw [checkLogStream_eq, if_neg (by rw [hlen]; decide), if_neg (by simp [hd])]
  exact ⟨hz, hb, hb ▸ hm, hb ▸ hs, hk, fun pre post => checkMetricHistory_skip _ _ _ _ _ hk⟩

theorem all_zero_history_no_alert_witness :
    zeroRun (List.replicate 20 (sampleOf 0)) = 20 ∧
    baseline (List.replicate 20 (sampleOf 0)) = [] ∧
    mean (baseline (List.replicate 20 (sampleOf 0))) = F64.nan ∧
    stdDev (baseline (List.replicate 20 (sampleOf 0))) = F64.nan ∧
    checkLogStream 10 (str "p,c") (List.replicate 20 (sampleOf 0)) = some [] ∧
    ∀ pre post : GoMap (List MetricSample),
      checkMetricHistoryForDeadLogStreams 10
          (pre ++ (str "p,c", List.replicate 20 (sampleOf 0)) :: post) =
        checkMetricHistoryForDeadLogStreams 10 (pre ++ post) :=
  all_zero_history_no_alert 10 (str "p,c") (List.replicate 20 (sampleOf 0)) (by decide)
    (by decide)

/-! ## 64-bit arithmetic -/

theorem wrapInt64_of_isInt64 (x : Int) (h : isInt64 x) : wrapInt64 x = x := by
  unfold isInt64 at h
  unfold wrapInt64
  omega

theorem wrapInt64_add (a b : Int) : wrapInt64 (wrapInt64 a + b) = wrapInt64 (a + b) := by
  unfold wrapInt64
  omega

theorem foldl_wrapInt64 (xs : List Int) (a : Int) :
    xs.foldl (fun acc x => wrapInt64 (acc + x)) (wrapInt64 a) = wrapInt64 (a + xs.sum) := by
  induction xs generalizing a with
  | nil => simp
  | cons x rest ih =>
    rw [List.foldl_cons, wrapInt64_add, ih, List.sum_cons, Int.add_assoc]

/-- Go's sum loop gives the exact sum wrapped once, whatever the intermediate sums. -/
theorem goSum_eq (xs : List Int) : goSum xs = wrapInt64 xs.sum := by
  have h := foldl_wrapInt64 xs 0
  have h0 : wrapInt64 0 = 0 := by decide
  rw [h0, Int.zero_add] at h
  exact h

theorem goSum_of_isInt64 (xs : List Int) (h : isInt64 xs.sum) : goSum xs = xs.sum := by
  rw [goSum_eq, wrapInt64_of_isInt64 _ h]

/-- Beyond the range the 64-bit values differ from the exact ones: two intervals of
5400000000000000000 ns wrap to a negative duration, and three counts of `2^62` to a
negative sum. -/
theorem wrapInt64_overflow :
    wrapInt64 (2 * 5400000000000000000) = -7646744073709551616 ∧
    ¬ isInt64 (2 * 5400000000000000000) ∧
    goSum [4611686018427387904, 4611686018427387904, 4611686018427387904] =
      -4611686018427387904 := by
  decide

theorem inIntRange_exact (metricsFlushInterval : Int) (h : List MetricSample)
    (hr : InIntRange metricsFlushInterval h) :
    goSum (baseline h) = (baseline h).sum ∧
    wrapInt64 ((zeroRun h : Int) * metricsFlushInterval) =
      (zeroRun h : Int) * metricsFlushInterval :=
  ⟨goSum_of_isInt64 _ hr.2.2.1, wrapInt64_of_isInt64 _ hr.2.2.2⟩

/-! ## The dead-stream test -/

theorem baseline_roundingHistory :
    baseline roundingHistory =
      [33554433, 33554433, 33554433, 33554433, 33554433, 33554433, 33554433, 33554433,
        33554433, 67108866, 67108866, 67108866, 67108866, 67108866, 67108866, 67108866,
        67108866, 67108866] := by
  decide

/-- C6, counterexample: for a 20-entry history of non-negative counts with two leading zeros
whose baseline has mean exactly three standard deviations (so `mean/stdDev > 6/2` is false
over the reals, and the standard deviation is positive), the detector still sends an
alert: the float64 standard deviation is rounded below the exact one. -/
theorem rounding_history_alert :
    roundingHistory.length = 20 ∧ (∀ s ∈ roundingHistory, 0 ≤ s.LogCount) ∧
    zeroRun roundingHistory = 2 ∧
    (let xs : List ℝ := (baseline roundingHistory).map (fun x => (x : ℝ))
     let mu : ℝ := xs.sum / xs.length
     let sd : ℝ := Real.sqrt ((xs.map (fun x => (x - mu) ^ 2)).sum / xs.length)
     0 < sd ∧ ¬ (mu / sd > 6 / 2)) ∧
    checkLogStream 10 (str "p,c") roundingHistory =
      some [{ PumpId := str "p", DeadFor := 20 }] := by
  refine ⟨by decide, by decide, by decide, ?_, by decide!⟩
  rw [baseline_roundingHistory]
  have hv : ((([33554433, 33554433, 33554433, 33554433, 33554433, 33554433, 33554433,
      33554433, 33554433, 67108866, 67108866, 67108866, 67108866, 67108866, 67108866,
      67108866, 67108866, 67108866] : List Int).map (fun x => (x : ℝ))).map
        (fun x => (x - (100663299 / 2 : ℝ)) ^ 2)).sum / 18 = (33554433 / 2 : ℝ) ^ 2 := by
    norm_num [List.map, List.sum_cons]
  have hmu : (([33554433, 33554433, 33554433, 33554433, 33554433, 33554433, 33554433,
      33554433, 33554433, 67108866, 67108866, 67108866, 67108866, 67108866, 67108866,
      67108866, 67108866, 67108866] : List Int).map (fun x => (x : ℝ))).sum / 18 =
        (100663299 / 2 : ℝ) := by
    norm_num [List.map, List.sum_cons]
  have hlen : ((([33554433, 33554433, 33554433, 33554433, 33554433, 33554433, 33554433,
      33554433, 33554433, 67108866, 67108866, 67108866, 67108866, 67108866, 67108866,
      67108866, 67108866, 67108866] : List Int).map (fun x => (x : ℝ))).length : ℝ) = 18 := by
    simp
  simp only [hlen, hmu, hv]
  rw [Real.sqrt_sq (by norm_num)]
  constructor
  · norm_num
  · norm_num

/-- C6, amended: for a 20-entry history on which the integer arithmetic of the detector
stays within 64 bits (so that the exact sum and product of the embedding are the values of
the code), the detector sends an alert for the key exactly when there is a run of `Z ≥ 1`
leading zeros and `mean/stdDev > 6/Z`, where the mean, the standard deviation and the two
quotients are the float64 values; otherwise it sends nothing.  A baseline of mean 10 and
standard deviation 2 gives no alert after one zero and an alert after two. -/
theorem dead_test_float64 (metricsFlushInterval : Int) (key : Bytes)
    (hist : List MetricSample) (hlen : hist.length = 20)
    (hrange : InIntRange metricsFlushInterval hist)
    (hdur : isInt64 (2 * metricsFlushInterval)) :
    (goSum (baseline hist) = (baseline hist).sum ∧
      wrapInt64 ((zeroRun hist : Int) * metricsFlushInterval) =
        (zeroRun hist : Int) * metricsFlushInterval ∧
      wrapInt64 (2 * metricsFlushInterval) = 2 * metricsFlushInterval) ∧
    ((∃ alert, checkLogStream metricsFlushInterval key hist = some [alert]) ↔
      (1 ≤ zeroRun hist ∧
        F64.gt (F64.div (mean (baseline hist)) (stdDev (baseline hist)))
          (F64.div deadLogStreamThresholdFudgeFactor (F64.ofInt (zeroRun hist))) = true)) ∧
    ((¬ ∃ alert, checkLogStream metricsFlushInterval key hist = some [alert]) →
      checkLogStream metricsFlushInterval key hist = some []) ∧
    (mean (baseline oneZeroHistory) = F64.ofInt 10 ∧
      stdDev (baseline oneZeroHistory) = F64.ofInt 2 ∧ zeroRun oneZeroHistory = 1 ∧
      checkLogStream metricsFlushInterval key oneZeroHistory = some []) ∧
    (mean (baseline twoZeroHistory) = F64.ofInt 10 ∧
      stdDev (baseline twoZeroHistory) = F64.ofInt 2 ∧ zeroRun twoZeroHistory = 2 ∧
      checkLogStream metricsFlushInterval key twoZeroHistory =
        some [{ PumpId := (Split key commaByte).headD [],
                DeadFor := 2 * metricsFlushInterval }]) := by
  have hcases := checkLogStream_cases metricsFlushInterval key hist
  have hexact := inIntRange_exact metricsFlushInterval hist hrange
  refine ⟨⟨hexact.1, hexact.2, wrapInt64_of_isInt64 _ hdur⟩, ⟨?_, ?_⟩, ?_,
    ⟨by decide!, by decide!, by decide, ?_⟩, ⟨by decide!, by decide!, by decide, ?_⟩⟩
  · rintro ⟨alert, ha⟩
    rcases hcases with hc | hc
    · exact ⟨hc.2.2.1, hc.2.2.2⟩
    · rw [hc.1] at ha
      simp at ha
  · rintro ⟨hz, hd⟩
    rcases hcases with hc | hc
    · exact ⟨_, hc.1⟩
    · exact absurd ⟨by rw [hlen], hz, hd⟩ hc.2
  · intro hno
    rcases hcases with hc | hc
    · exact absurd ⟨_, hc.1⟩ hno
    · exact hc.1
  · have hd : deadTest oneZeroHistory = false := by decide!
    rw [checkLogStream_eq, if_neg (by decide), if_neg (by simp [hd])]
  · have hd : deadTest twoZeroHistory = true := by decide!
    have hz : zeroRun twoZeroHistory = 2 := by decide
    rw [checkLogStream_eq, if_neg (by decide), if_pos ⟨by decide, hd⟩, hz]
    rfl

theorem dead_test_float64_witness :
    (goSum (baseline roundingHistory) = (baseline roundingHistory).sum ∧
      wrapInt64 ((zeroRun roundingHistory : Int) * 10) = (zeroRun roundingHistory : Int) * 10 ∧
      wrapInt64 (2 * 10) = 2 * 10) ∧
    ((∃ alert, checkLogStream 10 (str "p,c") roundingHistory = some [alert]) ↔
      (1 ≤ zeroRun roundingHistory ∧
        F64.gt (F64.div (mean (baseline roundingHistory)) (stdDev (baseline roundingHistory)))
          (F64.div deadLogStreamThresholdFudgeFactor
            (F64.ofInt (zeroRun roundingHistory))) = true)) ∧
    ((¬ ∃ alert, checkLogStream 10 (str "p,c") roundingHistory = some [alert]) →
      checkLogStream 10 (str "p,c") roundingHistory = some []) ∧
    (mean (baseline oneZeroHistory) = F64.ofInt 10 ∧
      stdDev (baseline oneZeroHistory) = F64.ofInt 2 ∧ zeroRun oneZeroHistory = 1 ∧
      checkLogStream 10 (str "p,c") oneZeroHistory = some []) ∧
    (mean (baseline twoZeroHistory) = F64.ofInt 10 ∧
      stdDev (baseline twoZeroHistory) = F64.ofInt 2 ∧ zeroRun twoZeroHistory = 2 ∧
      checkLogStream 10 (str "p,c") twoZeroHistory =
        some [{ PumpId := (Split (str "p,c") commaByte).headD [], DeadFor := 2 * 10 }]) :=
  dead_test_float64 10 (str "p,c") roundingHistory (by decide) (by decide) (by decide)

/-! ## The fields of an alert -/

theorem Split_join_head (p c : Bytes) (sep : UInt8) (hp : sep ∉ p) :
    (Split (p ++ sep :: c) sep).headD [] = p := by
  induction p with
  | nil => simp [Split]
  | cons x t ih =>
    have hx : ¬ x = sep := fun e => hp (by simp [e])
    have ht : sep ∉ t := fun e => hp (List.mem_cons_of_mem x e)
    have := ih ht
    cases hs : Split (t ++ sep :: c) sep with
    | nil => exact absurd hs (Split_ne_nil _ _)
    | cons q qs =>
      rw [hs] at this
      simp only [List.headD_cons] at this
      simp [Split, hx, hs, this]

theorem checkLogStream_flagged (metricsFlushInterval : Int) (key : Bytes)
    (h : List MetricSample) :
    checkLogStream metricsFlushInterval key h =
      some (if flagged h = true then
        [{ PumpId := (Split key commaByte).headD [],
           DeadFor := (zeroRun h : Int) * metricsFlushInterval }] else []) := by
  rcases checkLogStream_cases metricsFlushInterval key h with hc | hc
  · have hf : flagged h = true := by simp [flagged, hc.2.1, hc.2.2.1, hc.2.2.2]
    rw [hc.1, if_pos hf]
  · have hf : ¬ flagged h = true := by
      intro hf
      simp only [flagged, Bool.and_eq_true, decide_eq_true_eq] at hf
      exact hc.2 ⟨hf.1.1, hf.1.2, hf.2⟩
    rw [hc.1, if_neg hf]

/-- C10, counterexample: a key created by samples whose `PumpId` is `a,b` is flagged after
nineteen intervals with one sample and one silent interval, and the alert carries the
`PumpId` `a`. -/
theorem comma_pumpId_alert :
    alertsOfRun (runTicks { metricName := str "m", metricsFlushInterval := 10 }
      (initState 0) commaTicks) = [{ PumpId := str "a", DeadFor := 10 }] ∧
    commaSample.PumpId = str "a,b" ∧ str "a" ≠ commaSample.PumpId := by
  refine ⟨by decide!, by decide, by decide⟩

/-- C10, amended: on a history map on which the integer arithmetic of the detector stays
within 64 bits (so that the exact sums and products of the embedding are the values of the
code), the detector sends one alert for each flagged key and none for the other keys; the
alert of a key made from a sample whose `PumpId` contains no comma carries that `PumpId`
(in general it carries the text of the key before its first comma) and `DeadFor` equal to
`Z` times the flush interval. -/
theorem alert_fields (metricsFlushInterval : Int) (s : MetricSample) (h : List MetricSample)
    (pre post : GoMap (List MetricSample)) (hs : commaByte ∉ s.PumpId)
    (hrange : ∀ e ∈ pre ++ (tagsStringOf s, h) :: post,
      InIntRange metricsFlushInterval e.2) :
    (∀ e ∈ pre ++ (tagsStringOf s, h) :: post,
      goSum (baseline e.2) = (baseline e.2).sum ∧
      wrapInt64 ((zeroRun e.2 : Int) * metricsFlushInterval) =
        (zeroRun e.2 : Int) * metricsFlushInterval) ∧
    ∃ a b, checkMetricHistoryForDeadLogStreams metricsFlushInterval pre = some a ∧
      checkMetricHistoryForDeadLogStreams metricsFlushInterval post = some b ∧
      checkMetricHistoryForDeadLogStreams metricsFlushInterval
          (pre ++ (tagsStringOf s, h) :: post) =
        some (a ++ (if flagged h = true then
          [{ PumpId := s.PumpId, DeadFor := (zeroRun h : Int) * metricsFlushInterval }]
          else []) ++ b) := by
  obtain ⟨a, ha⟩ := checkMetricHistory_total metricsFlushInterval pre
  obtain ⟨b, hb⟩ := checkMetricHistory_total metricsFlushInterval post
  refine ⟨fun e he => inIntRange_exact metricsFlushInterval e.2 (hrange e he), a, b, ha, hb, ?_⟩
  have hk := checkLogStream_flagged metricsFlushInterval (tagsStringOf s) h
  have hp : (Split (tagsStringOf s) commaByte).headD [] = s.PumpId :=
    Split_join_head s.PumpId s.ContainerName commaByte hs
  rw [hp] at hk
  rw [checkMetricHistory_append _ _ _ _ _ ha (checkMetricHistory_cons _ _ _ _ _ _ hk hb)]
  simp

theorem alert_fields_witness :
    (∀ e ∈ ([] : GoMap (List MetricSample)) ++ (tagsStringOf (sampleOf 0), twoZeroHistory) :: [],
      goSum (baseline e.2) = (baseline e.2).sum ∧
      wrapInt64 ((zeroRun e.2 : Int) * 10) = (zeroRun e.2 : Int) * 10) ∧
    ∃ a b, checkMetricHistoryForDeadLogStreams 10 [] = some a ∧
      checkMetricHistoryForDeadLogStreams 10 [] = some b ∧
      checkMetricHistoryForDeadLogStreams 10
          ([] ++ (tagsStringOf (sampleOf 0), twoZeroHistory) :: []) =
        some (a ++ (if flagged twoZeroHistory = true then
          [{ PumpId := (sampleOf 0).PumpId, DeadFor := (zeroRun twoZeroHistory : Int) * 10 }]
          else []) ++ b) :=
  alert_fields 10 (sampleOf 0) twoZeroHistory [] [] (by decide) (by decide)

/-! ## Byte order and `SortByteSlices` -/

theorem bytesCompare_values (a b : Bytes) :
    bytesCompare a b = -1 ∨ bytesCompare a b = 0 ∨ bytesCompare a b = 1 := by
  induction a generalizing b with
  | nil => cases b <;> simp [bytesCompare]
  | cons x t ih =>
    cases b with
    | nil => simp [bytesCompare]
    | cons y u =>
      simp only [bytesCompare]
      split
      · simp
      · split
        · simp
        · exact ih u

theorem bytesCompare_eq_zero (a b : Bytes) : bytesCompare a b = 0 ↔ a = b := by
  induction a generalizing b with
  | nil => cases b <;> simp [bytesCompare]
  | cons x t ih =>
    cases b with
    | nil => simp [bytesCompare]
    | cons y u =>
      simp only [bytesCompare]
      split
      · rename_i h
        have : x ≠ y := fun e => by subst e; omega
        simp [this]
      · split
        · rename_i h1 h2
          have : x ≠ y := fun e => by subst e; omega
          simp [this]
        · rename_i h1 h2
          have hxy : x = y := UInt8.ext (by omega)
          simp [hxy, ih u]

theorem bytesCompare_swap (a b : Bytes) : bytesCompare a b = -1 ↔ bytesCompare b a = 1 := by
  induction a generalizing b with
  | nil => cases b <;> simp [bytesCompare]
  | cons x t ih =>
    cases b with
    | nil => simp [bytesCompare]
    | cons y u =>
      simp only [bytesCompare]
      by_cases h1 : x.toNat < y.toNat
      · have h2 : ¬ y.toNat < x.toNat := by omega
        simp [h1, h2]
      · by_cases h2 : y.toNat < x.toNat
        · simp [h1, h2]
        · simp [h1, h2, ih u]

theorem bytesCompare_trans (a b c : Bytes) (hab : bytesCompare a b = -1)
    (hbc : bytesCompare b c = -1) : bytesCompare a c = -1 := by
  induction a generalizing b c with
  | nil =>
    cases b with
    | nil => simp [bytesCompare] at hab
    | cons y u =>
      cases c with
      | nil => simp [bytesCompare] at hbc
      | cons z v => simp [bytesCompare]
  | cons x t ih =>
    cases b with
    | nil => simp [bytesCompare] at hab
    | cons y u =>
      cases c with
      | nil => simp [bytesCompare] at hbc
      | cons z v =>
        simp only [bytesCompare] at hab hbc ⊢
        by_cases h1 : x.toNat < y.toNat
        · by_cases h2 : y.toNat < z.toNat
          · simp [show x.toNat < z.toNat by omega]
          · by_cases h3 : z.toNat < y.toNat
            · simp [h2, h3] at hbc
            · simp [show x.toNat < z.toNat by omega]
        · by_cases h1' : y.toNat < x.toNat
          · simp [h1, h1'] at hab
          · simp only [h1, h1', if_false] at hab
            by_cases h2 : y.toNat < z.toNat
            · simp [show x.toNat < z.toNat by omega]
            · by_cases h3 : z.toNat < y.toNat
              · simp [h2, h3] at hbc
              · simp only [h2, h3, if_false] at hbc
                simp [show ¬ x.toNat < z.toNat by omega, show ¬ z.toNat < x.toNat by omega,
                  ih u v hab hbc]

theorem Less_iff (a b : Bytes) : Less a b = true ↔ bytesCompare a b = -1 := by
  unfold Less
  by_cases h : bytesCompare a b = -1
  · simp [h]
  · simp [h]

/-- When `b` is not below `a`, then `a` is below `b` or equal to it. -/
theorem not_Less_cases (a b : Bytes) (h : ¬ Less b a = true) :
    bytesCompare a b = -1 ∨ a = b := by
  rw [Less_iff] at h
  rcases bytesCompare_values b a with h1 | h1 | h1
  · exact absurd h1 h
  · exact Or.inr ((bytesCompare_eq_zero b a).mp h1).symm
  · exact Or.inl ((bytesCompare_swap a b).mpr h1)

theorem sortInsert_perm (a : Bytes) (l : List Bytes) : (sortInsert a l).Perm (a :: l) := by
  induction l with
  | nil => simp [sortInsert]
  | cons b t ih =>
    simp only [sortInsert]
    split
    · exact ((List.Perm.cons b ih).trans (List.Perm.swap a b t))
    · exact List.Perm.refl _

theorem SortByteSlices_perm (l : List Bytes) : (SortByteSlices l).Perm l := by
  induction l with
  | nil => simp [SortByteSlices]
  | cons a t ih =>
    simp only [SortByteSlices]
    exact (sortInsert_perm a _).trans (List.Perm.cons a ih)

theorem sortInsert_sorted (a : Bytes) (l : List Bytes)
    (hl : l.Pairwise (fun x y => ¬ Less y x = true)) :
    (sortInsert a l).Pairwise (fun x y => ¬ Less y x = true) := by
  induction l with
  | nil => simp [sortInsert]
  | cons b t ih =>
    rw [List.pairwise_cons] at hl
    simp only [sortInsert]
    by_cases hba : Less b a = true
    · rw [if_pos hba, List.pairwise_cons]
      refine ⟨?_, ih hl.2⟩
      intro y hy
      rcases List.mem_cons.mp ((sortInsert_perm a t).subset hy) with hya | hyt
      · subst hya
        intro hc
        rw [Less_iff] at hba hc
        have := (bytesCompare_swap b y).mp hba
        omega
      · exact hl.1 y hyt
    · rw [if_neg hba, List.pairwise_cons]
      refine ⟨?_, List.pairwise_cons.mpr hl⟩
      intro y hy
      rcases List.mem_cons.mp hy with hyb | hyt
      · subst hyb
        exact hba
      · intro hc
        -- y < a and a ≤ b give y < b, against b ≤ y
        rw [Less_iff] at hc
        have hyb : bytesCompare y b = -1 := by
          rcases not_Less_cases a b hba with h1 | h1
          · exact bytesCompare_trans y a b hc h1
          · rw [← h1]; exact hc
        exact hl.1 y hyt ((Less_iff y b).mpr hyb)

theorem SortByteSlices_sorted (l : List Bytes) :
    (SortByteSlices l).Pairwise (fun x y => ¬ Less y x = true) := by
  induction l with
  | nil => simp [SortByteSlices]
  | cons a t ih =>
    simp only [SortByteSlices]
    exact sortInsert_sorted a _ ih

/-- Distinct keys come out of `SortByteSlices` in strictly ascending byte order. -/
theorem SortByteSlices_ascending (l : List Bytes) (hl : l.Nodup) :
    (SortByteSlices l).Pairwise (fun x y => bytesCompare x y = -1) := by
  have hs := SortByteSlices_sorted l
  have hn : (SortByteSlices l).Nodup := (SortByteSlices_perm l).nodup_iff.mpr hl
  have hboth := hs.and hn
  refine hboth.imp ?_
  intro x y hxy
  rcases not_Less_cases x y hxy.1 with h | h
  · exact h
  · exact absurd h hxy.2

/-! ## `writePoint` -/

theorem GoMap.get_of_mem_keys {β : Type} (m : GoMap β) (k : Bytes) (hk : k ∈ m.keys) :
    ∃ v, m.get k = some v := by
  induction m with
  | nil => simp [GoMap.keys] at hk
  | cons p t ih =>
    obtain ⟨a, b⟩ := p
    by_cases h : a = k
    · exact ⟨b, by simp [GoMap.get, h]⟩
    · have : k ∈ GoMap.keys t := by
        simp only [GoMap.keys, List.map_cons, List.mem_cons] at hk
        rcases hk with hk | hk
        · exact absurd hk.symm h
        · exact hk
      obtain ⟨v, hv⟩ := ih this
      exact ⟨v, by simp [GoMap.get, h, hv]⟩

theorem GoMap.get_eq_none {β : Type} (m : GoMap β) (k : Bytes) (hk : k ∉ m.keys) :
    m.get k = none := by
  induction m with
  | nil => rfl
  | cons p t ih =>
    obtain ⟨a, b⟩ := p
    simp only [GoMap.keys, List.map_cons, List.mem_cons, not_or] at hk
    have h : ¬ a = k := fun e => hk.1 e.symm
    simp only [GoMap.get, h, if_false]
    exact ih hk.2

theorem GoMap.mem_keys_of_get {β : Type} (m : GoMap β) (k : Bytes) (v : β)
    (h : m.get k = some v) : k ∈ m.keys := by
  by_contra hk
  rw [GoMap.get_eq_none m k hk] at h
  exact absurd h (by simp)

theorem GoMap.get_of_mem {β : Type} (m : GoMap β) (k : Bytes) (v : β) (hn : m.keys.Nodup)
    (hm : (k, v) ∈ m) : m.get k = some v := by
  induction m with
  | nil => simp at hm
  | cons p t ih =>
    obtain ⟨a, b⟩ := p
    simp only [GoMap.keys, List.map_cons, List.nodup_cons] at hn
    rcases List.mem_cons.mp hm with h | h
    · cases h
      simp [GoMap.get]
    · have hk : k ∈ t.map Prod.fst := List.mem_map.mpr ⟨(k, v), h, rfl⟩
      have : ¬ a = k := fun e => hn.1 (e ▸ hk)
      simp only [GoMap.get, this, if_false]
      exact ih hn.2 h

theorem GoMap.mem_of_get {β : Type} (m : GoMap β) (k : Bytes) (v : β)
    (h : m.get k = some v) : (k, v) ∈ m := by
  induction m with
  | nil => simp [GoMap.get] at h
  | cons p t ih =>
    obtain ⟨a, b⟩ := p
    by_cases hk : a = k
    · simp only [GoMap.get, hk, if_true, Option.some.injEq] at h
      subst h; subst hk
      exact List.mem_cons_self _ _
    · simp only [GoMap.get, hk, if_false] at h
      exact List.mem_cons_of_mem _ (ih h)

theorem GoMap.keys_map_get (m : GoMap Bytes) (hn : m.keys.Nodup) :
    m.keys.map (fun k => (k, (m.get k).getD [])) = m := by
  unfold GoMap.keys
  rw [List.map_map]
  conv_rhs => rw [← List.map_id m]
  apply List.map_congr_left
  intro p hp
  obtain ⟨a, b⟩ := p
  simp [GoMap.get_of_mem m a b hn hp]

theorem joinSep_cons_cons (sep : UInt8) (x y : Bytes) (rest : List Bytes) :
    joinSep sep (x :: y :: rest) = x ++ sep :: joinSep sep (y :: rest) := rfl

theorem writeTags_eq (Tags : GoMap Bytes) (n : Nat) (ks : List Bytes) (w : Bytes) (idx : Nat)
    (hk : ∀ k ∈ ks, k ∈ Tags.keys) (hidx : idx + ks.length = n) :
    writeTags Tags n ks w idx =
      some (w ++ joinSep commaByte (ks.map (fun k => keyValue (k, (Tags.get k).getD [])))) := by
  induction ks generalizing w idx with
  | nil => simp [writeTags, joinSep]
  | cons k t ih =>
    obtain ⟨v, hv⟩ := GoMap.get_of_mem_keys Tags k (hk k (List.mem_cons_self k t))
    have ht : ∀ k' ∈ t, k' ∈ Tags.keys := fun k' hk' => hk k' (List.mem_cons_of_mem k hk')
    simp only [writeTags, hv]
    rw [ih _ (idx + 1) ht (by simp only [List.length_cons] at hidx; omega)]
    cases t with
    | nil =>
      have : ¬ idx + 1 < n := by simp only [List.length_cons, List.length_nil] at hidx; omega
      simp [this, joinSep, keyValue, hv]
    | cons k2 t2 =>
      have : idx + 1 < n := by simp only [List.length_cons] at hidx; omega
      simp [this, joinSep, keyValue, hv]

theorem writeFields_eq (n : Nat) (fs : List (Bytes × Bytes)) (w : Bytes) (idx : Nat)
    (hidx : idx + fs.length = n) :
    writeFields n fs w idx = w ++ joinSep commaByte (fs.map keyValue) := by
  induction fs generalizing w idx with
  | nil => simp [writeFields, joinSep]
  | cons f t ih =>
    obtain ⟨k, v⟩ := f
    simp only [writeFields]
    rw [ih _ (idx + 1) (by simp only [List.length_cons] at hidx; omega)]
    cases t with
    | nil =>
      have : ¬ idx + 1 < n := by simp only [List.length_cons, List.length_nil] at hidx; omega
      simp [this, joinSep, keyValue]
    | cons k2 t2 =>
      have : idx + 1 < n := by simp only [List.length_cons] at hidx; omega
      simp [this, joinSep, keyValue]

/-- The output of `writePoint` in terms of the sorted keys. -/
theorem writePoint_eq (writer : Bytes) (point : InfluxDbPointModel) (hasMore : Bool) :
    writePoint writer point hasMore =
      some (writer ++ point.MeasurementName ++
        (if point.Tags = [] then []
         else commaByte :: joinSep commaByte
          ((SortByteSlices point.Tags.keys).map
            (fun k => keyValue (k, (point.Tags.get k).getD [])))) ++
        [spaceByte] ++ joinSep commaByte (point.Fields.map keyValue) ++ [spaceByte] ++
        FormatInt point.Timestamp ++ (if hasMore = true then [newlineByte] else [])) := by
  unfold writePoint
  have hk : ∀ k ∈ SortByteSlices (point.Tags.map Prod.fst), k ∈ point.Tags.keys :=
    fun k hk => (SortByteSlices_perm _).subset hk
  have hlen : 0 + (SortByteSlices (point.Tags.map Prod.fst)).length = point.Tags.length := by
    rw [(SortByteSlices_perm _).length_eq]
    simp
  simp only []
  rw [writeTags_eq point.Tags point.Tags.length _ _ 0 hk hlen]
  simp only []
  rw [writeFields_eq point.Fields.length point.Fields _ 0 (by simp)]
  cases hT : point.Tags with
  | nil => cases hasMore <;> simp [SortByteSlices, joinSep, GoMap.keys]
  | cons t ts => cases hasMore <;> simp [GoMap.keys]

/-- C4: for a point with at most one field, `writePoint` appends the measurement name, then
(when there is a tag) a comma and the tags as `key=value` joined by commas in ascending
byte order of the keys, a space, the field as `key=value`, a space, the decimal timestamp,
and a newline exactly when `hasMore`; nothing is escaped.  The point of the specification
encodes to `name,a=1,b=2 Count=5 1000`. -/
theorem writePoint_format (writer : Bytes) (point : InfluxDbPointModel) (hasMore : Bool)
    (htags : point.Tags.keys.Nodup) (hfields : point.Fields.length ≤ 1) :
    (∃ sortedTags : List (Bytes × Bytes),
      sortedTags.Perm point.Tags ∧
      sortedTags.Pairwise (fun a b => bytesCompare a.1 b.1 = -1) ∧
      writePoint writer point hasMore =
        some (writer ++ point.MeasurementName ++
          (if point.Tags = [] then [] else commaByte :: joinSep commaByte
            (sortedTags.map keyValue)) ++
          [spaceByte] ++ (match point.Fields with
            | [] => []
            | field :: _ => keyValue field) ++ [spaceByte] ++
          FormatInt point.Timestamp ++ (if hasMore = true then [newlineByte] else []))) ∧
    writePoint []
        { MeasurementName := str "name"
          Tags := [(str "b", str "2"), (str "a", str "1")]
          Fields := [(str "Count", str "5")]
          Timestamp := 1000 } false = some (str "name,a=1,b=2 Count=5 1000") := by
  refine ⟨⟨(SortByteSlices point.Tags.keys).map
      (fun k => (k, (point.Tags.get k).getD [])), ?_, ?_, ?_⟩, by decide⟩
  · have h1 := (SortByteSlices_perm point.Tags.keys).map
      (fun k => (k, (point.Tags.get k).getD []))
    rw [GoMap.keys_map_get point.Tags htags] at h1
    exact h1
  · rw [List.pairwise_map]
    exact SortByteSlices_ascending point.Tags.keys htags
  · rw [writePoint_eq, List.map_map]
    have hf : joinSep commaByte (point.Fields.map keyValue) =
        (match point.Fields with
          | [] => []
          | field :: _ => keyValue field) := by
      cases hF : point.Fields with
      | nil => rfl
      | cons f fs =>
        cases fs with
        | nil => rfl
        | cons g gs => rw [hF] at hfields; simp at hfields
    rw [hf]
    rfl

theorem writePoint_format_witness :
    (∃ sortedTags : List (Bytes × Bytes),
      sortedTags.Perm [(str "b", str "2"), (str "a", str "1")] ∧
      sortedTags.Pairwise (fun a b => bytesCompare a.1 b.1 = -1) ∧
      writePoint (str "x\n")
          { MeasurementName := str "name"
            Tags := [(str "b", str "2"), (str "a", str "1")]
            Fields := [(str "Count", str "5")]
            Timestamp := 1000 } true =
        some (str "x\n" ++ str "name" ++
          (if [(str "b", str "2"), (str "a", str "1")] = ([] : List (Bytes × Bytes)) then []
            else commaByte :: joinSep commaByte (sortedTags.map keyValue)) ++
          [spaceByte] ++ (match [(str "Count", str "5")] with
            | [] => []
            | field :: _ => keyValue field) ++ [spaceByte] ++
          FormatInt 1000 ++ (if true = true then [newlineByte] else []))) ∧
    writePoint []
        { MeasurementName := str "name"
          Tags := [(str "b", str "2"), (str "a", str "1")]
          Fields := [(str "Count", str "5")]
          Timestamp := 1000 } false = some (str "name,a=1,b=2 Count=5 1000") :=
  writePoint_format (str "x\n")
    { MeasurementName := str "name"
      Tags := [(str "b", str "2"), (str "a", str "1")]
      Fields := [(str "Count", str "5")]
      Timestamp := 1000 } true (by decide) (by decide)

/-! ## The new history of one key -/

theorem Split_length_of_mem (k : Bytes) (sep : UInt8) (hk : sep ∈ k) :
    2 ≤ (Split k sep).length := by
  induction k with
  | nil => simp at hk
  | cons c cs ih =>
    by_cases h : c = sep
    · have := Split_ne_nil cs sep
      cases hs : Split cs sep with
      | nil => exact absurd hs this
      | cons p ps => simp [Split, h, hs]
    · have hcs : sep ∈ cs := by
        rcases List.mem_cons.mp hk with e | e
        · exact absurd e.symm h
        · exact e
      have := ih hcs
      cases hs : Split cs sep with
      | nil => rw [hs] at this; simp at this
      | cons p ps =>
        rw [hs] at this
        simpa [Split, h, hs] using this

theorem sampleFor_of_get (metricBuffer : GoMap MetricSample) (k : Bytes) (b : MetricSample)
    (h : metricBuffer.get k = some b) : sampleFor metricBuffer k = some b := by
  simp [sampleFor, h]

theorem sampleFor_of_comma (metricBuffer : GoMap MetricSample) (k : Bytes)
    (h : metricBuffer.get k = none) (hk : commaByte ∈ k) :
    ∃ s, sampleFor metricBuffer k = some s ∧ s.LogCount = 0 := by
  have hl := Split_length_of_mem k commaByte hk
  have h0 : (Split k commaByte)[0]? = some ((Split k commaByte)[0]) :=
    List.getElem?_eq_getElem (by omega)
  have h1 : (Split k commaByte)[1]? = some ((Split k commaByte)[1]) :=
    List.getElem?_eq_getElem (by omega)
  refine ⟨{ PumpId := (Split k commaByte)[0], ContainerName := (Split k commaByte)[1],
            LogCount := 0 }, ?_, rfl⟩
  simp only [sampleFor, h]
  rw [h0, h1]

/-- The sample recorded for a key that is in the buffer or contains a comma. -/
theorem sampleFor_total (metricBuffer : GoMap MetricSample) (k : Bytes)
    (hk : k ∈ metricBuffer.keys ∨ commaByte ∈ k) :
    ∃ s, sampleFor metricBuffer k = some s ∧
      s.LogCount = (match metricBuffer.get k with
        | some b => b.LogCount
        | none => 0) := by
  cases hg : metricBuffer.get k with
  | some b => exact ⟨b, sampleFor_of_get _ _ _ hg, rfl⟩
  | none =>
    rcases hk with hk | hk
    · obtain ⟨v, hv⟩ := GoMap.get_of_mem_keys metricBuffer k hk
      rw [hv] at hg
      exact absurd hg (by simp)
    · exact sampleFor_of_comma _ _ hg hk

theorem copyLoop_eq (s z : MetricSample) (old : List MetricSample) (n fuel i : Nat)
    (h1 : 1 ≤ i) (hin : i ≤ n) (hn : n ≤ old.length + 1) (hf : n + 1 ≤ i + fuel) :
    copyLoop old n fuel i ((s :: old).take i ++ List.replicate (n - i) z) =
      some ((s :: old).take n) := by
  induction fuel generalizing i with
  | zero => omega
  | succ fuel ih =>
    by_cases hlt : i < n
    · have hold : i - 1 < old.length := by omega
      have hlen : ((s :: old).take i ++ List.replicate (n - i) z).length = n := by
        simp only [List.length_append, List.length_take, List.length_cons,
          List.length_replicate]
        omega
      have hget : old[i - 1]? = some old[i - 1] := List.getElem?_eq_getElem hold
      have hset : ((s :: old).take i ++ List.replicate (n - i) z).set i old[i - 1] =
          (s :: old).take (i + 1) ++ List.replicate (n - (i + 1)) z := by
        have htl : ((s :: old).take i).length = i := by
          simp only [List.length_take, List.length_cons]
          omega
        have hrep : List.replicate (n - i) z = z :: List.replicate (n - (i + 1)) z := by
          have : n - i = (n - (i + 1)) + 1 := by omega
          rw [this, List.replicate_succ]
        rw [hrep, List.set_append_right _ _ (by omega), htl, Nat.sub_self, List.set_cons_zero]
        have hi : i < (s :: old).length := by simp only [List.length_cons]; omega
        have hcons : (s :: old)[i] = old[i - 1] := by
          obtain ⟨j, rfl⟩ : ∃ j, i = j + 1 := ⟨i - 1, by omega⟩
          simp
        rw [List.take_succ, List.getElem?_eq_getElem hi, hcons]
        simp
      simp only [copyLoop, hlt, if_true, hget, hlen]
      rw [hset]
      exact ih (i + 1) (by omega) (by omega) (by omega)
    · have hi : i = n := by omega
      subst hi
      simp [copyLoop]

/-- The new history of a key is the recorded sample in front of the old history, cut to
20 entries. -/
theorem newHistoryFor_eq (s : MetricSample) (old : List MetricSample) :
    newHistoryFor s old = some ((s :: old).take 20) := by
  unfold newHistoryFor
  have hN : (intmin metricHistorySampleCount ((old.length : Int) + 1)).toNat =
      min 20 (old.length + 1) := by
    unfold intmin
    simp only [metricHistorySampleCount]
    split <;> omega
  simp only [hN]
  have hpos : 0 < min 20 (old.length + 1) := by omega
  have hrep : List.replicate (min 20 (old.length + 1)) (⟨[], [], 0⟩ : MetricSample) =
      ⟨[], [], 0⟩ :: List.replicate (min 20 (old.length + 1) - 1) ⟨[], [], 0⟩ := by
    have : min 20 (old.length + 1) = (min 20 (old.length + 1) - 1) + 1 := by omega
    conv_lhs => rw [this, List.replicate_succ]
  rw [if_pos (by simp only [List.length_replicate]; exact hpos), hrep, List.set_cons_zero]
  have h := copyLoop_eq s ⟨[], [], 0⟩ old (min 20 (old.length + 1))
    (min 20 (old.length + 1)) 1 (by omega) (by omega) (by omega) (by omega)
  simp only [List.take_succ_cons, List.take_zero, List.singleton_append] at h
  rw [h]
  congr 1
  by_cases hc : 20 ≤ old.length + 1
  · rw [Nat.min_eq_left hc]
  · rw [Nat.min_eq_right (by omega), List.take_of_length_le (by simp),
      List.take_of_length_le (by simp only [List.length_cons]; omega)]

/-! ## The loops of the publish cycle -/

theorem writePoint_metric (w name c p cnt : Bytes) (ts : Int) (hasMore : Bool) :
    writePoint w
        { MeasurementName := name
          Fields := [(str "Count", cnt)]
          Tags := [(str "ContainerName", c), (str "PumpId", p)]
          Timestamp := ts } hasMore =
      some (w ++ (name ++ str ",ContainerName=" ++ c ++ str ",PumpId=" ++ p ++
        str " Count=" ++ cnt ++ str " " ++ FormatInt ts) ++
        (if hasMore = true then [newlineByte] else [])) := by
  rw [writePoint_eq]
  have hs0 : SortByteSlices [str "ContainerName", str "PumpId"] =
      [str "ContainerName", str "PumpId"] := by decide
  have hs : SortByteSlices (GoMap.keys [(str "ContainerName", c), (str "PumpId", p)]) =
      [str "ContainerName", str "PumpId"] := hs0
  have hne : ¬ str "ContainerName" = str "PumpId" := by decide
  have h1 : str ",ContainerName=" = commaByte :: (str "ContainerName" ++ [equalsByte]) := by
    decide
  have h2 : str ",PumpId=" = commaByte :: (str "PumpId" ++ [equalsByte]) := by decide
  have h3 : str " Count=" = spaceByte :: (str "Count" ++ [equalsByte]) := by decide
  have h4 : str " " = [spaceByte] := by decide
  simp only [hs, h1, h2, h3, h4]
  simp [GoMap.get, hne, joinSep, keyValue, List.append_assoc]

theorem encodeLoop_eq (name : Bytes) (now : Nat → Int) (n : Nat)
    (entries : List (Bytes × MetricSample)) (i : Nat) (w : Bytes)
    (hist : GoMap (List MetricSample)) (hi : i + entries.length = n) :
    encodeLoop name now n entries i w hist =
      some (w ++ joinSep newlineByte (encodedPoints name now i entries),
        addMissing hist entries) := by
  induction entries generalizing i w hist with
  | nil => simp [encodeLoop, encodedPoints, joinSep, addMissing]
  | cons e rest ih =>
    obtain ⟨k, smp⟩ := e
    simp only [encodeLoop, writePoint_metric]
    rw [ih (i + 1) _ _ (by simp only [List.length_cons] at hi; omega)]
    cases rest with
    | nil =>
      have : ¬ ((i : Int) < (n : Int) - 1) := by
        simp only [List.length_cons, List.length_nil] at hi
        omega
      simp [this, encodedPoints, joinSep, addMissing]
    | cons e2 rest2 =>
      obtain ⟨k2, smp2⟩ := e2
      have : (i : Int) < (n : Int) - 1 := by
        simp only [List.length_cons] at hi
        omega
      simp [this, encodedPoints, joinSep, addMissing, List.append_assoc]

theorem GoMap.keys_set {β : Type} (m : GoMap β) (k : Bytes) (v : β) :
    (m.set k v).keys = if k ∈ m.keys then m.keys else m.keys ++ [k] := by
  induction m with
  | nil => simp [GoMap.set, GoMap.keys]
  | cons p t ih =>
    obtain ⟨a, b⟩ := p
    by_cases h : a = k
    · subst h
      simp [GoMap.set, GoMap.keys]
    · have hka : ¬ k = a := fun e => h e.symm
      simp only [GoMap.keys] at ih
      by_cases hm : k ∈ t.map Prod.fst
      · simp [GoMap.set, GoMap.keys, h, hka, hm, ih]
      · simp [GoMap.set, GoMap.keys, h, hka, hm, ih]

theorem GoMap.nodup_set {β : Type} (m : GoMap β) (k : Bytes) (v : β) (hn : m.keys.Nodup) :
    (m.set k v).keys.Nodup := by
  rw [GoMap.keys_set]
  split
  · exact hn
  · rename_i h
    rw [List.nodup_append]
    exact ⟨hn, List.nodup_singleton k, by
      intro x hx hx'
      simp only [List.mem_singleton] at hx'
      subst hx'
      exact h hx⟩

theorem GoMap.mem_keys_set {β : Type} (m : GoMap β) (k k' : Bytes) (v : β) :
    k' ∈ (m.set k v).keys ↔ k' = k ∨ k' ∈ m.keys := by
  rw [GoMap.keys_set]
  split
  · rename_i h
    constructor
    · exact Or.inr
    · rintro (e | e)
      · exact e ▸ h
      · exact e
  · simp only [List.mem_append, List.mem_singleton]
    tauto

theorem addMissing_get (hist : GoMap (List MetricSample))
    (entries : List (Bytes × MetricSample)) (k : Bytes) :
    (addMissing hist entries).get k =
      match hist.get k with
      | some h => some h
      | none => if k ∈ GoMap.keys entries then some [] else none := by
  induction entries generalizing hist with
  | nil => cases hg : hist.get k <;> simp [addMissing, GoMap.keys, hg]
  | cons e rest ih =>
    obtain ⟨k1, smp⟩ := e
    simp only [addMissing]
    rw [ih]
    cases h1 : hist.get k1 with
    | some h =>
      simp only []
      cases hk : hist.get k with
      | some h' => rfl
      | none =>
        have : ¬ k1 = k := fun e => by rw [e] at h1; rw [h1] at hk; exact absurd hk (by simp)
        have hne : ¬ k = k1 := fun e => this e.symm
        have hmem : (k ∈ k1 :: List.map Prod.fst rest) ↔ (k ∈ List.map Prod.fst rest) := by
          rw [List.mem_cons]; exact or_iff_right hne
        simp only [GoMap.keys, List.map_cons]
        by_cases hm : k ∈ List.map Prod.fst rest
        · rw [if_pos hm, if_pos (hmem.mpr hm)]
        · rw [if_neg hm, if_neg (fun e => hm (hmem.mp e))]
    | none =>
      simp only [GoMap.get_set]
      by_cases hkk : k1 = k
      · subst hkk
        simp [h1, GoMap.keys]
      · have hne : ¬ k = k1 := fun e => hkk e.symm
        simp only [hkk, if_false]
        have hmem : (k ∈ k1 :: List.map Prod.fst rest) ↔ (k ∈ List.map Prod.fst rest) := by
          rw [List.mem_cons]; exact or_iff_right hne
        cases hk : hist.get k with
        | some h' => rfl
        | none =>
          simp only [GoMap.keys, List.map_cons]
          by_cases hm : k ∈ List.map Prod.fst rest
          · rw [if_pos hm, if_pos (hmem.mpr hm)]
          · rw [if_neg hm, if_neg (fun e => hm (hmem.mp e))]

theorem addMissing_nodup (hist : GoMap (List MetricSample))
    (entries : List (Bytes × MetricSample)) (hn : hist.keys.Nodup) :
    (addMissing hist entries).keys.Nodup := by
  induction entries generalizing hist with
  | nil => exact hn
  | cons e rest ih =>
    obtain ⟨k1, smp⟩ := e
    simp only [addMissing]
    apply ih
    cases hist.get k1 with
    | some h => exact hn
    | none => exact GoMap.nodup_set _ _ _ hn

theorem addMissing_mem_keys (hist : GoMap (List MetricSample))
    (entries : List (Bytes × MetricSample)) (k : Bytes) :
    k ∈ (addMissing hist entries).keys ↔ k ∈ hist.keys ∨ k ∈ GoMap.keys entries := by
  constructor
  · intro hk
    obtain ⟨v, hv⟩ := GoMap.get_of_mem_keys _ k hk
    rw [addMissing_get] at hv
    cases hg : hist.get k with
    | some h => exact Or.inl (GoMap.mem_keys_of_get _ _ _ hg)
    | none =>
      rw [hg] at hv
      by_cases hm : k ∈ GoMap.keys entries
      · exact Or.inr hm
      · simp [hm] at hv
  · intro hk
    have : ∃ v, (addMissing hist entries).get k = some v := by
      rw [addMissing_get]
      cases hg : hist.get k with
      | some h => exact ⟨h, rfl⟩
      | none =>
        rcases hk with hk | hk
        · obtain ⟨v, hv⟩ := GoMap.get_of_mem_keys _ k hk
          rw [hv] at hg
          exact absurd hg (by simp)
        · exact ⟨[], by simp [hk]⟩
    obtain ⟨v, hv⟩ := this
    exact GoMap.mem_keys_of_get _ _ _ hv

theorem historyLoop_eq (metricBuffer : GoMap MetricSample)
    (l : List (Bytes × List MetricSample)) (acc : GoMap (List MetricSample))
    (hl : ∀ k ∈ GoMap.keys l, k ∈ metricBuffer.keys ∨ commaByte ∈ k) :
    historyLoop metricBuffer l acc =
      some (l.foldl (fun m e => m.set e.1 ((recorded metricBuffer e.1 :: e.2).take 20)) acc) := by
  induction l generalizing acc with
  | nil => rfl
  | cons e rest ih =>
    obtain ⟨k, h⟩ := e
    obtain ⟨smp, hs, _⟩ := sampleFor_total metricBuffer k (hl k (by simp [GoMap.keys]))
    have hr : recorded metricBuffer k = smp := by simp [recorded, hs]
    simp only [historyLoop, hs, newHistoryFor_eq, List.foldl_cons, hr]
    exact ih _ (fun k' hk' => hl k' (by
      simp only [GoMap.keys, List.map_cons, List.mem_cons] at hk' ⊢
      exact Or.inr hk'))

theorem foldl_set_get {β γ : Type} (f : Bytes → γ → β) (l : List (Bytes × γ)) (acc : GoMap β)
    (k : Bytes) (hn : (GoMap.keys l).Nodup) :
    (l.foldl (fun m e => m.set e.1 (f e.1 e.2)) acc).get k =
      match GoMap.get l k with
      | some h => some (f k h)
      | none => acc.get k := by
  induction l generalizing acc with
  | nil => rfl
  | cons e rest ih =>
    obtain ⟨k1, h1⟩ := e
    simp only [GoMap.keys, List.map_cons, List.nodup_cons] at hn
    simp only [List.foldl_cons]
    rw [ih _ hn.2]
    by_cases hk : k1 = k
    · subst hk
      have : GoMap.get rest k1 = none := GoMap.get_eq_none rest k1 hn.1
      simp [this, GoMap.get, GoMap.get_set]
    · simp only [GoMap.get, hk, if_false, GoMap.get_set]

theorem foldl_set_keys {β γ : Type} (f : Bytes → γ → β) (l : List (Bytes × γ)) (acc : GoMap β)
    (hn : (acc.keys ++ GoMap.keys l).Nodup) :
    (l.foldl (fun m e => m.set e.1 (f e.1 e.2)) acc).keys = acc.keys ++ GoMap.keys l := by
  induction l generalizing acc with
  | nil => simp [GoMap.keys]
  | cons e rest ih =>
    obtain ⟨k1, h1⟩ := e
    have hk1 : k1 ∉ acc.keys := by
      intro hm
      rw [List.nodup_append] at hn
      exact hn.2.2 hm (by simp [GoMap.keys])
    have hkeys : (acc.set k1 (f k1 h1)).keys = acc.keys ++ [k1] := by
      rw [GoMap.keys_set, if_neg hk1]
    simp only [List.foldl_cons]
    rw [ih]
    · rw [hkeys]
      simp [GoMap.keys]
    · rw [hkeys]
      simpa [GoMap.keys] using hn

/-! ## The publish cycle and the reachable states -/

theorem comma_mem_tagsStringOf (s : MetricSample) : commaByte ∈ tagsStringOf s := by
  simp [tagsStringOf]

theorem drainSample_mem_keys (buf : GoMap MetricSample) (s : MetricSample) (k : Bytes) :
    k ∈ (drainSample buf s).keys ↔ k = tagsStringOf s ∨ k ∈ buf.keys := by
  unfold drainSample
  cases hg : buf.get (tagsStringOf s) <;> simp only [hg] <;> exact GoMap.mem_keys_set _ _ _ _

theorem drainSample_nodup (buf : GoMap MetricSample) (s : MetricSample)
    (hn : buf.keys.Nodup) : (drainSample buf s).keys.Nodup := by
  unfold drainSample
  cases hg : buf.get (tagsStringOf s) <;> simp only [hg] <;> exact GoMap.nodup_set _ _ _ hn

theorem drainChannel_wf (samples : List MetricSample) (buf : GoMap MetricSample)
    (hn : buf.keys.Nodup) (hc : ∀ k ∈ buf.keys, commaByte ∈ k) :
    (drainChannel buf samples).keys.Nodup ∧
      ∀ k ∈ (drainChannel buf samples).keys, commaByte ∈ k := by
  induction samples generalizing buf with
  | nil => exact ⟨hn, hc⟩
  | cons s t ih =>
    have hstep : drainChannel buf (s :: t) = drainChannel (drainSample buf s) t := rfl
    rw [hstep]
    apply ih _ (drainSample_nodup buf s hn)
    intro k hk
    rcases (drainSample_mem_keys buf s k).mp hk with e | e
    · rw [e]; exact comma_mem_tagsStringOf s
    · exact hc k e

/-- A publish cycle from a well-formed state returns, and its payload and new history are
the following. -/
theorem publishCycle_spec (cfg : Config) (st : State) (now : Nat → Int) (nowAfter : Int)
    (hwf : st.WF) :
    ∃ newHist alerts,
      publishCycle cfg st now nowAfter =
        some ({ metricBuffer := [], metricHistory := newHist, lastMetricSent := nowAfter },
              { payload := joinSep newlineByte
                  (encodedPoints cfg.metricName now 0 st.metricBuffer),
                alerts := alerts }) ∧
      (∀ k, newHist.get k =
        match (addMissing st.metricHistory st.metricBuffer).get k with
        | some h => some ((recorded st.metricBuffer k :: h).take 20)
        | none => none) ∧
      newHist.keys = (addMissing st.metricHistory st.metricBuffer).keys := by
  obtain ⟨hbn, hhn, hbc, hhc, hlen⟩ := hwf
  have hl : ∀ k ∈ GoMap.keys (addMissing st.metricHistory st.metricBuffer),
      k ∈ st.metricBuffer.keys ∨ commaByte ∈ k := by
    intro k hk
    rcases (addMissing_mem_keys _ _ k).mp hk with e | e
    · exact Or.inr (hhc k e)
    · exact Or.inl e
  have hnd := addMissing_nodup st.metricHistory st.metricBuffer hhn
  obtain ⟨alerts, ha⟩ := checkMetricHistory_total cfg.metricsFlushInterval
    ((addMissing st.metricHistory st.metricBuffer).foldl
      (fun m e => m.set e.1 ((recorded st.metricBuffer e.1 :: e.2).take 20)) [])
  refine ⟨(addMissing st.metricHistory st.metricBuffer).foldl
      (fun m e => m.set e.1 ((recorded st.metricBuffer e.1 :: e.2).take 20)) [],
    alerts, ?_, ?_, ?_⟩
  · unfold publishCycle
    rw [encodeLoop_eq _ _ _ _ 0 [] _ (by simp)]
    simp only [List.nil_append]
    rw [historyLoop_eq _ _ _ hl]
    simp only [ha]
  · intro k
    rw [foldl_set_get (fun k h => (recorded st.metricBuffer k :: h).take 20) _ [] k hnd]
    cases (addMissing st.metricHistory st.metricBuffer).get k <;> rfl
  · rw [foldl_set_keys (fun k h => (recorded st.metricBuffer k :: h).take 20) _ []
      (by simpa [GoMap.keys] using hnd)]
    simp [GoMap.keys]

theorem publishCycle_wf (cfg : Config) (st st' : State) (now : Nat → Int) (nowAfter : Int)
    (out : Published) (hwf : st.WF) (h : publishCycle cfg st now nowAfter = some (st', out)) :
    st'.WF := by
  obtain ⟨newHist, alerts, hp, hget, hkeys⟩ := publishCycle_spec cfg st now nowAfter hwf
  rw [hp] at h
  simp only [Option.some.injEq, Prod.mk.injEq] at h
  obtain ⟨hst, _⟩ := h
  subst hst
  obtain ⟨hbn, hhn, hbc, hhc, hlen⟩ := hwf
  have hnd : newHist.keys.Nodup := hkeys ▸ addMissing_nodup _ _ hhn
  refine ⟨by simp [GoMap.keys], hnd, by simp [GoMap.keys], ?_, ?_⟩
  · intro k hk
    simp only [] at hk
    rw [hkeys] at hk
    rcases (addMissing_mem_keys _ _ k).mp hk with e | e
    · exact hhc k e
    · exact hbc k e
  · intro k h hm
    have hg := GoMap.get_of_mem newHist k h hnd hm
    rw [hget] at hg
    cases hadd : (addMissing st.metricHistory st.metricBuffer).get k with
    | none => rw [hadd] at hg; exact absurd hg (by simp)
    | some h0 =>
      rw [hadd] at hg
      simp only [Option.some.injEq] at hg
      rw [← hg, List.length_take]
      exact Nat.min_le_left _ _

theorem aggregateAndSendMetrics_wf (cfg : Config) (st st' : State) (inp : TickInput)
    (out : Option Published) (hwf : st.WF)
    (h : aggregateAndSendMetrics cfg st inp = some (st', out)) : st'.WF := by
  obtain ⟨hbn, hhn, hbc, hhc, hlen⟩ := hwf
  have hd := drainChannel_wf inp.samples st.metricBuffer hbn hbc
  have hwf1 : State.WF { st with metricBuffer := drainChannel st.metricBuffer inp.samples } :=
    ⟨hd.1, hhn, hd.2, hhc, hlen⟩
  unfold aggregateAndSendMetrics at h
  by_cases ht : inp.now - st.lastMetricSent > cfg.metricsFlushInterval
  · simp only [ht, if_true] at h
    cases hp : publishCycle cfg
        { st with metricBuffer := drainChannel st.metricBuffer inp.samples }
        inp.pointTime inp.nowAfter with
    | none => rw [hp] at h; exact absurd h (by simp)
    | some r =>
      obtain ⟨st2, o⟩ := r
      rw [hp] at h
      simp only [Option.some.injEq, Prod.mk.injEq] at h
      rw [← h.1]
      exact publishCycle_wf cfg _ st2 _ _ o hwf1 hp
  · simp only [ht, if_false, Option.some.injEq, Prod.mk.injEq] at h
    rw [← h.1]
    exact hwf1

/-- Every reachable state is well formed. -/
theorem reachable_wf (cfg : Config) (st : State) (hr : Reachable cfg st) : st.WF := by
  induction hr with
  | init now => exact ⟨by simp [initState, GoMap.keys], by simp [initState, GoMap.keys],
      by simp [initState, GoMap.keys], by simp [initState, GoMap.keys],
      by simp [initState]⟩
  | tick st st' inp out _ h ih => exact aggregateAndSendMetrics_wf cfg st st' inp out ih h
  | shuffle st buf hist _ hb hh ih =>
    obtain ⟨hbn, hhn, hbc, hhc, hlen⟩ := ih
    have hbk : (GoMap.keys buf).Perm (GoMap.keys st.metricBuffer) := hb.map _
    have hhk : (GoMap.keys hist).Perm (GoMap.keys st.metricHistory) := hh.map _
    exact ⟨hbk.nodup_iff.mpr hbn, hhk.nodup_iff.mpr hhn,
      fun k hk => hbc k (hbk.subset hk), fun k hk => hhc k (hhk.subset hk),
      fun k h hm => hlen k h (hh.subset hm)⟩

/-- The new history of every key of the old history or of the buffer, from a well-formed
state. -/
theorem publishCycle_history (cfg : Config) (st : State) (now : Nat → Int) (nowAfter : Int)
    (hwf : st.WF) :
    ∃ st' out, publishCycle cfg st now nowAfter = some (st', out) ∧
      ∀ key, (key ∈ st.metricHistory.keys ∨ key ∈ st.metricBuffer.keys) →
        ∃ entry,
          st'.metricHistory.get key =
            some ((entry :: (st.metricHistory.get key).getD []).take 20) ∧
          entry.LogCount = (match st.metricBuffer.get key with
            | some b => b.LogCount
            | none => 0) := by
  obtain ⟨newHist, alerts, hp, hget, _⟩ := publishCycle_spec cfg st now nowAfter hwf
  refine ⟨_, _, hp, ?_⟩
  intro key hkey
  obtain ⟨hbn, hhn, hbc, hhc, hlen⟩ := hwf
  have hk : key ∈ st.metricBuffer.keys ∨ commaByte ∈ key := by
    rcases hkey with e | e
    · exact Or.inr (hhc key e)
    · exact Or.inl e
  obtain ⟨smp, hs, hcount⟩ := sampleFor_total st.metricBuffer key hk
  have hr : recorded st.metricBuffer key = smp := by simp [recorded, hs]
  refine ⟨smp, ?_, hcount⟩
  simp only []
  rw [hget, addMissing_get, hr]
  cases hg : st.metricHistory.get key with
  | some h => rfl
  | none =>
    have hb : key ∈ GoMap.keys st.metricBuffer := by
      rcases hkey with e | e
      · obtain ⟨v, hv⟩ := GoMap.get_of_mem_keys _ key e
        rw [hv] at hg
        exact absurd hg (by simp)
      · exact e
    simp [hb]

theorem take_twenty_cons (e : MetricSample) (h : List MetricSample) (hl : h.length = 20) :
    (e :: h).take 20 = e :: h.dropLast := by
  rw [List.dropLast_eq_take, hl]
  rfl

theorem encodedPoints_length (name : Bytes) (now : Nat → Int) (i : Nat)
    (entries : List (Bytes × MetricSample)) :
    (encodedPoints name now i entries).length = entries.length := by
  induction entries generalizing i with
  | nil => rfl
  | cons e rest ih =>
    obtain ⟨k, smp⟩ := e
    simp [encodedPoints, ih]

theorem encodedPoints_get (name : Bytes) (now : Nat → Int) (i j : Nat)
    (entries : List (Bytes × MetricSample)) (k : Bytes) (smp : MetricSample)
    (h : entries[j]? = some (k, smp)) :
    (encodedPoints name now i entries)[j]? =
      some (name ++ str ",ContainerName=" ++ smp.ContainerName ++ str ",PumpId=" ++
        smp.PumpId ++ str " Count=" ++ FormatInt smp.LogCount ++ str " " ++
        FormatInt (now (i + j))) := by
  induction entries generalizing i j with
  | nil => simp at h
  | cons e rest ih =>
    obtain ⟨k1, smp1⟩ := e
    cases j with
    | zero =>
      simp only [List.getElem?_cons_zero, Option.some.injEq, Prod.mk.injEq] at h
      obtain ⟨_, h2⟩ := h
      subst h2
      simp [encodedPoints]
    | succ j =>
      simp only [List.getElem?_cons_succ] at h
      simp only [encodedPoints, List.getElem?_cons_succ]
      rw [ih (i + 1) j h]
      have : i + 1 + j = i + (j + 1) := by omega
      rw [this]

theorem reachable_runTicks (cfg : Config) (inputs : List TickInput) (st st' : State)
    (hr : Reachable cfg st) (h : (runTicks cfg st inputs).map Prod.fst = some st') :
    Reachable cfg st' := by
  induction inputs generalizing st with
  | nil =>
    simp only [runTicks, Option.map_some', Option.some.injEq] at h
    exact h ▸ hr
  | cons inp rest ih =>
    simp only [runTicks] at h
    cases ha : aggregateAndSendMetrics cfg st inp with
    | none => rw [ha] at h; simp at h
    | some r =>
      obtain ⟨st1, out⟩ := r
      rw [ha] at h
      simp only [] at h
      apply ih st1 (Reachable.tick st st1 inp out hr ha)
      cases hrest : runTicks cfg st1 rest with
      | none => rw [hrest] at h; simp at h
      | some r2 =>
        obtain ⟨st2, outs⟩ := r2
        rw [hrest] at h
        simpa using h

theorem demoState_reachable : Reachable demoConfig demoState :=
  reachable_runTicks demoConfig [demoTickA, demoTickB] (initState 0) demoState
    (Reachable.init 0) (by decide!)

theorem fullState_reachable : Reachable demoConfig fullState :=
  reachable_runTicks demoConfig commaTicks (initState 0) fullState
    (Reachable.init 0) (by decide!)

/-! ## The claims on the publish cycle -/

/-- C2: in one publish cycle, every key of the old history or of the interval buffer gets
as new history the old one (empty for a new key) with exactly one entry in front, whose
`LogCount` is the buffer count of the key, or 0 when the key is not in the buffer, cut to
its first 20 entries; the older entries keep their order. -/
theorem publish_prepends (cfg : Config) (st : State) (now : Nat → Int) (nowAfter : Int)
    (hr : Reachable cfg st) :
    ∃ st' out, publishCycle cfg st now nowAfter = some (st', out) ∧
      ∀ key, (key ∈ st.metricHistory.keys ∨ key ∈ st.metricBuffer.keys) →
        ∃ entry,
          st'.metricHistory.get key =
            some ((entry :: (st.metricHistory.get key).getD []).take 20) ∧
          entry.LogCount = (match st.metricBuffer.get key with
            | some b => b.LogCount
            | none => 0) :=
  publishCycle_history cfg st now nowAfter (reachable_wf cfg st hr)

theorem publish_prepends_witness :
    ∃ st' out, publishCycle demoConfig demoState (fun _ => 3000) 30 = some (st', out) ∧
      ∀ key, (key ∈ demoState.metricHistory.keys ∨ key ∈ demoState.metricBuffer.keys) →
        ∃ entry,
          st'.metricHistory.get key =
            some ((entry :: (demoState.metricHistory.get key).getD []).take 20) ∧
          entry.LogCount = (match demoState.metricBuffer.get key with
            | some b => b.LogCount
            | none => 0) :=
  publish_prepends demoConfig demoState (fun _ => 3000) 30 demoState_reachable

/-- C3: in every reachable state every history has at most 20 entries, and a publish cycle
that prepends to a history of 20 entries drops its last (oldest) entry. -/
theorem history_bounded (cfg : Config) (st : State) (hr : Reachable cfg st) :
    (∀ key h, st.metricHistory.get key = some h → h.length ≤ 20) ∧
    ∀ (now : Nat → Int) (nowAfter : Int),
      ∃ st' out, publishCycle cfg st now nowAfter = some (st', out) ∧
        ∀ key h, st.metricHistory.get key = some h → h.length = 20 →
          ∃ entry, st'.metricHistory.get key = some (entry :: h.dropLast) := by
  have hwf := reachable_wf cfg st hr
  refine ⟨fun key h hg => hwf.2.2.2.2 key h (GoMap.mem_of_get _ _ _ hg), ?_⟩
  intro now nowAfter
  obtain ⟨st', out, hp, hall⟩ := publishCycle_history cfg st now nowAfter hwf
  refine ⟨st', out, hp, ?_⟩
  intro key h hg hl
  obtain ⟨entry, he, _⟩ := hall key (Or.inl (GoMap.mem_keys_of_get _ _ _ hg))
  refine ⟨entry, ?_⟩
  rw [he, hg]
  exact congrArg some (take_twenty_cons entry h hl)

theorem history_bounded_witness :
    (∀ key h, fullState.metricHistory.get key = some h → h.length ≤ 20) ∧
    ∀ (now : Nat → Int) (nowAfter : Int),
      ∃ st' out, publishCycle demoConfig fullState now nowAfter = some (st', out) ∧
        ∀ key h, fullState.metricHistory.get key = some h → h.length = 20 →
          ∃ entry, st'.metricHistory.get key = some (entry :: h.dropLast) :=
  history_bounded demoConfig fullState fullState_reachable

/-- C5: the payload of a publish cycle over a buffer of `n` keys is made of `n` encoded
points, one per buffered key in iteration order, each of the form
`<metricName>,ContainerName=<c>,PumpId=<p> Count=<count> <timestamp>`, joined by single
newlines (none after the last point); for an empty buffer the payload is empty. -/
theorem publish_payload (cfg : Config) (st : State) (now : Nat → Int) (nowAfter : Int)
    (hr : Reachable cfg st) :
    ∃ st' out points, publishCycle cfg st now nowAfter = some (st', out) ∧
      out.payload = joinSep newlineByte points ∧
      points.length = st.metricBuffer.length ∧
      (∀ (i : Nat) (key : Bytes) (sample : MetricSample),
        st.metricBuffer[i]? = some (key, sample) →
        points[i]? = some (cfg.metricName ++ str ",ContainerName=" ++ sample.ContainerName ++
          str ",PumpId=" ++ sample.PumpId ++ str " Count=" ++ FormatInt sample.LogCount ++
          str " " ++ FormatInt (now i))) ∧
      (st.metricBuffer = [] → out.payload = []) := by
  obtain ⟨newHist, alerts, hp, _, _⟩ :=
    publishCycle_spec cfg st now nowAfter (reachable_wf cfg st hr)
  refine ⟨_, _, encodedPoints cfg.metricName now 0 st.metricBuffer, hp, rfl,
    encodedPoints_length _ _ _ _, ?_, ?_⟩
  · intro i key sample hi
    have := encodedPoints_get cfg.metricName now 0 i st.metricBuffer key sample hi
    rw [Nat.zero_add] at this
    exact this
  · intro he
    simp only [he]
    rfl

theorem publish_payload_witness :
    ∃ st' out points, publishCycle demoConfig demoState (fun _ => 3000) 30 = some (st', out) ∧
      out.payload = joinSep newlineByte points ∧
      points.length = demoState.metricBuffer.length ∧
      (∀ (i : Nat) (key : Bytes) (sample : MetricSample),
        demoState.metricBuffer[i]? = some (key, sample) →
        points[i]? = some (demoConfig.metricName ++ str ",ContainerName=" ++
          sample.ContainerName ++ str ",PumpId=" ++ sample.PumpId ++ str " Count=" ++
          FormatInt sample.LogCount ++ str " " ++ FormatInt ((fun _ => 3000) i))) ∧
      (demoState.metricBuffer = [] → out.payload = []) :=
  publish_payload demoConfig demoState (fun _ => 3000) 30 demoState_reachable

/-! ## Exact float64 arithmetic on small integers -/

theorem log2Fuel_eq (fuel n : Nat) (h : n ≤ fuel) : F64.log2Fuel fuel n = Nat.log2 n := by
  induction fuel generalizing n with
  | zero =>
    have : n = 0 := by omega
    subst this
    simp [F64.log2Fuel, Nat.log2]
  | succ fuel ih =>
    rw [F64.log2Fuel, Nat.log2]
    by_cases h2 : 2 ≤ n
    · have : n / 2 ≤ fuel := by omega
      simp [h2, ih _ this]
    · simp [h2]

theorem log2_eq (n : Nat) : F64.log2 n = Nat.log2 n :=
  log2Fuel_eq n n (Nat.le_refl n)

theorem log2_unique (n L : Nat) (h1 : 2 ^ L ≤ n) (h2 : n < 2 ^ (L + 1)) : F64.log2 n = L := by
  have hn : n ≠ 0 := by
    have : 0 < 2 ^ L := Nat.two_pow_pos _
    omega
  rw [log2_eq]
  have ha : L ≤ n.log2 := (Nat.le_log2 hn).mpr h1
  have hb : n.log2 < L + 1 := (Nat.log2_lt hn).mpr h2
  omega

theorem log2_spec (n : Nat) (hn : n ≠ 0) : 2 ^ F64.log2 n ≤ n ∧ n < 2 ^ (F64.log2 n + 1) := by
  rw [log2_eq]
  exact ⟨Nat.log2_self_le hn, Nat.lt_log2_self⟩

theorem log2_mul_pow (m j : Nat) (hm : m ≠ 0) : F64.log2 (m * 2 ^ j) = F64.log2 m + j := by
  obtain ⟨h1, h2⟩ := log2_spec m hm
  apply log2_unique
  · rw [Nat.pow_add]
    exact Nat.mul_le_mul_right _ h1
  · have : 2 ^ (F64.log2 m + j + 1) = 2 ^ (F64.log2 m + 1) * 2 ^ j := by
      rw [← Nat.pow_add]; congr 1; omega
    rw [this]
    exact Nat.mul_lt_mul_of_pos_right h2 (Nat.two_pow_pos _)

theorem round_small (neg : Bool) (x : Nat) (hx0 : 0 < x) (hx : x < 2 ^ 53) :
    F64.round neg x 0 = F64.fin neg (x * 2 ^ (52 - F64.log2 x)) ((F64.log2 x : Int) - 52) := by
  obtain ⟨h1, h2⟩ := log2_spec x (by omega)
  have hL : F64.log2 x ≤ 52 := by
    by_contra hc
    have : 2 ^ 53 ≤ 2 ^ F64.log2 x := Nat.pow_le_pow_right (by decide) (by omega)
    omega
  have hq : x * 2 ^ (52 - F64.log2 x) < 2 ^ 53 := by
    have : 2 ^ 53 = 2 ^ (F64.log2 x + 1) * 2 ^ (52 - F64.log2 x) := by
      rw [← Nat.pow_add]; congr 1; omega
    rw [this]
    exact Nat.mul_lt_mul_of_pos_right h2 (Nat.two_pow_pos _)
  have hq0 : x * 2 ^ (52 - F64.log2 x) ≠ 0 := by
    have : 0 < 2 ^ (52 - F64.log2 x) := Nat.two_pow_pos _
    exact Nat.ne_of_gt (Nat.mul_pos hx0 this)
  have hE : max ((0 : Int) + (F64.log2 x : Int) - 52) (-1074) = (F64.log2 x : Int) - 52 := by
    omega
  have hle : (F64.log2 x : Int) - 52 ≤ 0 := by omega
  have hsh : ((F64.log2 x : Int) - 52 - 0).toNat = 0 := by omega
  have hsh2 : ((0 : Int) - ((F64.log2 x : Int) - 52)).toNat = 52 - F64.log2 x := by omega
  unfold F64.round
  simp only [hE, hle, hsh, hsh2, if_true]
  have hx0' : ¬ x = 0 := by omega
  have hne : ¬ x * 2 ^ (52 - F64.log2 x) = 9007199254740992 := by omega
  have h971 : ¬ (971 : Int) < (F64.log2 x : Int) - 52 := by omega
  simp [hx0', hne, h971, hq0]

/-- Rounding depends on the number only: a factor `2^j` moved from the exponent into the
mantissa does not change the result. -/
theorem round_shift (neg : Bool) (m j : Nat) (e : Int) (hm : m ≠ 0) :
    F64.round neg (m * 2 ^ j) (e - j) = F64.round neg m e := by
  have hj : 0 < 2 ^ j := Nat.two_pow_pos j
  have hmj : ¬ m * 2 ^ j = 0 := Nat.ne_of_gt (Nat.mul_pos (Nat.pos_of_ne_zero hm) hj)
  unfold F64.round
  rw [if_neg hmj, if_neg hm, log2_mul_pow m j hm]
  have hE : (e - (j : Int) + ((F64.log2 m + j : Nat) : Int) - 52) = e + (F64.log2 m : Int) - 52 := by
    push_cast; omega
  rw [hE]
  generalize max (e + (F64.log2 m : Int) - 52) (-1074) = E
  by_cases h1 : E ≤ e - j
  · -- both exact
    have h2 : E ≤ e := by omega
    have hq : m * 2 ^ j * 2 ^ (e - (j : Int) - E).toNat = m * 2 ^ (e - E).toNat := by
      have : (e - E).toNat = j + (e - (j : Int) - E).toNat := by omega
      rw [this, Nat.pow_add, Nat.mul_assoc]
    have hs1 : (E - (e - (j : Int))).toNat = 0 := by omega
    have hs2 : (E - e).toNat = 0 := by omega
    simp only [h1, h2, if_true, hq, hs1, hs2]
  · by_cases h2 : E ≤ e
    · -- left divides by a power below `2^j`, right is exact
      have hsh : (E - (e - (j : Int))).toNat + (e - E).toNat = j := by omega
      have hs2 : (E - e).toNat = 0 := by omega
      have hpos : 0 < (E - (e - (j : Int))).toNat := by omega
      have hpow : 2 ^ j = 2 ^ (e - E).toNat * 2 ^ (E - (e - (j : Int))).toNat := by
        rw [← Nat.pow_add]
        congr 1
        omega
      have hq : m * 2 ^ j / 2 ^ (E - (e - (j : Int))).toNat = m * 2 ^ (e - E).toNat := by
        rw [hpow, ← Nat.mul_assoc]
        exact Nat.mul_div_cancel _ (Nat.two_pow_pos _)
      have hr : m * 2 ^ j % 2 ^ (E - (e - (j : Int))).toNat = 0 := by
        rw [hpow, ← Nat.mul_assoc]
        exact Nat.mul_mod_left _ _
      have hhalf : 0 < 2 ^ ((E - (e - (j : Int))).toNat - 1) := Nat.two_pow_pos _
      have hup1 : ¬ 2 ^ ((E - (e - (j : Int))).toNat - 1) < 0 := by omega
      have hup2 : ¬ 0 = 2 ^ ((E - (e - (j : Int))).toNat - 1) := by omega
      simp only [h1, h2, if_true, if_false, hq, hr, hs2, hup1, hup2, decide_False,
        Bool.false_and, Bool.or_self, Nat.zero_sub, Nat.pow_zero, Nat.lt_irrefl,
        show ¬ (1 < 0) by decide, show ¬ (0 = 1) by decide]
    · -- both divide
      have hsh : (E - (e - (j : Int))).toNat = (E - e).toNat + j := by omega
      have hpos : 0 < (E - e).toNat := by omega
      have hq : m * 2 ^ j / 2 ^ (E - (e - (j : Int))).toNat = m / 2 ^ (E - e).toNat := by
        rw [hsh, Nat.pow_add]
        exact Nat.mul_div_mul_right _ _ hj
      have hr : m * 2 ^ j % 2 ^ (E - (e - (j : Int))).toNat =
          m % 2 ^ (E - e).toNat * 2 ^ j := by
        rw [hsh, Nat.pow_add]
        exact Nat.mul_mod_mul_right _ _ _
      have hhalf : 2 ^ ((E - (e - (j : Int))).toNat - 1) = 2 ^ ((E - e).toNat - 1) * 2 ^ j := by
        rw [hsh, ← Nat.pow_add]
        congr 1
        omega
      have hlt : (2 ^ ((E - e).toNat - 1) * 2 ^ j < m % 2 ^ (E - e).toNat * 2 ^ j) ↔
          (2 ^ ((E - e).toNat - 1) < m % 2 ^ (E - e).toNat) :=
        Nat.mul_lt_mul_right hj
      have heq : (m % 2 ^ (E - e).toNat * 2 ^ j = 2 ^ ((E - e).toNat - 1) * 2 ^ j) ↔
          (m % 2 ^ (E - e).toNat = 2 ^ ((E - e).toNat - 1)) :=
        Nat.mul_left_inj (Nat.ne_of_gt hj)
      simp only [h1, h2, if_false, hq, hr, hhalf, hlt, heq]

theorem ofInt_natCast (x : Nat) : F64.ofInt (x : Int) = F64.round false x 0 := by
  unfold F64.ofInt
  have h1 : ¬ ((x : Int) < 0) := by omega
  simp [h1]

theorem ofInt_small (x : Nat) (hx0 : 0 < x) (hx : x < 2 ^ 53) :
    F64.ofInt (x : Int) =
      F64.fin false (x * 2 ^ (52 - F64.log2 x)) ((F64.log2 x : Int) - 52) := by
  rw [ofInt_natCast, round_small false x hx0 hx]

/-- The float64 quotient of two integers below `2^53` whose quotient is an integer is that
integer. -/
theorem div_exact (c n : Nat) (hc : 0 < c) (hn : 0 < n) (h : c * n < 2 ^ 53) :
    F64.div (F64.ofInt ((c * n : Nat) : Int)) (F64.ofInt (n : Int)) = F64.ofInt (c : Int) := by
  have hcn0 : 0 < c * n := Nat.mul_pos hc hn
  have hn53 : n < 2 ^ 53 := Nat.lt_of_le_of_lt (Nat.le_mul_of_pos_left n hc) h
  obtain ⟨ha1, ha2⟩ := log2_spec (c * n) (by omega)
  obtain ⟨hn1, hn2⟩ := log2_spec n (by omega)
  have hLa : F64.log2 (c * n) ≤ 52 := by
    by_contra hcon
    have : 2 ^ 53 ≤ 2 ^ F64.log2 (c * n) := Nat.pow_le_pow_right (by decide) (by omega)
    omega
  have hLn : F64.log2 n ≤ F64.log2 (c * n) := by
    by_contra hcon
    have h1 : 2 ^ (F64.log2 (c * n) + 1) ≤ 2 ^ F64.log2 n :=
      Nat.pow_le_pow_right (by decide) (by omega)
    have h2 : n ≤ c * n := Nat.le_mul_of_pos_left n hc
    omega
  rw [ofInt_small (c * n) hcn0 h, ofInt_small n hn hn53, ofInt_natCast]
  have hmn : ¬ n * 2 ^ (52 - F64.log2 n) = 0 :=
    Nat.ne_of_gt (Nat.mul_pos hn (Nat.two_pow_pos _))
  have hlog : F64.log2 (n * 2 ^ (52 - F64.log2 n)) = 52 := by
    rw [log2_mul_pow n _ (by omega)]
    omega
  unfold F64.div
  simp only [hmn, if_false, hlog]
  -- the scaled numerator is a multiple of the denominator
  have hnum : c * n * 2 ^ (52 - F64.log2 (c * n)) * 2 ^ (52 + 65) =
      c * 2 ^ (117 - F64.log2 (c * n) + F64.log2 n) * (n * 2 ^ (52 - F64.log2 n)) := by
    have hp : 2 ^ (52 - F64.log2 (c * n)) * 2 ^ (52 + 65) =
        2 ^ (117 - F64.log2 (c * n) + F64.log2 n) * 2 ^ (52 - F64.log2 n) := by
      rw [← Nat.pow_add, ← Nat.pow_add]
      congr 1
      omega
    calc c * n * 2 ^ (52 - F64.log2 (c * n)) * 2 ^ (52 + 65)
        = c * n * (2 ^ (52 - F64.log2 (c * n)) * 2 ^ (52 + 65)) := by rw [Nat.mul_assoc]
      _ = c * n * (2 ^ (117 - F64.log2 (c * n) + F64.log2 n) * 2 ^ (52 - F64.log2 n)) := by
          rw [hp]
      _ = c * 2 ^ (117 - F64.log2 (c * n) + F64.log2 n) * (n * 2 ^ (52 - F64.log2 n)) := by
          ring
  rw [hnum, Nat.mul_div_cancel _ (Nat.pos_of_ne_zero hmn), Nat.mul_mod_left]
  simp only [if_true, Nat.add_zero, Bool.xor_false]
  have hm : 2 * (c * 2 ^ (117 - F64.log2 (c * n) + F64.log2 n)) =
      c * 2 ^ (118 - F64.log2 (c * n) + F64.log2 n) := by
    have : 118 - F64.log2 (c * n) + F64.log2 n =
        (117 - F64.log2 (c * n) + F64.log2 n) + 1 := by omega
    rw [this, Nat.pow_succ]
    ring
  have he : ((F64.log2 (c * n) : Int) - 52 - ((F64.log2 n : Int) - 52) - ((52 + 65 : Nat) : Int) - 1) =
      0 - ((118 - F64.log2 (c * n) + F64.log2 n : Nat) : Int) := by
    omega
  rw [hm, he]
  exact round_shift false c _ 0 (by omega)

theorem sub_self_fin (m : Nat) (e : Int) :
    F64.sub (F64.fin false m e) (F64.fin false m e) = F64.fin false 0 0 := by
  simp [F64.sub, F64.neg, F64.add, F64.scaled]

theorem foldl_add_zero (n : Nat) :
    (List.replicate n (F64.fin false 0 0)).foldl F64.add (F64.fin false 0 0) =
      F64.fin false 0 0 := by
  induction n with
  | zero => rfl
  | succ n ih =>
    rw [List.replicate_succ, List.foldl_cons]
    have : F64.add (F64.fin false 0 0) (F64.fin false 0 0) = F64.fin false 0 0 := by decide
    rw [this, ih]

theorem baseline_of_const (hist : List MetricSample) (c : Int)
    (hbase : ∀ s ∈ hist.drop (zeroRun hist), s.LogCount = c) :
    baseline hist = List.replicate (hist.length - zeroRun hist) c := by
  unfold baseline
  rw [List.eq_replicate_iff]
  refine ⟨by simp, ?_⟩
  intro x hx
  obtain ⟨s, hs, rfl⟩ := List.mem_map.mp hx
  exact hbase s hs

/-- The float64 statistics of a baseline of `n` equal counts `c`, when `c * n < 2^53`: the
mean is `c`, the standard deviation is zero and their quotient is `+Inf`. -/
theorem steady_statistics (c n : Nat) (hc : 0 < c) (hn : 0 < n) (h : c * n < 2 ^ 53) :
    mean (List.replicate n (c : Int)) = F64.ofInt c ∧
    stdDev (List.replicate n (c : Int)) = F64.fin false 0 0 ∧
    F64.div (mean (List.replicate n (c : Int))) (stdDev (List.replicate n (c : Int))) =
      F64.inf false := by
  have hc53 : c < 2 ^ 53 := Nat.lt_of_le_of_lt (Nat.le_mul_of_pos_right c hn) h
  have hn53 : n < 2 ^ 53 := Nat.lt_of_le_of_lt (Nat.le_mul_of_pos_left n hc) h
  have hmean : mean (List.replicate n (c : Int)) = F64.ofInt c := by
    unfold mean
    rw [List.sum_replicate, List.length_replicate]
    have : n • (c : Int) = ((c * n : Nat) : Int) := by
      rw [nsmul_eq_mul]; push_cast; ring
    rw [this]
    exact div_exact c n hc hn h
  have hzero : F64.ofInt 0 = F64.fin false 0 0 := by decide
  have hmul : F64.mul (F64.fin false 0 0) (F64.fin false 0 0) = F64.fin false 0 0 := by decide
  have hsq : sqDev (F64.ofInt c) (c : Int) = F64.fin false 0 0 := by
    unfold sqDev
    rw [ofInt_small c hc hc53, sub_self_fin, hmul]
  have hn0 : ¬ n * 2 ^ (52 - F64.log2 n) = 0 :=
    Nat.ne_of_gt (Nat.mul_pos hn (Nat.two_pow_pos _))
  have hc0 : ¬ c * 2 ^ (52 - F64.log2 c) = 0 :=
    Nat.ne_of_gt (Nat.mul_pos hc (Nat.two_pow_pos _))
  have hsd : stdDev (List.replicate n (c : Int)) = F64.fin false 0 0 := by
    unfold stdDev
    rw [hmean, List.map_replicate, hsq, hzero, foldl_add_zero, List.length_replicate,
      ofInt_small n hn hn53]
    have hdiv : F64.div (F64.fin false 0 0)
        (F64.fin false (n * 2 ^ (52 - F64.log2 n)) ((F64.log2 n : Int) - 52)) =
          F64.fin false 0 0 := by
      simp [F64.div, hn0, F64.round]
    rw [hdiv]
    decide
  refine ⟨hmean, hsd, ?_⟩
  rw [hmean, hsd, ofInt_small c hc hc53]
  simp [F64.div, hc0]

theorem threshold_below_inf (z : Nat) (h1 : 1 ≤ z) (h2 : z < 20) :
    F64.gt (F64.inf false)
      (F64.div deadLogStreamThresholdFudgeFactor (F64.ofInt (z : Int))) = true := by
  interval_cases z <;> decide!

/-! ## Error bounds of float64 arithmetic -/

theorem round_nearest (m sh : Nat) (hsh : 0 < sh) :
    (if (decide (2 ^ (sh - 1) < m % 2 ^ sh) ||
          (decide (m % 2 ^ sh = 2 ^ (sh - 1)) && decide (m / 2 ^ sh % 2 = 1))) = true
        then m / 2 ^ sh + 1 else m / 2 ^ sh) * 2 ^ sh ≤ m + 2 ^ (sh - 1) ∧
    m ≤ (if (decide (2 ^ (sh - 1) < m % 2 ^ sh) ||
          (decide (m % 2 ^ sh = 2 ^ (sh - 1)) && decide (m / 2 ^ sh % 2 = 1))) = true
        then m / 2 ^ sh + 1 else m / 2 ^ sh) * 2 ^ sh + 2 ^ (sh - 1) := by
  have h2 : 2 ^ sh = 2 * 2 ^ (sh - 1) := by
    rw [← Nat.pow_succ']
    congr 1
    omega
  have hdm : 2 ^ sh * (m / 2 ^ sh) + m % 2 ^ sh = m := Nat.div_add_mod m (2 ^ sh)
  have hr : m % 2 ^ sh < 2 ^ sh := Nat.mod_lt _ (Nat.two_pow_pos sh)
  generalize m / 2 ^ sh = q at hdm ⊢
  generalize m % 2 ^ sh = r at hdm hr ⊢
  generalize 2 ^ (sh - 1) = half at h2 ⊢
  generalize 2 ^ sh = p at h2 hdm hr ⊢
  subst h2
  by_cases hup : (decide (half < r) || (decide (r = half) && decide (q % 2 = 1))) = true
  · rw [if_pos hup]
    have hge : half ≤ r := by
      simp only [Bool.or_eq_true, decide_eq_true_eq, Bool.and_eq_true] at hup
      omega
    constructor
    · have : (q + 1) * (2 * half) = 2 * half * q + 2 * half := by ring
      omega
    · have : (q + 1) * (2 * half) = 2 * half * q + 2 * half := by ring
      omega
  · rw [if_neg hup]
    have hle : r ≤ half := by
      simp only [Bool.or_eq_true, decide_eq_true_eq, Bool.and_eq_true, not_or] at hup
      omega
    constructor
    · have : q * (2 * half) = 2 * half * q := by ring
      omega
    · have : q * (2 * half) = 2 * half * q := by ring
      omega

theorem two_zpow_pos (e : Int) : (0 : ℚ) < 2 ^ e := zpow_pos (by norm_num) e

theorem natCast_two_pow (k : Nat) : ((2 ^ k : Nat) : ℚ) = (2 : ℚ) ^ (k : Int) := by
  rw [zpow_natCast]
  push_cast
  rfl

/-- Rounding a number in the normal range: the result is a finite float64 with a 53-bit
mantissa, within relative error `2^-53`. -/
theorem round_spec (neg : Bool) (m : Nat) (e : Int) (hm : m ≠ 0)
    (hlo : (2 : ℚ) ^ (-1022 : Int) ≤ (m : ℚ) * 2 ^ e)
    (hhi : (m : ℚ) * 2 ^ e < 2 ^ (1023 : Int)) :
    ∃ (m' : Nat) (e' : Int), F64.round neg m e = F64.fin neg m' e' ∧ 0 < m' ∧ m' < 2 ^ 53 ∧
      |(m' : ℚ) * 2 ^ e' - (m : ℚ) * 2 ^ e| ≤ (m : ℚ) * 2 ^ e * 2 ^ (-53 : Int) := by
  obtain ⟨hL1, hL2⟩ := log2_spec m hm
  have hpe := two_zpow_pos e
  have hL1q : (2 : ℚ) ^ ((F64.log2 m : Int)) ≤ (m : ℚ) := by
    rw [← natCast_two_pow]
    exact_mod_cast hL1
  have hL2q : (m : ℚ) < (2 : ℚ) ^ ((F64.log2 m + 1 : Nat) : Int) := by
    rw [← natCast_two_pow]
    exact_mod_cast hL2
  -- the exponent of the result is in range
  have hElo : -1022 < (F64.log2 m : Int) + 1 + e := by
    have h1 : (m : ℚ) * 2 ^ e < (2 : ℚ) ^ ((F64.log2 m + 1 : Nat) : Int) * 2 ^ e :=
      mul_lt_mul_of_pos_right hL2q hpe
    rw [← zpow_add₀ (by norm_num : (2 : ℚ) ≠ 0)] at h1
    have h2 := lt_of_le_of_lt hlo h1
    have h3 := (zpow_lt_zpow_iff_right₀ (by norm_num : (1 : ℚ) < 2)).mp h2
    push_cast at h3
    omega
  have hEhi : (F64.log2 m : Int) + e < 1023 := by
    have h1 : (2 : ℚ) ^ ((F64.log2 m : Int)) * 2 ^ e ≤ (m : ℚ) * 2 ^ e :=
      mul_le_mul_of_nonneg_right hL1q (le_of_lt hpe)
    rw [← zpow_add₀ (by norm_num : (2 : ℚ) ≠ 0)] at h1
    have h2 := lt_of_le_of_lt h1 hhi
    exact (zpow_lt_zpow_iff_right₀ (by norm_num : (1 : ℚ) < 2)).mp h2
  have hmax : max (e + (F64.log2 m : Int) - 52) (-1074) = e + (F64.log2 m : Int) - 52 := by
    omega
  unfold F64.round
  rw [if_neg hm]
  simp only [hmax]
  by_cases hex : e + (F64.log2 m : Int) - 52 ≤ e
  · -- the number is a float64: no rounding
    have hL : F64.log2 m ≤ 52 := by omega
    have hsh : (e + (F64.log2 m : Int) - 52 - e).toNat = 0 := by omega
    have hsh2 : (e - (e + (F64.log2 m : Int) - 52)).toNat = 52 - F64.log2 m := by omega
    have hq : m * 2 ^ (52 - F64.log2 m) < 2 ^ 53 := by
      have : 2 ^ 53 = 2 ^ (F64.log2 m + 1) * 2 ^ (52 - F64.log2 m) := by
        rw [← Nat.pow_add]; congr 1; omega
      rw [this]
      exact Nat.mul_lt_mul_of_pos_right hL2 (Nat.two_pow_pos _)
    have hq0 : 0 < m * 2 ^ (52 - F64.log2 m) :=
      Nat.mul_pos (Nat.pos_of_ne_zero hm) (Nat.two_pow_pos _)
    have hne : ¬ m * 2 ^ (52 - F64.log2 m) = 9007199254740992 := by omega
    have hq0' : ¬ m * 2 ^ (52 - F64.log2 m) = 0 := by omega
    have h971 : ¬ (971 : Int) < e + (F64.log2 m : Int) - 52 := by omega
    refine ⟨m * 2 ^ (52 - F64.log2 m), e + (F64.log2 m : Int) - 52, ?_, hq0, hq, ?_⟩
    · simp [hex, hsh, hsh2, hne, hq0', h971]
    · have hval : ((m * 2 ^ (52 - F64.log2 m) : Nat) : ℚ) * 2 ^ (e + (F64.log2 m : Int) - 52) =
          (m : ℚ) * 2 ^ e := by
        rw [Nat.cast_mul, natCast_two_pow, mul_assoc, ← zpow_add₀ (by norm_num : (2 : ℚ) ≠ 0)]
        congr 2
        rw [Nat.cast_sub hL]
        push_cast
        ring
      rw [hval, sub_self, abs_zero]
      exact mul_nonneg (mul_nonneg (Nat.cast_nonneg m) (le_of_lt hpe))
        (le_of_lt (two_zpow_pos _))
  · -- rounding off `sh` bits
    have hLgt : 52 < F64.log2 m := by omega
    obtain ⟨sh, hshdef⟩ : ∃ sh : Nat, F64.log2 m = 52 + sh := ⟨F64.log2 m - 52, by omega⟩
    have hshpos : 0 < sh := by omega
    have hsh : (e + (F64.log2 m : Int) - 52 - e).toNat = sh := by omega
    simp only [hex, if_false, hsh]
    have hnear := round_nearest m sh hshpos
    -- bounds of the quotient
    have hqlo : 2 ^ 52 ≤ m / 2 ^ sh := by
      rw [Nat.le_div_iff_mul_le (Nat.two_pow_pos sh), ← Nat.pow_add, ← hshdef]
      exact hL1
    have hqhi : m / 2 ^ sh < 2 ^ 53 := by
      rw [Nat.div_lt_iff_lt_mul (Nat.two_pow_pos sh), ← Nat.pow_add]
      have : 53 + sh = F64.log2 m + 1 := by omega
      rw [this]
      exact hL2
    generalize hm'def : (if (decide (2 ^ (sh - 1) < m % 2 ^ sh) ||
          (decide (m % 2 ^ sh = 2 ^ (sh - 1)) && decide (m / 2 ^ sh % 2 = 1))) = true
        then m / 2 ^ sh + 1 else m / 2 ^ sh) = m' at hnear ⊢
    have hm'lo : 2 ^ 52 ≤ m' := by
      rw [← hm'def]; split <;> omega
    have hm'hi : m' ≤ 2 ^ 53 := by
      rw [← hm'def]; split <;> omega
    -- the error of the rounded mantissa
    have herr : |(m' : ℚ) * 2 ^ (sh : Int) - (m : ℚ)| ≤ (2 : ℚ) ^ ((sh : Int) - 1) := by
      have hhalf : ((2 ^ (sh - 1) : Nat) : ℚ) = (2 : ℚ) ^ ((sh : Int) - 1) := by
        rw [natCast_two_pow, Nat.cast_sub hshpos]
        rfl
      have h1 : ((m' * 2 ^ sh : Nat) : ℚ) ≤ ((m + 2 ^ (sh - 1) : Nat) : ℚ) := by
        exact_mod_cast hnear.1
      have h2 : ((m : Nat) : ℚ) ≤ ((m' * 2 ^ sh + 2 ^ (sh - 1) : Nat) : ℚ) := by
        exact_mod_cast hnear.2
      rw [Nat.cast_add, Nat.cast_mul, natCast_two_pow, hhalf] at h1 h2
      rw [abs_le]
      constructor <;> linarith
    have hbound : (2 : ℚ) ^ ((sh : Int) - 1) * 2 ^ e ≤ (m : ℚ) * 2 ^ e * 2 ^ (-53 : Int) := by
      have h1 : (2 : ℚ) ^ ((sh : Int) - 1) = 2 ^ ((F64.log2 m : Int)) * 2 ^ (-53 : Int) := by
        rw [← zpow_add₀ (by norm_num : (2 : ℚ) ≠ 0)]
        congr 1
        omega
      rw [h1]
      have h2 : (2 : ℚ) ^ ((F64.log2 m : Int)) * 2 ^ (-53 : Int) * 2 ^ e ≤
          (m : ℚ) * 2 ^ (-53 : Int) * 2 ^ e :=
        mul_le_mul_of_nonneg_right
          (mul_le_mul_of_nonneg_right hL1q (le_of_lt (two_zpow_pos _))) (le_of_lt hpe)
      linarith
    have hvalerr : |(m' : ℚ) * 2 ^ (e + (F64.log2 m : Int) - 52) - (m : ℚ) * 2 ^ e| ≤
        (m : ℚ) * 2 ^ e * 2 ^ (-53 : Int) := by
      have hexp : (2 : ℚ) ^ (e + (F64.log2 m : Int) - 52) = 2 ^ (sh : Int) * 2 ^ e := by
        rw [← zpow_add₀ (by norm_num : (2 : ℚ) ≠ 0)]
        congr 1
        omega
      have : (m' : ℚ) * 2 ^ (e + (F64.log2 m : Int) - 52) - (m : ℚ) * 2 ^ e =
          ((m' : ℚ) * 2 ^ (sh : Int) - (m : ℚ)) * 2 ^ e := by
        rw [hexp]; ring
      rw [this, abs_mul, abs_of_pos hpe]
      exact le_trans (mul_le_mul_of_nonneg_right herr (le_of_lt hpe)) hbound
    by_cases hcarry : m' = 9007199254740992
    · refine ⟨2 ^ 52, e + (F64.log2 m : Int) - 52 + 1, ?_, by norm_num, by norm_num, ?_⟩
      · have h971 : ¬ (971 : Int) < e + (F64.log2 m : Int) - 52 + 1 := by omega
        simp [hcarry, h971]
      · have : ((2 ^ 52 : Nat) : ℚ) * 2 ^ (e + (F64.log2 m : Int) - 52 + 1) =
            (m' : ℚ) * 2 ^ (e + (F64.log2 m : Int) - 52) := by
          rw [hcarry, zpow_add₀ (by norm_num : (2 : ℚ) ≠ 0)]
          norm_num
          ring
        rw [this]
        exact hvalerr
    · refine ⟨m', e + (F64.log2 m : Int) - 52, ?_, by omega, by omega, hvalerr⟩
      have h971 : ¬ (971 : Int) < e + (F64.log2 m : Int) - 52 := by omega
      have hm0 : ¬ m' = 0 := by omega
      simp [hcarry, h971, hm0]

theorem IsFloat.pos {x : F64} {v : ℚ} (h : IsFloat x v) : 0 < v := by
  obtain ⟨m, e, _, hm, _, hv⟩ := h
  rw [← hv]
  exact mul_pos (by exact_mod_cast hm) (two_zpow_pos e)

/-- A float64 of value at least `2^-10` has exponent at least `-62`. -/
theorem exponent_lower (m : Nat) (e : Int) (hm : m < 2 ^ 53)
    (hv : (2 : ℚ) ^ (-10 : Int) ≤ (m : ℚ) * 2 ^ e) : -63 < e := by
  have h1 : (m : ℚ) < (2 : ℚ) ^ (53 : Int) := by
    have : ((2 ^ 53 : Nat) : ℚ) = (2 : ℚ) ^ (53 : Int) := by norm_num
    rw [← this]
    exact_mod_cast hm
  have h2 : (m : ℚ) * 2 ^ e < (2 : ℚ) ^ (53 : Int) * 2 ^ e :=
    mul_lt_mul_of_pos_right h1 (two_zpow_pos e)
  rw [← zpow_add₀ (by norm_num : (2 : ℚ) ≠ 0)] at h2
  have h3 := lt_of_le_of_lt hv h2
  have h4 := (zpow_lt_zpow_iff_right₀ (by norm_num : (1 : ℚ) < 2)).mp h3
  omega

theorem round_isFloat (m : Nat) (e : Int) (hm : m ≠ 0)
    (hlo : (2 : ℚ) ^ (-1022 : Int) ≤ (m : ℚ) * 2 ^ e)
    (hhi : (m : ℚ) * 2 ^ e < 2 ^ (1023 : Int)) :
    ∃ v, IsFloat (F64.round false m e) v ∧
      |v - (m : ℚ) * 2 ^ e| ≤ (m : ℚ) * 2 ^ e * 2 ^ (-53 : Int) := by
  obtain ⟨m', e', hr, h1, h2, h3⟩ := round_spec false m e hm hlo hhi
  exact ⟨(m' : ℚ) * 2 ^ e', ⟨m', e', hr, h1, h2, rfl⟩, h3⟩

theorem ofInt_spec (c : Nat) (hc : 0 < c) (hc64 : c < 2 ^ 64) :
    ∃ v, IsFloat (F64.ofInt (c : Int)) v ∧ |v - (c : ℚ)| ≤ (c : ℚ) * 2 ^ (-53 : Int) := by
  rw [ofInt_natCast]
  have hc1 : (1 : ℚ) ≤ (c : ℚ) := by exact_mod_cast hc
  have hc2 : (c : ℚ) < 2 ^ 64 := by exact_mod_cast hc64
  have h := round_isFloat c 0 (by omega)
    (by rw [zpow_zero, mul_one]; exact le_trans (by norm_num) hc1)
    (by rw [zpow_zero, mul_one]; exact lt_trans hc2 (by norm_num))
  rw [zpow_zero, mul_one] at h
  exact h

theorem natAbs_cast_abs (z : Int) : ((z.natAbs : Nat) : ℚ) = |(z : ℚ)| := by
  rw [Nat.cast_natAbs, Int.cast_abs]

theorem natAbs_cast_nonneg (z : Int) (hz : 0 ≤ z) : ((z.natAbs : Nat) : ℚ) = (z : ℚ) := by
  rw [natAbs_cast_abs, abs_of_nonneg (by exact_mod_cast hz)]

theorem scaled_cast (s : Bool) (m : Nat) (e e0 : Int) (h : e0 ≤ e) :
    ((F64.scaled s m e e0 : Int) : ℚ) * 2 ^ e0 = (if s then -1 else 1) * ((m : ℚ) * 2 ^ e) := by
  unfold F64.scaled
  have hp : ((2 ^ (e - e0).toNat : Nat) : ℚ) * 2 ^ e0 = (2 : ℚ) ^ e := by
    rw [natCast_two_pow, ← zpow_add₀ (by norm_num : (2 : ℚ) ≠ 0)]
    congr 1
    omega
  cases s
  · simp only [Bool.false_eq_true, if_false, one_mul]
    push_cast
    rw [mul_assoc]
    have := hp
    push_cast at this
    rw [this]
  · simp only [if_true]
    push_cast
    have := hp
    push_cast at this
    rw [neg_one_mul, neg_one_mul, neg_mul, mul_assoc, this]

/-- The float64 sum of a non-negative float (possibly zero) and a positive one. -/
theorem add_spec (m1 : Nat) (e1 : Int) (b : F64) (vb : ℚ) (hb : IsFloat b vb)
    (hlo : (2 : ℚ) ^ (-1022 : Int) ≤ (m1 : ℚ) * 2 ^ e1 + vb)
    (hhi : (m1 : ℚ) * 2 ^ e1 + vb < 2 ^ (1023 : Int)) :
    ∃ v, IsFloat (F64.add (F64.fin false m1 e1) b) v ∧
      |v - ((m1 : ℚ) * 2 ^ e1 + vb)| ≤ ((m1 : ℚ) * 2 ^ e1 + vb) * 2 ^ (-53 : Int) := by
  obtain ⟨m2, e2, rfl, hm2, hm2', hv2⟩ := hb
  have hs1 := scaled_cast false m1 e1 (min e1 e2) (min_le_left _ _)
  have hs2 := scaled_cast false m2 e2 (min e1 e2) (min_le_right _ _)
  simp only [Bool.false_eq_true, if_false, one_mul] at hs1 hs2
  have hp0 := two_zpow_pos (min e1 e2)
  have hpos1 : 0 ≤ F64.scaled false m1 e1 (min e1 e2) := by
    unfold F64.scaled; simp
  have hpos2 : 0 < F64.scaled false m2 e2 (min e1 e2) := by
    unfold F64.scaled
    simp only [Bool.false_eq_true, if_false, one_mul]
    exact_mod_cast Nat.mul_pos hm2 (Nat.two_pow_pos _)
  have hvpos : 0 < F64.scaled false m1 e1 (min e1 e2) + F64.scaled false m2 e2 (min e1 e2) := by
    omega
  have hval : (((F64.scaled false m1 e1 (min e1 e2) +
      F64.scaled false m2 e2 (min e1 e2)).natAbs : Nat) : ℚ) * 2 ^ (min e1 e2) =
        (m1 : ℚ) * 2 ^ e1 + vb := by
    rw [natAbs_cast_nonneg _ (le_of_lt hvpos), Int.cast_add, add_mul, hs1, hs2, hv2]
  unfold F64.add
  simp only []
  rw [if_neg (by omega)]
  have hdec : decide (F64.scaled false m1 e1 (min e1 e2) +
      F64.scaled false m2 e2 (min e1 e2) < 0) = false := by
    simp only [decide_eq_false_iff_not]; omega
  rw [hdec]
  have h := round_isFloat ((F64.scaled false m1 e1 (min e1 e2) +
      F64.scaled false m2 e2 (min e1 e2)).natAbs) (min e1 e2) (by omega)
    (by rw [hval]; exact hlo) (by rw [hval]; exact hhi)
  rw [hval] at h
  exact h

/-- The float64 difference of two positive floats: zero when they are equal, else the
rounded difference. -/
theorem sub_spec (a b : F64) (va vb : ℚ) (ha : IsFloat a va) (hb : IsFloat b vb)
    (hla : (2 : ℚ) ^ (-10 : Int) ≤ va) (hlb : (2 : ℚ) ^ (-10 : Int) ≤ vb)
    (hua : va < 2 ^ (1000 : Int)) (hub : vb < 2 ^ (1000 : Int)) :
    (va = vb ∧ F64.sub a b = F64.fin false 0 0) ∨
    (va ≠ vb ∧ (2 : ℚ) ^ (-63 : Int) ≤ abs (va - vb) ∧
      ∃ (s : Bool) (m : Nat) (e : Int), F64.sub a b = F64.fin s m e ∧ 0 < m ∧
      m < 2 ^ 53 ∧ abs ((m : ℚ) * 2 ^ e - abs (va - vb)) ≤ abs (va - vb) * 2 ^ (-53 : Int)) := by
  obtain ⟨m1, e1, rfl, hm1, hm1', hv1⟩ := ha
  obtain ⟨m2, e2, rfl, hm2, hm2', hv2⟩ := hb
  have he1 := exponent_lower m1 e1 hm1' (hv1 ▸ hla)
  have he2 := exponent_lower m2 e2 hm2' (hv2 ▸ hlb)
  have hs1 := scaled_cast false m1 e1 (min e1 e2) (min_le_left _ _)
  have hs2 := scaled_cast true m2 e2 (min e1 e2) (min_le_right _ _)
  simp only [Bool.false_eq_true, if_false, if_true, one_mul, neg_one_mul] at hs1 hs2
  have hp0 := two_zpow_pos (min e1 e2)
  have hz : ((F64.scaled false m1 e1 (min e1 e2) + F64.scaled true m2 e2 (min e1 e2) : Int) : ℚ) *
      2 ^ (min e1 e2) = va - vb := by
    rw [Int.cast_add, add_mul, hs1, hs2, hv1, hv2]
    ring
  unfold F64.sub F64.neg F64.add
  simp only [Bool.not_false]
  generalize F64.scaled false m1 e1 (min e1 e2) + F64.scaled true m2 e2 (min e1 e2) = z at hz ⊢
  by_cases hz0 : z = 0
  · left
    subst hz0
    simp only [Int.cast_zero, zero_mul] at hz
    refine ⟨by linarith, ?_⟩
    simp
  · right
    have hne : va ≠ vb := by
      intro h
      rw [h, sub_self] at hz
      have : (z : ℚ) = 0 := by
        rcases mul_eq_zero.mp hz with h1 | h1
        · exact h1
        · exact absurd h1 (ne_of_gt hp0)
      exact hz0 (by exact_mod_cast this)
    have hval : ((z.natAbs : Nat) : ℚ) * 2 ^ (min e1 e2) = |va - vb| := by
      rw [natAbs_cast_abs, ← hz, abs_mul, abs_of_pos hp0]
    have hna : 0 < z.natAbs := Int.natAbs_pos.mpr hz0
    have hlo63 : (2 : ℚ) ^ (-63 : Int) ≤ ((z.natAbs : Nat) : ℚ) * 2 ^ (min e1 e2) := by
      have h1 : (1 : ℚ) ≤ ((z.natAbs : Nat) : ℚ) := by exact_mod_cast hna
      have h2 : (2 : ℚ) ^ (-63 : Int) ≤ 2 ^ (min e1 e2) :=
        zpow_le_zpow_right₀ (by norm_num) (by omega)
      calc (2 : ℚ) ^ (-63 : Int) ≤ 2 ^ (min e1 e2) := h2
        _ = 1 * 2 ^ (min e1 e2) := by ring
        _ ≤ ((z.natAbs : Nat) : ℚ) * 2 ^ (min e1 e2) :=
            mul_le_mul_of_nonneg_right h1 (le_of_lt hp0)
    have hlo : (2 : ℚ) ^ (-1022 : Int) ≤ ((z.natAbs : Nat) : ℚ) * 2 ^ (min e1 e2) :=
      le_trans (zpow_le_zpow_right₀ (by norm_num) (by norm_num)) hlo63
    refine ⟨hne, hval ▸ hlo63, ?_⟩
    rw [if_neg hz0]
    have hhi : ((z.natAbs : Nat) : ℚ) * 2 ^ (min e1 e2) < 2 ^ (1023 : Int) := by
      rw [hval]
      have hpa : 0 < va := lt_of_lt_of_le (two_zpow_pos _) hla
      have hpb : 0 < vb := lt_of_lt_of_le (two_zpow_pos _) hlb
      have h1 : |va - vb| < 2 ^ (1000 : Int) := by
        rw [abs_lt]
        constructor <;> linarith
      exact lt_trans h1 (zpow_lt_zpow_right₀ (by norm_num) (by norm_num))
    obtain ⟨m', e', hr, h1, h2, h3⟩ :=
      round_spec (decide (z < 0)) z.natAbs (min e1 e2) (by omega) hlo hhi
    rw [hval] at h3
    exact ⟨_, m', e', hr, h1, h2, h3⟩

/-- The float64 square of a non-zero finite float. -/
theorem mul_self_spec (s : Bool) (m : Nat) (e : Int) (hm : 0 < m)
    (hlo : (2 : ℚ) ^ (-500 : Int) ≤ (m : ℚ) * 2 ^ e)
    (hhi : (m : ℚ) * 2 ^ e < 2 ^ (500 : Int)) :
    ∃ v, IsFloat (F64.mul (F64.fin s m e) (F64.fin s m e)) v ∧
      |v - (m : ℚ) * 2 ^ e * ((m : ℚ) * 2 ^ e)| ≤
        (m : ℚ) * 2 ^ e * ((m : ℚ) * 2 ^ e) * 2 ^ (-53 : Int) := by
  have hw : 0 < (m : ℚ) * 2 ^ e := lt_of_lt_of_le (two_zpow_pos _) hlo
  have hval : ((m * m : Nat) : ℚ) * 2 ^ (e + e) = (m : ℚ) * 2 ^ e * ((m : ℚ) * 2 ^ e) := by
    rw [zpow_add₀ (by norm_num : (2 : ℚ) ≠ 0)]
    push_cast
    ring
  have h1 : (2 : ℚ) ^ (-1022 : Int) ≤ ((m * m : Nat) : ℚ) * 2 ^ (e + e) := by
    rw [hval]
    have : (2 : ℚ) ^ (-500 : Int) * 2 ^ (-500 : Int) ≤ (m : ℚ) * 2 ^ e * ((m : ℚ) * 2 ^ e) :=
      mul_le_mul hlo hlo (le_of_lt (two_zpow_pos _)) (le_of_lt hw)
    rw [← zpow_add₀ (by norm_num : (2 : ℚ) ≠ 0)] at this
    exact le_trans (zpow_le_zpow_right₀ (by norm_num) (by norm_num)) this
  have h2 : ((m * m : Nat) : ℚ) * 2 ^ (e + e) < 2 ^ (1023 : Int) := by
    rw [hval]
    have : (m : ℚ) * 2 ^ e * ((m : ℚ) * 2 ^ e) < 2 ^ (500 : Int) * 2 ^ (500 : Int) :=
      mul_lt_mul'' hhi hhi (le_of_lt hw) (le_of_lt hw)
    rw [← zpow_add₀ (by norm_num : (2 : ℚ) ≠ 0)] at this
    exact lt_trans this (zpow_lt_zpow_right₀ (by norm_num) (by norm_num))
  have h := round_isFloat (m * m) (e + e) (Nat.ne_of_gt (Nat.mul_pos hm hm)) h1 h2
  rw [hval] at h
  unfold F64.mul
  simp only [Bool.xor_self]
  exact h

theorem gt_spec (m1 m2 : Nat) (e1 e2 : Int) :
    F64.gt (F64.fin false m1 e1) (F64.fin false m2 e2) = true ↔
      (m2 : ℚ) * 2 ^ e2 < (m1 : ℚ) * 2 ^ e1 := by
  have hs1 := scaled_cast false m1 e1 (min e1 e2) (min_le_left _ _)
  have hs2 := scaled_cast false m2 e2 (min e1 e2) (min_le_right _ _)
  simp only [Bool.false_eq_true, if_false, one_mul] at hs1 hs2
  have hp0 := two_zpow_pos (min e1 e2)
  unfold F64.gt
  simp only [decide_eq_true_eq]
  rw [← hs1, ← hs2, mul_lt_mul_right hp0]
  exact Int.cast_lt.symm

/-- The float64 quotient of two positive floats, within relative error `2^-52`. -/
theorem div_spec (a b : F64) (va vb : ℚ) (ha : IsFloat a va) (hb : IsFloat b vb)
    (hlo : (2 : ℚ) ^ (-1000 : Int) ≤ va / vb) (hhi : va / vb ≤ 2 ^ (1000 : Int)) :
    ∃ v, IsFloat (F64.div a b) v ∧ |v - va / vb| ≤ va / vb * 2 ^ (-52 : Int) := by
  obtain ⟨m1, e1, rfl, hm1, hm1', hv1⟩ := ha
  obtain ⟨m2, e2, rfl, hm2, hm2', hv2⟩ := hb
  have hQpos : 0 < va / vb := lt_of_lt_of_le (two_zpow_pos _) hlo
  have hm2q : (0 : ℚ) < (m2 : ℚ) := by exact_mod_cast hm2
  have hm1q : (0 : ℚ) < (m1 : ℚ) := by exact_mod_cast hm1
  obtain ⟨_, hL2⟩ := log2_spec m2 (by omega)
  -- the integer quotient
  have hdm : m2 * (m1 * 2 ^ (F64.log2 m2 + 65) / m2) + m1 * 2 ^ (F64.log2 m2 + 65) % m2 =
      m1 * 2 ^ (F64.log2 m2 + 65) := Nat.div_add_mod _ _
  have hr : m1 * 2 ^ (F64.log2 m2 + 65) % m2 < m2 := Nat.mod_lt _ hm2
  have hq64 : 2 ^ 64 ≤ m1 * 2 ^ (F64.log2 m2 + 65) / m2 := by
    rw [Nat.le_div_iff_mul_le hm2]
    have h1 : 2 ^ (F64.log2 m2 + 65) = 2 ^ 64 * 2 ^ (F64.log2 m2 + 1) := by
      have h0 : F64.log2 m2 + 65 = 64 + (F64.log2 m2 + 1) := by omega
      rw [h0, Nat.pow_add]
    calc 2 ^ 64 * m2 ≤ 2 ^ 64 * 2 ^ (F64.log2 m2 + 1) :=
          Nat.mul_le_mul_left _ (le_of_lt hL2)
      _ = 2 ^ (F64.log2 m2 + 65) := h1.symm
      _ ≤ m1 * 2 ^ (F64.log2 m2 + 65) := Nat.le_mul_of_pos_left _ hm1
  unfold F64.div
  simp only [if_neg (Nat.ne_of_gt hm2), Bool.xor_false]
  generalize hq : m1 * 2 ^ (F64.log2 m2 + 65) / m2 = q at hdm hq64 ⊢
  generalize hrr : m1 * 2 ^ (F64.log2 m2 + 65) % m2 = r at hdm hr ⊢
  -- exact quotient in terms of the scaled numerator
  have hpk : ((2 ^ (F64.log2 m2 + 65) : Nat) : ℚ) = (2 : ℚ) ^ ((F64.log2 m2 + 65 : Nat) : Int) :=
    natCast_two_pow _
  have hN : (m2 : ℚ) * q + r = (m1 : ℚ) * 2 ^ ((F64.log2 m2 + 65 : Nat) : Int) := by
    rw [← hpk]
    exact_mod_cast hdm
  generalize ((F64.log2 m2 + 65 : Nat) : Int) = K at hN ⊢
  have hpe := two_zpow_pos (e1 - e2 - K - 1)
  have hQ : va / vb = (2 * ((q : ℚ) + r / m2)) *
      2 ^ (e1 - e2 - K - 1) := by
    have h2 : (q : ℚ) + r / m2 = (m1 : ℚ) * 2 ^ K / m2 := by
      rw [← hN]; field_simp; ring
    rw [h2, ← hv1, ← hv2]
    have h3 : (2 : ℚ) ^ e1 = 2 ^ e2 * (2 ^ K *
        (2 * 2 ^ (e1 - e2 - K - 1))) := by
      have h4 : (2 : ℚ) * 2 ^ (e1 - e2 - K - 1) =
          2 ^ (e1 - e2 - K - 1 + 1) := by
        rw [zpow_add₀ (by norm_num : (2 : ℚ) ≠ 0), zpow_one]; ring
      have h5 : e2 + (K + (e1 - e2 - K - 1 + 1)) = e1 := by omega
      rw [h4, ← zpow_add₀ (by norm_num : (2 : ℚ) ≠ 0), ← zpow_add₀ (by norm_num : (2 : ℚ) ≠ 0),
        h5]
    rw [h3]
    have := two_zpow_pos e2
    field_simp
    ring
  have hrq : (0 : ℚ) ≤ (r : ℚ) / m2 := div_nonneg (Nat.cast_nonneg r) (le_of_lt hm2q)
  have hrq1 : (r : ℚ) / m2 < 1 := by
    rw [div_lt_one hm2q]
    exact_mod_cast hr
  have hqq : (2 : ℚ) ^ (64 : Int) ≤ (q : ℚ) := by
    have : ((2 ^ 64 : Nat) : ℚ) ≤ (q : ℚ) := by exact_mod_cast hq64
    rw [natCast_two_pow] at this
    exact this
  -- the mantissa with the sticky bit
  have hjam : |((2 * q + (if r = 0 then 0 else 1) : Nat) : ℚ) - 2 * ((q : ℚ) + r / m2)| ≤ 1 := by
    by_cases hr0 : r = 0
    · subst hr0
      simp
    · rw [if_neg hr0]
      push_cast
      rw [abs_le]
      constructor <;> linarith
  generalize hjdef : 2 * q + (if r = 0 then 0 else 1) = jam at hjam ⊢
  have hjpos : 0 < jam := by
    rw [← hjdef]
    have : 0 < 2 ^ 64 := Nat.two_pow_pos 64
    omega
  have hulp : (2 : ℚ) ^ (e1 - e2 - K - 1) ≤
      va / vb * 2 ^ (-65 : Int) := by
    rw [hQ]
    have h1 : (2 : ℚ) ^ (65 : Int) ≤ 2 * ((q : ℚ) + r / m2) := by
      have : (2 : ℚ) ^ (65 : Int) = 2 * 2 ^ (64 : Int) := by norm_num
      rw [this]
      linarith
    have h2 : (2 : ℚ) ^ (65 : Int) * 2 ^ (e1 - e2 - K - 1) ≤
        2 * ((q : ℚ) + r / m2) * 2 ^ (e1 - e2 - K - 1) :=
      mul_le_mul_of_nonneg_right h1 (le_of_lt hpe)
    have h3 : (2 : ℚ) ^ (65 : Int) * 2 ^ (-65 : Int) = 1 := by norm_num
    calc (2 : ℚ) ^ (e1 - e2 - K - 1)
        = (2 : ℚ) ^ (65 : Int) * 2 ^ (e1 - e2 - K - 1) *
            2 ^ (-65 : Int) := by
          rw [mul_comm ((2 : ℚ) ^ (65 : Int)), mul_assoc, h3, mul_one]
      _ ≤ 2 * ((q : ℚ) + r / m2) * 2 ^ (e1 - e2 - K - 1) *
            2 ^ (-65 : Int) :=
          mul_le_mul_of_nonneg_right h2 (le_of_lt (two_zpow_pos _))
  have hJ : |(jam : ℚ) * 2 ^ (e1 - e2 - K - 1) - va / vb| ≤
      va / vb * 2 ^ (-65 : Int) := by
    have : (jam : ℚ) * 2 ^ (e1 - e2 - K - 1) - va / vb =
        ((jam : ℚ) - 2 * ((q : ℚ) + r / m2)) *
          2 ^ (e1 - e2 - K - 1) := by
      rw [hQ]; ring
    rw [this, abs_mul, abs_of_pos hpe]
    calc |(jam : ℚ) - 2 * ((q : ℚ) + r / m2)| *
          2 ^ (e1 - e2 - K - 1)
        ≤ 1 * 2 ^ (e1 - e2 - K - 1) :=
          mul_le_mul_of_nonneg_right hjam (le_of_lt hpe)
      _ = 2 ^ (e1 - e2 - K - 1) := one_mul _
      _ ≤ va / vb * 2 ^ (-65 : Int) := hulp
  have hhalf_lo : (2 : ℚ) ^ (-1022 : Int) ≤ 2 ^ (-1000 : Int) * (1 / 2) := by
    have h1 : (2 : ℚ) ^ (-1000 : Int) * (1 / 2) = 2 ^ (-1001 : Int) := by
      rw [show (-1000 : Int) = -1001 + 1 by norm_num, zpow_add₀ (by norm_num : (2 : ℚ) ≠ 0),
        zpow_one]
      ring
    rw [h1]
    exact zpow_le_zpow_right₀ (by norm_num) (by norm_num)
  have hdouble_hi : (2 : ℚ) ^ (1000 : Int) * 2 < 2 ^ (1023 : Int) := by
    have h1 : (2 : ℚ) ^ (1000 : Int) * 2 = 2 ^ (1001 : Int) := by
      rw [show (1001 : Int) = 1000 + 1 by norm_num, zpow_add₀ (by norm_num : (2 : ℚ) ≠ 0),
        zpow_one]
    rw [h1]
    exact zpow_lt_zpow_right₀ (by norm_num) (by norm_num)
  have h65 : (2 : ℚ) ^ (-65 : Int) = 1 / 36893488147419103232 := by norm_num
  have h53 : (2 : ℚ) ^ (-53 : Int) = 1 / 9007199254740992 := by norm_num
  have h52 : (2 : ℚ) ^ (-52 : Int) = 1 / 4503599627370496 := by norm_num
  rw [h65] at hJ
  rw [abs_le] at hJ
  have hJlo : (2 : ℚ) ^ (-1022 : Int) ≤ (jam : ℚ) * 2 ^ (e1 - e2 - K - 1) := by
    have : va / vb * (1 / 2) ≤ (jam : ℚ) * 2 ^ (e1 - e2 - K - 1) := by linarith
    have h2 : (2 : ℚ) ^ (-1000 : Int) * (1 / 2) ≤ va / vb * (1 / 2) :=
      mul_le_mul_of_nonneg_right hlo (by norm_num)
    exact le_trans hhalf_lo (le_trans h2 this)
  have hJhi : (jam : ℚ) * 2 ^ (e1 - e2 - K - 1) < 2 ^ (1023 : Int) := by
    have : (jam : ℚ) * 2 ^ (e1 - e2 - K - 1) ≤ va / vb * 2 := by linarith
    have h2 : va / vb * 2 ≤ (2 : ℚ) ^ (1000 : Int) * 2 :=
      mul_le_mul_of_nonneg_right hhi (by norm_num)
    exact lt_of_le_of_lt (le_trans this h2) hdouble_hi
  obtain ⟨v, hv, hverr⟩ := round_isFloat jam (e1 - e2 - K - 1) (by omega) hJlo hJhi
  refine ⟨v, hv, ?_⟩
  rw [h53] at hverr
  rw [h52]
  rw [abs_le] at hverr ⊢
  constructor <;> linarith

theorem sqrtBits_spec (n k acc : Nat) (h1 : acc * acc ≤ n)
    (h2 : n < (acc + 2 ^ k) * (acc + 2 ^ k)) :
    F64.sqrtBits n k acc * F64.sqrtBits n k acc ≤ n ∧
      n < (F64.sqrtBits n k acc + 1) * (F64.sqrtBits n k acc + 1) := by
  induction k generalizing acc with
  | zero => simpa [F64.sqrtBits] using And.intro h1 h2
  | succ k ih =>
    rw [F64.sqrtBits]
    by_cases hc : (acc + 2 ^ k) * (acc + 2 ^ k) ≤ n
    · rw [if_pos hc]
      apply ih _ hc
      have : acc + 2 ^ k + 2 ^ k = acc + 2 ^ (k + 1) := by rw [Nat.pow_succ]; omega
      rw [this]
      exact h2
    · rw [if_neg hc]
      exact ih _ h1 (by omega)

theorem sqrtBits_floor (n : Nat) (hn : n ≠ 0) :
    F64.sqrtBits n (F64.log2 n / 2 + 1) 0 * F64.sqrtBits n (F64.log2 n / 2 + 1) 0 ≤ n ∧
      n < (F64.sqrtBits n (F64.log2 n / 2 + 1) 0 + 1) *
        (F64.sqrtBits n (F64.log2 n / 2 + 1) 0 + 1) := by
  apply sqrtBits_spec
  · simp
  · obtain ⟨_, h2⟩ := log2_spec n hn
    rw [Nat.zero_add, ← Nat.pow_add]
    exact Nat.lt_of_lt_of_le h2 (Nat.pow_le_pow_right (by decide) (by omega))

/-- The float64 square root of a positive float: its square is the argument within
relative error `2^-50`. -/
theorem sqrt_spec (x : F64) (vx : ℚ) (hx : IsFloat x vx)
    (hlo : (2 : ℚ) ^ (-1000 : Int) ≤ vx) (hhi : vx ≤ 2 ^ (1000 : Int)) :
    ∃ v, IsFloat (F64.sqrt x) v ∧ v * v ≤ vx * (1 + 2 ^ (-50 : Int)) ∧
      vx * (1 - 2 ^ (-50 : Int)) ≤ v * v := by
  obtain ⟨m, e, rfl, hm, hm', hv⟩ := hx
  have hvpos : 0 < vx := lt_of_lt_of_le (two_zpow_pos _) hlo
  unfold F64.sqrt
  simp only [if_neg (Nat.ne_of_gt hm), Bool.false_eq_true, if_false]
  obtain ⟨k, hk, hk130, hkeven⟩ : ∃ k : Nat,
      (130 + (if (e - 130) % 2 = 0 then 0 else 1) = k) ∧ 130 ≤ k ∧ (e - (k : Int)) % 2 = 0 := by
    by_cases hpar : (e - 130) % 2 = 0
    · exact ⟨130, by simp [hpar], by omega, by omega⟩
    · exact ⟨131, by simp [hpar], by omega, by omega⟩
  rw [hk]
  have hn0 : m * 2 ^ k ≠ 0 := Nat.ne_of_gt (Nat.mul_pos hm (Nat.two_pow_pos k))
  obtain ⟨hq1, hq2⟩ := sqrtBits_floor (m * 2 ^ k) hn0
  have hn130 : 2 ^ 130 ≤ m * 2 ^ k :=
    le_trans (Nat.pow_le_pow_right (by decide) hk130) (Nat.le_mul_of_pos_left _ hm)
  generalize hqdef : F64.sqrtBits (m * 2 ^ k) (F64.log2 (m * 2 ^ k) / 2 + 1) 0 = q at hq1 hq2 ⊢
  generalize hndef : m * 2 ^ k = n at hq1 hq2 hn130 hn0 ⊢
  have hq64 : 2 ^ 64 ≤ q := by
    by_contra hc
    have h1 : q + 1 ≤ 2 ^ 64 := by omega
    have h2 : (q + 1) * (q + 1) ≤ 2 ^ 64 * 2 ^ 64 := Nat.mul_le_mul h1 h1
    have h3 : (2 : Nat) ^ 64 * 2 ^ 64 < 2 ^ 130 := by norm_num
    omega
  -- the mantissa with the sticky bit, squared
  have hjam : (2 * q + (if q * q = n then 0 else 1)) * (2 * q + (if q * q = n then 0 else 1)) ≤
        4 * n + 4 * q ∧
      4 * n ≤ (2 * q + (if q * q = n then 0 else 1)) *
        (2 * q + (if q * q = n then 0 else 1)) + 4 * q := by
    by_cases hsq : q * q = n
    · rw [if_pos hsq]
      have : (2 * q + 0) * (2 * q + 0) = 4 * (q * q) := by ring
      rw [this, hsq]
      omega
    · rw [if_neg hsq]
      have h1 : (2 * q + 1) * (2 * q + 1) = 4 * (q * q) + 4 * q + 1 := by ring
      have h2 : (q + 1) * (q + 1) = q * q + 2 * q + 1 := by ring
      rw [h1]
      rw [h2] at hq2
      omega
  have hjpos : 0 < 2 * q + (if q * q = n then 0 else 1) := by
    have : 0 < 2 ^ 64 := Nat.two_pow_pos 64
    omega
  generalize hjdef : 2 * q + (if q * q = n then 0 else 1) = jam at hjam hjpos ⊢
  have hqn : 2 ^ 64 * q ≤ n := le_trans (Nat.mul_le_mul_right q hq64) hq1
  -- the exponent is even
  obtain ⟨h, hh⟩ : ∃ h : Int, (e - (k : Int)) / 2 - 1 = h ∧ e - (k : Int) = 2 * h + 2 :=
    ⟨(e - (k : Int)) / 2 - 1, rfl, by omega⟩
  rw [hh.1]
  have hph := two_zpow_pos (h + h)
  have hvx : vx = 4 * (n : ℚ) * 2 ^ (h + h) := by
    rw [← hv, ← hndef]
    push_cast
    have h1 : (2 : ℚ) ^ e = 2 ^ (k : Int) * (4 * 2 ^ (h + h)) := by
      have h4 : (4 : ℚ) = 2 ^ (2 : Int) := by norm_num
      have h5 : (k : Int) + (2 + (h + h)) = e := by omega
      rw [h4, ← zpow_add₀ (by norm_num : (2 : ℚ) ≠ 0), ← zpow_add₀ (by norm_num : (2 : ℚ) ≠ 0),
        h5]
    rw [h1, zpow_natCast]
    ring
  have hJJ : (jam : ℚ) * 2 ^ h * ((jam : ℚ) * 2 ^ h) = (jam : ℚ) * jam * 2 ^ (h + h) := by
    rw [zpow_add₀ (by norm_num : (2 : ℚ) ≠ 0)]
    ring
  have hsqerr : |(jam : ℚ) * 2 ^ h * ((jam : ℚ) * 2 ^ h) - vx| ≤ vx * 2 ^ (-64 : Int) := by
    have h1 : ((jam * jam : Nat) : ℚ) ≤ ((4 * n + 4 * q : Nat) : ℚ) := by exact_mod_cast hjam.1
    have h2 : ((4 * n : Nat) : ℚ) ≤ ((jam * jam + 4 * q : Nat) : ℚ) := by exact_mod_cast hjam.2
    have h3 : ((2 ^ 64 * q : Nat) : ℚ) ≤ (n : ℚ) := by exact_mod_cast hqn
    push_cast at h1 h2 h3
    have h64 : (2 : ℚ) ^ (-64 : Int) = 1 / 18446744073709551616 := by norm_num
    rw [hJJ, hvx, h64]
    have : (jam : ℚ) * jam * 2 ^ (h + h) - 4 * (n : ℚ) * 2 ^ (h + h) =
        ((jam : ℚ) * jam - 4 * n) * 2 ^ (h + h) := by ring
    rw [this, abs_mul, abs_of_pos hph]
    have h4 : |(jam : ℚ) * jam - 4 * n| ≤ 4 * (n : ℚ) * (1 / 18446744073709551616) := by
      rw [abs_le]
      constructor <;> linarith
    calc |(jam : ℚ) * jam - 4 * n| * 2 ^ (h + h)
        ≤ 4 * (n : ℚ) * (1 / 18446744073709551616) * 2 ^ (h + h) :=
          mul_le_mul_of_nonneg_right h4 (le_of_lt hph)
      _ = 4 * (n : ℚ) * 2 ^ (h + h) * (1 / 18446744073709551616) := by ring
  have hJpos : 0 < (jam : ℚ) * 2 ^ h := mul_pos (by exact_mod_cast hjpos) (two_zpow_pos h)
  generalize hJdef : (jam : ℚ) * 2 ^ h = J at hsqerr hJpos ⊢
  have h64 : (2 : ℚ) ^ (-64 : Int) = 1 / 18446744073709551616 := by norm_num
  have h53 : (2 : ℚ) ^ (-53 : Int) = 1 / 9007199254740992 := by norm_num
  have h50 : (2 : ℚ) ^ (-50 : Int) = 1 / 1125899906842624 := by norm_num
  rw [h64, abs_le] at hsqerr
  have hJlo : (2 : ℚ) ^ (-1022 : Int) ≤ J := by
    by_contra hc
    have hc' : J < (2 : ℚ) ^ (-1022 : Int) := lt_of_not_ge hc
    have h1 : J * J < (2 : ℚ) ^ (-1022 : Int) * 2 ^ (-1022 : Int) :=
      mul_lt_mul'' hc' hc' (le_of_lt hJpos) (le_of_lt hJpos)
    rw [← zpow_add₀ (by norm_num : (2 : ℚ) ≠ 0)] at h1
    have h2 : (2 : ℚ) ^ ((-1022 : Int) + -1022) ≤ 2 ^ (-1000 : Int) * (1 / 2) := by
      have h3 : (2 : ℚ) ^ (-1000 : Int) * (1 / 2) = 2 ^ (-1001 : Int) := by
        rw [show (-1000 : Int) = -1001 + 1 by norm_num, zpow_add₀ (by norm_num : (2 : ℚ) ≠ 0),
          zpow_one]
        ring
      rw [h3]
      exact zpow_le_zpow_right₀ (by norm_num) (by norm_num)
    have h4 : (2 : ℚ) ^ (-1000 : Int) * (1 / 2) ≤ vx * (1 / 2) :=
      mul_le_mul_of_nonneg_right hlo (by norm_num)
    have h5 : vx * (1 / 2) ≤ J * J := by linarith
    exact absurd (lt_of_le_of_lt (le_trans h2 (le_trans h4 h5)) h1) (lt_irrefl _)
  have hJhi : J < (2 : ℚ) ^ (1023 : Int) := by
    by_contra hc
    have hc' : (2 : ℚ) ^ (1023 : Int) ≤ J := le_of_not_gt hc
    have h1 : (2 : ℚ) ^ (1023 : Int) * 2 ^ (1023 : Int) ≤ J * J :=
      mul_le_mul hc' hc' (le_of_lt (two_zpow_pos _)) (le_of_lt hJpos)
    rw [← zpow_add₀ (by norm_num : (2 : ℚ) ≠ 0)] at h1
    have h2 : (2 : ℚ) ^ (1000 : Int) * 2 < 2 ^ ((1023 : Int) + 1023) := by
      have h3 : (2 : ℚ) ^ (1000 : Int) * 2 = 2 ^ (1001 : Int) := by
        rw [show (1001 : Int) = 1000 + 1 by norm_num, zpow_add₀ (by norm_num : (2 : ℚ) ≠ 0),
          zpow_one]
      rw [h3]
      exact zpow_lt_zpow_right₀ (by norm_num) (by norm_num)
    have h4 : vx * 2 ≤ (2 : ℚ) ^ (1000 : Int) * 2 :=
      mul_le_mul_of_nonneg_right hhi (by norm_num)
    have h5 : J * J ≤ vx * 2 := by linarith
    exact absurd (lt_of_lt_of_le h2 (le_trans h1 (le_trans h5 h4))) (lt_irrefl _)
  obtain ⟨v, hvf, hverr⟩ := round_isFloat jam h (by omega) (hJdef ▸ hJlo) (hJdef ▸ hJhi)
  rw [hJdef, h53, abs_le] at hverr
  have hvpos' : 0 < v := hvf.pos
  refine ⟨v, hvf, ?_, ?_⟩
  · have h1 : v ≤ J * (1 + 1 / 9007199254740992) := by linarith
    have h2 : v * v ≤ J * (1 + 1 / 9007199254740992) * (J * (1 + 1 / 9007199254740992)) :=
      mul_le_mul h1 h1 (le_of_lt hvpos') (le_trans (le_of_lt hvpos') h1)
    have h3 : J * (1 + 1 / 9007199254740992) * (J * (1 + 1 / 9007199254740992)) =
        J * J * ((1 + 1 / 9007199254740992) * (1 + 1 / 9007199254740992)) := by ring
    rw [h3] at h2
    rw [h50]
    have h4 : (0 : ℚ) ≤ J * J := le_of_lt (mul_pos hJpos hJpos)
    linarith
  · have h1 : J * (1 - 1 / 9007199254740992) ≤ v := by linarith
    have h0 : (0 : ℚ) ≤ J * (1 - 1 / 9007199254740992) :=
      mul_nonneg (le_of_lt hJpos) (by norm_num)
    have h2 : J * (1 - 1 / 9007199254740992) * (J * (1 - 1 / 9007199254740992)) ≤ v * v :=
      mul_le_mul h1 h1 h0 (le_of_lt hvpos')
    have h3 : J * (1 - 1 / 9007199254740992) * (J * (1 - 1 / 9007199254740992)) =
        J * J * ((1 - 1 / 9007199254740992) * (1 - 1 / 9007199254740992)) := by ring
    rw [h3] at h2
    rw [h50]
    have h4 : (0 : ℚ) ≤ J * J := le_of_lt (mul_pos hJpos hJpos)
    linarith

/-- The conversion of a positive integer below `2^53` is exact. -/
theorem ofInt_exact (x : Nat) (hx0 : 0 < x) (hx : x < 2 ^ 53) :
    IsFloat (F64.ofInt (x : Int)) (x : ℚ) := by
  obtain ⟨h1, h2⟩ := log2_spec x (by omega)
  have hL : F64.log2 x ≤ 52 := by
    by_contra hc
    have : 2 ^ 53 ≤ 2 ^ F64.log2 x := Nat.pow_le_pow_right (by decide) (by omega)
    omega
  have hq : x * 2 ^ (52 - F64.log2 x) < 2 ^ 53 := by
    have : 2 ^ 53 = 2 ^ (F64.log2 x + 1) * 2 ^ (52 - F64.log2 x) := by
      rw [← Nat.pow_add]; congr 1; omega
    rw [this]
    exact Nat.mul_lt_mul_of_pos_right h2 (Nat.two_pow_pos _)
  refine ⟨x * 2 ^ (52 - F64.log2 x), (F64.log2 x : Int) - 52, ofInt_small x hx0 hx,
    Nat.mul_pos hx0 (Nat.two_pow_pos _), hq, ?_⟩
  rw [Nat.cast_mul, natCast_two_pow, mul_assoc, ← zpow_add₀ (by norm_num : (2 : ℚ) ≠ 0)]
  have : ((52 - F64.log2 x : Nat) : Int) + ((F64.log2 x : Int) - 52) = 0 := by omega
  rw [this, zpow_zero, mul_one]

theorem forty_bound : (40 : ℚ) * 2 ^ (200 : Int) < 2 ^ (1023 : Int) := by
  have h1 : (40 : ℚ) * 2 ^ (200 : Int) ≤ 2 ^ (6 : Int) * 2 ^ (200 : Int) :=
    mul_le_mul_of_nonneg_right (by norm_num) (le_of_lt (two_zpow_pos _))
  rw [← zpow_add₀ (by norm_num : (2 : ℚ) ≠ 0)] at h1
  exact lt_of_le_of_lt h1 (zpow_lt_zpow_right₀ (by norm_num) (by norm_num))

/-- Adding `j` copies of a positive float to `+0`, `1 ≤ j ≤ 19`: the float64 sum is
between half of one copy and `2 j` copies. -/
theorem fold_spec (sq : F64) (vsq : ℚ) (hsq : IsFloat sq vsq)
    (hlo : (2 : ℚ) ^ (-200 : Int) ≤ vsq) (hhi : vsq ≤ 2 ^ (200 : Int))
    (j : Nat) (hj1 : 1 ≤ j) (hj : j ≤ 19) :
    ∃ vt, IsFloat ((List.replicate j sq).foldl F64.add (F64.fin false 0 0)) vt ∧
      vsq * (1 / 2) ≤ vt ∧ vt ≤ 2 * (j : ℚ) * vsq := by
  have hpos : 0 < vsq := hsq.pos
  have h53 : (2 : ℚ) ^ (-53 : Int) = 1 / 9007199254740992 := by norm_num
  have hlo' : (2 : ℚ) ^ (-1022 : Int) ≤ vsq :=
    le_trans (zpow_le_zpow_right₀ (by norm_num) (by norm_num)) hlo
  induction j, hj1 using Nat.le_induction with
  | base =>
    have hS : ((0 : Nat) : ℚ) * 2 ^ (0 : Int) + vsq = vsq := by simp
    obtain ⟨v, hv, herr⟩ := add_spec 0 0 sq vsq hsq (by rw [hS]; exact hlo')
      (by
        rw [hS]
        have : vsq ≤ 40 * 2 ^ (200 : Int) := by
          have := two_zpow_pos (200 : Int)
          linarith
        exact lt_of_le_of_lt this forty_bound)
    rw [hS, h53, abs_le] at herr
    refine ⟨v, ?_, ?_, ?_⟩
    · simpa using hv
    · linarith
    · push_cast; linarith
  | succ j hj1 ih =>
    obtain ⟨vt, ⟨m, e, hrep, hm, hm', hval⟩, h1, h2⟩ := ih (by omega)
    have hjq : (j : ℚ) ≤ 18 := by
      have : j ≤ 18 := by omega
      exact_mod_cast this
    have hjq1 : (1 : ℚ) ≤ (j : ℚ) := by exact_mod_cast hj1
    have hjv : (j : ℚ) * vsq ≤ 18 * vsq := mul_le_mul_of_nonneg_right hjq (le_of_lt hpos)
    have hS : (m : ℚ) * 2 ^ e + vsq = vt + vsq := by rw [hval]
    obtain ⟨v, hv, herr⟩ := add_spec m e sq vsq hsq
      (by rw [hS]; exact le_trans hlo' (by linarith))
      (by
        rw [hS]
        have : vt + vsq ≤ 40 * 2 ^ (200 : Int) := by
          have := two_zpow_pos (200 : Int)
          linarith
        exact lt_of_le_of_lt this forty_bound)
    rw [hS, h53, abs_le] at herr
    refine ⟨v, ?_, ?_, ?_⟩
    · rw [List.replicate_succ', List.foldl_append, hrep]
      exact hv
    · linarith
    · push_cast
      have hjv2 : (j : ℚ) * vsq * (1 / 9007199254740992) ≤ 18 * vsq * (1 / 9007199254740992) :=
        mul_le_mul_of_nonneg_right hjv (by norm_num)
      linarith

theorem tiny_le (x : ℚ) (h : (2 : ℚ) ^ (-150 : Int) ≤ x) : (2 : ℚ) ^ (-1000 : Int) ≤ x :=
  le_trans (zpow_le_zpow_right₀ (by norm_num) (by norm_num)) h

theorem le_huge (x : ℚ) (h : x ≤ 2 ^ (150 : Int)) : x ≤ (2 : ℚ) ^ (1000 : Int) :=
  le_trans h (zpow_le_zpow_right₀ (by norm_num) (by norm_num))

/-! ## Rational arithmetic of the error bounds -/

theorem bound_deviation (C vx vmu : ℚ)
    (hx1 : -(C * (1 / 9007199254740992)) ≤ vx - C) (hx2 : vx - C ≤ C * (1 / 9007199254740992))
    (hm1 : C * (1 - 4 / 9007199254740992) ≤ vmu) (hm2 : vmu ≤ C * (1 + 4 / 9007199254740992)) :
    |vx - vmu| ≤ C * (5 / 9007199254740992) := by
  rw [abs_le]
  constructor <;> linarith

theorem bound_rounded_deviation (C D w : ℚ) (hd1 : 1 / 9223372036854775808 ≤ D)
    (hd2 : D ≤ C * (5 / 9007199254740992))
    (he1 : -(D * (1 / 9007199254740992)) ≤ w - D) (he2 : w - D ≤ D * (1 / 9007199254740992)) :
    1 / 18446744073709551616 ≤ w ∧ w ≤ C * (6 / 9007199254740992) := by
  constructor <;> linarith

theorem bound_square (C w vsq : ℚ) (hw1 : 1 / 18446744073709551616 ≤ w)
    (hw2 : w ≤ C * (6 / 9007199254740992))
    (he1 : -(w * w * (1 / 9007199254740992)) ≤ vsq - w * w)
    (he2 : vsq - w * w ≤ w * w * (1 / 9007199254740992)) :
    1 / 680564733841876926926749214863536422912 ≤ vsq ∧
      vsq ≤ C * C * (37 / 81129638414606681695789005144064) := by
  have hwpos : 0 < w := lt_of_lt_of_le (by norm_num) hw1
  have h1 : w * w ≤ C * (6 / 9007199254740992) * (C * (6 / 9007199254740992)) :=
    mul_le_mul hw2 hw2 (le_of_lt hwpos) (le_trans (le_of_lt hwpos) hw2)
  have h2 : (1 : ℚ) / 18446744073709551616 * (1 / 18446744073709551616) ≤ w * w :=
    mul_le_mul hw1 hw1 (by norm_num) (le_of_lt hwpos)
  have h3 : C * (6 / 9007199254740992) * (C * (6 / 9007199254740992)) =
      C * C * (36 / 81129638414606681695789005144064) := by ring
  have h4 : (1 : ℚ) / 18446744073709551616 * (1 / 18446744073709551616) =
      1 / 340282366920938463463374607431768211456 := by norm_num
  rw [h3] at h1
  rw [h4] at h2
  have hCC : 0 ≤ C * C := mul_self_nonneg C
  generalize w * w = W at he1 he2 h1 h2
  generalize C * C = CC at h1 hCC ⊢
  constructor <;> linarith

theorem bound_square_le (C vsq : ℚ) (hC1 : 1 ≤ C) (hC : C ≤ 9223372036854775808)
    (h : vsq ≤ C * C * (37 / 81129638414606681695789005144064)) : vsq ≤ 67108864 := by
  have hCC : C * C ≤ 9223372036854775808 * 9223372036854775808 :=
    mul_le_mul hC hC (by linarith) (by norm_num)
  generalize C * C = CC at h hCC
  linarith

theorem in_range (x : ℚ) (h1 : 1 / 1427247692705959881058285969449495136382746624 ≤ x)
    (h2 : x ≤ 1427247692705959881058285969449495136382746624) :
    ((2 : ℚ) ^ (-200 : Int) ≤ x ∧ x ≤ 2 ^ (200 : Int)) ∧
      ((2 : ℚ) ^ (-1000 : Int) ≤ x ∧ x ≤ 2 ^ (1000 : Int)) := by
  have hm150 : (2 : ℚ) ^ (-150 : Int) = 1 / 1427247692705959881058285969449495136382746624 := by
    norm_num
  have hp150 : (2 : ℚ) ^ (150 : Int) = 1427247692705959881058285969449495136382746624 := by
    norm_num
  rw [← hm150] at h1
  rw [← hp150] at h2
  exact ⟨⟨le_trans (zpow_le_zpow_right₀ (by norm_num) (by norm_num)) h1,
      le_trans h2 (zpow_le_zpow_right₀ (by norm_num) (by norm_num))⟩,
    ⟨le_trans (zpow_le_zpow_right₀ (by norm_num) (by norm_num)) h1,
      le_trans h2 (zpow_le_zpow_right₀ (by norm_num) (by norm_num))⟩⟩

theorem bound_variance (vsq vt N Q vv : ℚ) (hsq : 0 < vsq) (hN1 : 1 ≤ N) (hN19 : N ≤ 19)
    (ht1 : vsq * (1 / 2) ≤ vt) (ht2 : vt ≤ 2 * N * vsq) (hQ : Q = vt / N)
    (he1 : -(Q * (1 / 4503599627370496)) ≤ vv - Q) (he2 : vv - Q ≤ Q * (1 / 4503599627370496)) :
    vsq * (1 / 39) ≤ vv ∧ vv ≤ vsq * 3 := by
  have hNpos : 0 < N := by linarith
  have hQ1 : vsq * (1 / 38) ≤ Q := by
    rw [hQ, le_div_iff₀ hNpos]
    have : vsq * N ≤ vsq * 19 := mul_le_mul_of_nonneg_left hN19 (le_of_lt hsq)
    linarith
  have hQ2 : Q ≤ vsq * 2 := by
    rw [hQ, div_le_iff₀ hNpos]
    linarith
  constructor <;> linarith

theorem bound_variance_quotient (vsq vt N : ℚ) (hsq : 0 < vsq) (hN1 : 1 ≤ N) (hN19 : N ≤ 19)
    (ht1 : vsq * (1 / 2) ≤ vt) (ht2 : vt ≤ 2 * N * vsq) :
    vsq * (1 / 38) ≤ vt / N ∧ vt / N ≤ vsq * 2 := by
  have hNpos : 0 < N := by linarith
  constructor
  · rw [le_div_iff₀ hNpos]
    have : vsq * N ≤ vsq * 19 := mul_le_mul_of_nonneg_left hN19 (le_of_lt hsq)
    linarith
  · rw [div_le_iff₀ hNpos]
    linarith

theorem bound_sigma (C vsq vv s : ℚ) (hC : 1 ≤ C) (hs : 0 < s)
    (hsq1 : 1 / 680564733841876926926749214863536422912 ≤ vsq)
    (hsq2 : vsq ≤ C * C * (37 / 81129638414606681695789005144064))
    (hv1 : vsq * (1 / 39) ≤ vv) (hv2 : vv ≤ vsq * 3)
    (h1 : s * s ≤ vv * (1 + 1 / 1125899906842624))
    (h2 : vv * (1 - 1 / 1125899906842624) ≤ s * s) :
    1 / 295147905179352825856 ≤ s ∧ s ≤ C * (1 / 562949953421312) := by
  have hCC : 0 ≤ C * C := mul_nonneg (by linarith) (by linarith)
  constructor
  · rw [mul_self_le_mul_self_iff (by norm_num) (le_of_lt hs)]
    have : (1 : ℚ) / 295147905179352825856 * (1 / 295147905179352825856) =
        1 / 87112285931760246646623899502532662132736 := by norm_num
    rw [this]
    generalize s * s = ss at h1 h2
    linarith
  · rw [mul_self_le_mul_self_iff (le_of_lt hs) (by linarith)]
    have : C * (1 / 562949953421312) * (C * (1 / 562949953421312)) =
        C * C * (1 / 316912650057057350374175801344) := by ring
    rw [this]
    generalize s * s = ss at h1 h2
    generalize C * C = CC at hsq2 hCC ⊢
    linarith

theorem bound_ratio (C vmu s : ℚ) (hC2 : C ≤ 9223372036854775808)
    (hm1 : C * (1 - 4 / 9007199254740992) ≤ vmu) (hm2 : vmu ≤ C * (1 + 4 / 9007199254740992))
    (hs1 : 1 / 295147905179352825856 ≤ s) (hs2 : s ≤ C * (1 / 562949953421312)) :
    281474976710656 ≤ vmu / s ∧ vmu / s ≤ 21778071482940061661655974875633165533184 := by
  have hs : 0 < s := lt_of_lt_of_le (by norm_num) hs1
  constructor
  · rw [le_div_iff₀ hs]
    linarith
  · rw [div_le_iff₀ hs]
    linarith

theorem bound_result (R vr : ℚ) (hR : 281474976710656 ≤ R)
    (he1 : -(R * (1 / 4503599627370496)) ≤ vr - R) : 1099511627776 ≤ vr := by
  linarith

/-- The float64 statistics of `n` equal counts `c`, `1 ≤ n ≤ 19`, `c * n < 2^63`: the mean
divided by the standard deviation is `+Inf` or a float of at least `2^40`. -/
theorem steady_ratio (c n : Nat) (hc : 0 < c) (hn : 0 < n) (hn19 : n ≤ 19)
    (h : c * n < 2 ^ 63) :
    F64.div (mean (List.replicate n (c : Int))) (stdDev (List.replicate n (c : Int))) =
        F64.inf false ∨
    ∃ vr, IsFloat (F64.div (mean (List.replicate n (c : Int)))
        (stdDev (List.replicate n (c : Int)))) vr ∧ (2 : ℚ) ^ (40 : Int) ≤ vr := by
  have hc63 : c < 2 ^ 63 := Nat.lt_of_le_of_lt (Nat.le_mul_of_pos_right c hn) h
  have hmean : mean (List.replicate n (c : Int)) =
      F64.div (F64.ofInt ((c * n : Nat) : Int)) (F64.ofInt (n : Int)) := by
    unfold mean
    rw [List.sum_replicate, List.length_replicate]
    have : n • (c : Int) = ((c * n : Nat) : Int) := by
      rw [nsmul_eq_mul]; push_cast; ring
    rw [this]
  have hzero : F64.ofInt 0 = F64.fin false 0 0 := by decide
  have hstd : stdDev (List.replicate n (c : Int)) =
      F64.sqrt (F64.div ((List.replicate n
        (sqDev (mean (List.replicate n (c : Int))) (c : Int))).foldl F64.add
          (F64.fin false 0 0)) (F64.ofInt (n : Int))) := by
    unfold stdDev
    rw [List.map_replicate, List.length_replicate, hzero]
  rw [hstd]
  generalize hmu : mean (List.replicate n (c : Int)) = mu at hmean ⊢
  -- the values
  have h53 : (2 : ℚ) ^ (-53 : Int) = 1 / 9007199254740992 := by norm_num
  have h52 : (2 : ℚ) ^ (-52 : Int) = 1 / 4503599627370496 := by norm_num
  have hC1 : (1 : ℚ) ≤ (c : ℚ) := by exact_mod_cast hc
  have hC63 : (c : ℚ) < 2 ^ 63 := by exact_mod_cast hc63
  have hN1 : (1 : ℚ) ≤ (n : ℚ) := by exact_mod_cast hn
  have hN19 : (n : ℚ) ≤ 19 := by exact_mod_cast hn19
  obtain ⟨vx, hx, hxerr⟩ := ofInt_spec c hc (by omega)
  obtain ⟨vs, hs, hserr⟩ := ofInt_spec (c * n) (Nat.mul_pos hc hn) (by omega)
  have hnf := ofInt_exact n hn (by omega)
  rw [h53, abs_le] at hxerr hserr
  push_cast at hserr
  -- the mean
  have hQ1lo : (c : ℚ) * (1 - 1 / 9007199254740992) ≤ vs / (n : ℚ) := by
    rw [le_div_iff₀ (by linarith)]
    nlinarith
  have hQ1hi : vs / (n : ℚ) ≤ (c : ℚ) * (1 + 1 / 9007199254740992) := by
    rw [div_le_iff₀ (by linarith)]
    nlinarith
  have hm150 : (2 : ℚ) ^ (-150 : Int) = 1 / 1427247692705959881058285969449495136382746624 := by
    norm_num
  have hp150 : (2 : ℚ) ^ (150 : Int) = 1427247692705959881058285969449495136382746624 := by
    norm_num
  obtain ⟨vmu, hmuf, hmuerr⟩ := div_spec _ _ vs (n : ℚ) hs hnf
    (tiny_le _ (by rw [hm150]; linarith)) (le_huge _ (by rw [hp150]; linarith))
  rw [← hmean] at hmuf
  rw [h52, abs_le] at hmuerr
  have hmulo : (c : ℚ) * (1 - 4 / 9007199254740992) ≤ vmu := by nlinarith
  have hmuhi : vmu ≤ (c : ℚ) * (1 + 4 / 9007199254740992) := by nlinarith
  -- the deviation
  have hp1000 : ∀ x : ℚ, x ≤ 2 ^ (150 : Int) → x < (2 : ℚ) ^ (1000 : Int) := fun x hx =>
    lt_of_le_of_lt hx (zpow_lt_zpow_right₀ (by norm_num) (by norm_num))
  have hm10 : (2 : ℚ) ^ (-10 : Int) = 1 / 1024 := by norm_num
  rcases sub_spec _ _ vx vmu hx hmuf (by rw [hm10]; linarith) (by rw [hm10]; linarith)
      (hp1000 _ (by rw [hp150]; linarith)) (hp1000 _ (by rw [hp150]; linarith)) with
    ⟨_, hsub⟩ | ⟨hne, hd63, sd, md, ed, hsub, hmd, hmd', hderr⟩
  · -- zero deviation: the standard deviation is zero and the quotient is +Inf
    left
    obtain ⟨mn, en, hnrep, hmn, _, _⟩ := hnf
    obtain ⟨mm, em, hmurep, hmm, _, _⟩ := hmuf
    have hsq : sqDev mu (c : Int) = F64.fin false 0 0 := by
      unfold sqDev
      rw [hsub]
      decide
    rw [hsq, foldl_add_zero, hnrep]
    have hdiv : F64.div (F64.fin false 0 0) (F64.fin false mn en) = F64.fin false 0 0 := by
      simp [F64.div, Nat.ne_of_gt hmn, F64.round]
    have hsqrt : F64.sqrt (F64.fin false 0 0) = F64.fin false 0 0 := by decide
    rw [hdiv, hsqrt, hmurep]
    simp [F64.div, Nat.ne_of_gt hmm]
  · right
    have hm63 : (2 : ℚ) ^ (-63 : Int) = 1 / 9223372036854775808 := by norm_num
    have hp63 : ((2 : ℚ) ^ 63) = 9223372036854775808 := by norm_num
    have hm50 : (2 : ℚ) ^ (-50 : Int) = 1 / 1125899906842624 := by norm_num
    rw [hm63] at hd63
    rw [hp63] at hC63
    rw [h53, abs_le] at hderr
    have hDhi := bound_deviation (c : ℚ) vx vmu hxerr.1 hxerr.2 hmulo hmuhi
    generalize |vx - vmu| = D at hd63 hderr hDhi
    generalize hwdef : (md : ℚ) * 2 ^ ed = w at hderr
    obtain ⟨hwlo, hwhi⟩ := bound_rounded_deviation (c : ℚ) D w hd63 hDhi hderr.1 hderr.2
    -- the squared deviation
    have hsq : sqDev mu (c : Int) = F64.mul (F64.fin sd md ed) (F64.fin sd md ed) := by
      unfold sqDev
      rw [hsub]
    rw [hsq]
    obtain ⟨vsq, hsqf, hsqerr⟩ := mul_self_spec sd md ed hmd
      (by
        rw [hwdef]
        exact le_trans (zpow_le_zpow_right₀ (by norm_num) (by norm_num))
          (show (2 : ℚ) ^ (-64 : Int) ≤ w by
            rw [show (2 : ℚ) ^ (-64 : Int) = 1 / 18446744073709551616 by norm_num]
            exact hwlo))
      (by
        rw [hwdef]
        exact lt_of_le_of_lt (show w ≤ (2 : ℚ) ^ (63 : Int) by
            rw [show (2 : ℚ) ^ (63 : Int) = 9223372036854775808 by norm_num]
            linarith only [hwhi, hC63])
          (zpow_lt_zpow_right₀ (by norm_num) (by norm_num)))
    rw [hwdef, h53, abs_le] at hsqerr
    obtain ⟨hsqlo, hsqhi⟩ := bound_square (c : ℚ) w vsq hwlo hwhi hsqerr.1 hsqerr.2
    have hsqhi' := bound_square_le (c : ℚ) vsq hC1 (le_of_lt hC63) hsqhi
    have hsqpos : 0 < vsq := hsqf.pos
    generalize F64.mul (F64.fin sd md ed) (F64.fin sd md ed) = sq at hsqf ⊢
    -- the sum and the variance
    obtain ⟨⟨hr1, hr2⟩, _⟩ := in_range vsq (by linarith only [hsqlo]) (by linarith only [hsqhi'])
    obtain ⟨vt, hvtf, hvt1, hvt2⟩ := fold_spec sq vsq hsqf hr1 hr2 n hn hn19
    obtain ⟨hq1, hq2⟩ := bound_variance_quotient vsq vt (n : ℚ) hsqpos hN1 hN19 hvt1 hvt2
    obtain ⟨_, hr3, hr4⟩ := in_range (vt / (n : ℚ)) (by linarith only [hsqlo, hq1])
      (by linarith only [hsqhi', hq2])
    obtain ⟨vv, hvvf, hvverr⟩ := div_spec _ _ vt (n : ℚ) hvtf hnf hr3 hr4
    rw [h52, abs_le] at hvverr
    obtain ⟨hv1, hv2⟩ := bound_variance vsq vt (n : ℚ) _ vv hsqpos hN1 hN19 hvt1 hvt2 rfl
      hvverr.1 hvverr.2
    -- the standard deviation
    obtain ⟨_, hr5, hr6⟩ := in_range vv (by linarith only [hsqlo, hv1])
      (by linarith only [hsqhi', hv2])
    obtain ⟨vsd, hsdf, hsd1, hsd2⟩ := sqrt_spec _ vv hvvf hr5 hr6
    rw [hm50] at hsd1 hsd2
    obtain ⟨hs1, hs2⟩ := bound_sigma (c : ℚ) vsq vv vsd hC1 hsdf.pos hsqlo hsqhi hv1 hv2 hsd1 hsd2
    -- the quotient
    obtain ⟨hR1, hR2⟩ := bound_ratio (c : ℚ) vmu vsd (le_of_lt hC63) hmulo hmuhi hs1 hs2
    obtain ⟨_, hr7, hr8⟩ := in_range (vmu / vsd) (by linarith only [hR1])
      (by linarith only [hR2])
    obtain ⟨vr, hvrf, hvrerr⟩ := div_spec _ _ vmu vsd hmuf hsdf hr7 hr8
    rw [h52, abs_le] at hvrerr
    refine ⟨vr, hvrf, ?_⟩
    rw [show (2 : ℚ) ^ (40 : Int) = 1099511627776 by norm_num]
    exact bound_result _ vr hR1 hvrerr.1

/-- The float64 threshold `6 / Z` for `1 ≤ Z < 20` is a positive float of at most `7`. -/
theorem threshold_spec (z : Nat) (h1 : 1 ≤ z) (h2 : z < 20) :
    ∃ v, IsFloat (F64.div deadLogStreamThresholdFudgeFactor (F64.ofInt (z : Int))) v ∧
      v ≤ 7 := by
  have h6 : IsFloat deadLogStreamThresholdFudgeFactor ((6 : Nat) : ℚ) :=
    ofInt_exact 6 (by norm_num) (by norm_num)
  have hz := ofInt_exact z (by omega) (by omega)
  have hZ1 : (1 : ℚ) ≤ (z : ℚ) := by exact_mod_cast h1
  have hZ2 : (z : ℚ) ≤ 19 := by
    have : z ≤ 19 := by omega
    exact_mod_cast this
  have hq1 : (6 : ℚ) / 19 ≤ ((6 : Nat) : ℚ) / (z : ℚ) := by
    rw [le_div_iff₀ (by linarith)]
    push_cast
    linarith
  have hq2 : ((6 : Nat) : ℚ) / (z : ℚ) ≤ 6 := by
    rw [div_le_iff₀ (by linarith)]
    push_cast
    linarith
  obtain ⟨_, hr1, hr2⟩ := in_range (((6 : Nat) : ℚ) / (z : ℚ)) (by linarith) (by linarith)
  obtain ⟨v, hv, herr⟩ := div_spec _ _ _ _ h6 hz hr1 hr2
  rw [show (2 : ℚ) ^ (-52 : Int) = 1 / 4503599627370496 by norm_num, abs_le] at herr
  exact ⟨v, hv, by linarith⟩

/-- The float64 test `mean / stdDev > 6 / Z` succeeds on `n` equal counts `c`, for
`1 ≤ n ≤ 19`, `1 ≤ Z < 20` and `c * n < 2^63`. -/
theorem steady_dead (c n z : Nat) (hc : 0 < c) (hn : 0 < n) (hn19 : n ≤ 19)
    (h : c * n < 2 ^ 63) (h1 : 1 ≤ z) (h2 : z < 20) :
    F64.gt (F64.div (mean (List.replicate n (c : Int))) (stdDev (List.replicate n (c : Int))))
      (F64.div deadLogStreamThresholdFudgeFactor (F64.ofInt (z : Int))) = true := by
  rcases steady_ratio c n hc hn hn19 h with hinf | ⟨vr, hvr, hge⟩
  · rw [hinf]
    exact threshold_below_inf z h1 h2
  · obtain ⟨v, hv, hle⟩ := threshold_spec z h1 h2
    obtain ⟨m1, e1, h1eq, _, _, hv1⟩ := hvr
    obtain ⟨m2, e2, h2eq, _, _, hv2⟩ := hv
    rw [h1eq, h2eq, gt_spec, hv1, hv2]
    rw [show (2 : ℚ) ^ (40 : Int) = 1099511627776 by norm_num] at hge
    linarith

/-- C8: a 20-entry history with `Z` leading zeros, `1 ≤ Z < 20`, whose other `20 - Z` entries
all carry the same positive count `c` (the sum `c * (20 - Z)` within the range of a 64-bit
`int`) passes the float64 test `mean / stdDev > 6 / Z`, and the detector sends an alert for
the key. When the sum is below `2^53` the float64 mean is `c`, the standard deviation is
zero and the quotient is `+Inf`. -/
theorem steady_baseline_alert (metricsFlushInterval : Int) (key : Bytes)
    (hist : List MetricSample) (c : Int) (hlen : hist.length = 20)
    (hz1 : 1 ≤ zeroRun hist) (hz2 : zeroRun hist < 20) (hc : 0 < c)
    (hbase : ∀ s ∈ hist.drop (zeroRun hist), s.LogCount = c)
    (hrange : c * (20 - (zeroRun hist : Int)) < 2 ^ 63) :
    deadTest hist = true ∧
    checkLogStream metricsFlushInterval key hist =
      some [{ PumpId := (Split key commaByte).headD [],
              DeadFor := (zeroRun hist : Int) * metricsFlushInterval }] ∧
    (c * (20 - (zeroRun hist : Int)) < 2 ^ 53 →
      mean (baseline hist) = F64.ofInt c ∧
      stdDev (baseline hist) = F64.fin false 0 0 ∧
      F64.div (mean (baseline hist)) (stdDev (baseline hist)) = F64.inf false) := by
  obtain ⟨cn, rfl⟩ : ∃ cn : Nat, c = (cn : Int) := ⟨c.toNat, by omega⟩
  have hcn : 0 < cn := by omega
  have hb := baseline_of_const hist (cn : Int) hbase
  rw [hlen] at hb
  have hn : 0 < 20 - zeroRun hist := by omega
  have hnat : ∀ k : Nat, (cn : Int) * (20 - (zeroRun hist : Int)) < 2 ^ k →
      cn * (20 - zeroRun hist) < 2 ^ k := by
    intro k hk
    have : ((cn * (20 - zeroRun hist) : Nat) : Int) < ((2 ^ k : Nat) : Int) := by
      push_cast
      rw [Nat.cast_sub (by omega)]
      exact_mod_cast hk
    exact_mod_cast this
  have hdead : deadTest hist = true := by
    unfold deadTest
    rw [hb]
    exact steady_dead cn (20 - zeroRun hist) (zeroRun hist) hcn hn (by omega)
      (hnat 63 hrange) hz1 hz2
  refine ⟨hdead, ?_, ?_⟩
  · rw [checkLogStream_eq, if_neg (by rw [hlen]; decide), if_pos ⟨by omega, hdead⟩]
  · intro hsmall
    rw [hb]
    exact steady_statistics cn (20 - zeroRun hist) hcn hn (hnat 53 hsmall)

theorem steady_baseline_alert_witness :
    deadTest (List.replicate 17 (sampleOf 0) ++ List.replicate 3 (sampleOf 9007199254740993)) =
      true ∧
    checkLogStream 10 (str "p,c")
        (List.replicate 17 (sampleOf 0) ++ List.replicate 3 (sampleOf 9007199254740993)) =
      some [{ PumpId := (Split (str "p,c") commaByte).headD [],
              DeadFor := (zeroRun (List.replicate 17 (sampleOf 0) ++
                List.replicate 3 (sampleOf 9007199254740993)) : Int) * 10 }] ∧
    (9007199254740993 * (20 - (zeroRun (List.replicate 17 (sampleOf 0) ++
        List.replicate 3 (sampleOf 9007199254740993)) : Int)) < 2 ^ 53 →
      mean (baseline (List.replicate 17 (sampleOf 0) ++
        List.replicate 3 (sampleOf 9007199254740993))) = F64.ofInt 9007199254740993 ∧
      stdDev (baseline (List.replicate 17 (sampleOf 0) ++
        List.replicate 3 (sampleOf 9007199254740993))) = F64.fin false 0 0 ∧
      F64.div (mean (baseline (List.replicate 17 (sampleOf 0) ++
          List.replicate 3 (sampleOf 9007199254740993))))
        (stdDev (baseline (List.replicate 17 (sampleOf 0) ++
          List.replicate 3 (sampleOf 9007199254740993)))) = F64.inf false) :=
  steady_baseline_alert 10 (str "p,c")
    (List.replicate 17 (sampleOf 0) ++ List.replicate 3 (sampleOf 9007199254740993))
    9007199254740993 (by decide) (by decide) (by decide) (by decide) (by decide) (by decide)

/-! ## Drain loop -/

theorem drainChannel_count (samples : List MetricSample) (buf : GoMap MetricSample)
    (key : Bytes) :
    ((drainChannel buf samples).get key).map (fun b => b.LogCount) =
      match buf.get key with
      | none =>
        if samples.countP (fun s => tagsStringOf s = key) = 0 then none
        else some ((samples.countP (fun s => tagsStringOf s = key) : Nat) : Int)
      | some b => some (b.LogCount + (samples.countP (fun s => tagsStringOf s = key) : Nat)) := by
  induction samples generalizing buf with
  | nil => cases h : buf.get key <;> simp [drainChannel, h]
  | cons s t ih =>
    have hstep : drainChannel buf (s :: t) = drainChannel (drainSample buf s) t := rfl
    rw [hstep, ih]
    by_cases hk : tagsStringOf s = key
    · subst hk
      cases hb : buf.get (tagsStringOf s) with
      | none =>
        simp [drainSample, hb, GoMap.get_set, List.countP_cons]
        omega
      | some b =>
        simp [drainSample, hb, GoMap.get_set, List.countP_cons]
        omega
    · cases hb : buf.get (tagsStringOf s) with
      | none => simp [drainSample, hb, GoMap.get_set, List.countP_cons, hk]
      | some b => simp [drainSample, hb, GoMap.get_set, List.countP_cons, hk]

/-- C1: draining any finite sequence of samples into an empty interval buffer leaves,
for every joined key, a buffered `LogCount` equal to the number of samples of the
sequence with that key, and no entry for a key that does not occur; the `LogCount`
a sample carried when enqueued plays no role. -/
theorem drainChannel_empty_counts (samples : List MetricSample) (key : Bytes) :
    ((drainChannel [] samples).get key).map (fun b => b.LogCount) =
      if samples.countP (fun s => tagsStringOf s = key) = 0 then none
      else some ((samples.countP (fun s => tagsStringOf s = key) : Nat) : Int) := by
  rw [drainChannel_count]
  rfl

/-! ## The joined key -/

theorem append_sep_inj (sep : UInt8) (p1 p2 c1 c2 : Bytes) (h1 : sep ∉ p1) (h2 : sep ∉ p2)
    (h : p1 ++ sep :: c1 = p2 ++ sep :: c2) : p1 = p2 ∧ c1 = c2 := by
  induction p1 generalizing p2 with
  | nil =>
    cases p2 with
    | nil => simpa using h
    | cons b p2 =>
      simp only [List.nil_append, List.cons_append, List.cons.injEq] at h
      exact absurd (h.1 ▸ List.mem_cons_self b p2) h2
  | cons a p1 ih =>
    cases p2 with
    | nil =>
      simp only [List.nil_append, List.cons_append, List.cons.injEq] at h
      exact absurd (h.1 ▸ List.mem_cons_self a p1) h1
    | cons b p2 =>
      simp only [List.cons_append, List.cons.injEq] at h
      obtain ⟨hab, ht⟩ := h
      obtain ⟨hp, hc⟩ := ih p2 (fun hm => h1 (List.mem_cons_of_mem _ hm))
        (fun hm => h2 (List.mem_cons_of_mem _ hm)) ht
      exact ⟨by rw [hab, hp], hc⟩

theorem tagsStringOf_eq_iff (s1 s2 : MetricSample) (h1 : commaByte ∉ s1.PumpId)
    (h2 : commaByte ∉ s2.PumpId) :
    tagsStringOf s1 = tagsStringOf s2 ↔
      s1.PumpId = s2.PumpId ∧ s1.ContainerName = s2.ContainerName := by
  constructor
  · intro h
    exact append_sep_inj commaByte _ _ _ _ h1 h2 h
  · rintro ⟨hp, hc⟩
    unfold tagsStringOf
    rw [hp, hc]

theorem drainSample_get_other (buf : GoMap MetricSample) (s : MetricSample) (k : Bytes)
    (hk : k ≠ tagsStringOf s) : (drainSample buf s).get k = buf.get k := by
  unfold drainSample
  cases hg : buf.get (tagsStringOf s) <;>
    simp only [hg] <;> rw [GoMap.get_set, if_neg (fun e => hk e.symm)]

theorem drainSample_get_self (buf : GoMap MetricSample) (s : MetricSample) :
    ((drainSample buf s).get (tagsStringOf s)).map (fun b => b.LogCount) =
      some (match buf.get (tagsStringOf s) with
        | none => 1
        | some b => b.LogCount + 1) := by
  unfold drainSample
  cases hg : buf.get (tagsStringOf s) <;>
    simp only [hg] <;> rw [GoMap.get_set, if_pos rfl] <;> rfl

theorem countP_same_key (samples : List MetricSample) (s : MetricSample)
    (hs : commaByte ∉ s.PumpId) (hall : ∀ t ∈ samples, commaByte ∉ t.PumpId) :
    samples.countP (fun t => tagsStringOf t = tagsStringOf s) =
      samples.countP (fun t => t.PumpId = s.PumpId ∧ t.ContainerName = s.ContainerName) := by
  induction samples with
  | nil => rfl
  | cons t rest ih =>
    have hi := ih (fun u hu => hall u (List.mem_cons_of_mem _ hu))
    have ht := tagsStringOf_eq_iff t s (hall t (List.mem_cons_self _ _)) hs
    rw [List.countP_cons, List.countP_cons, hi]
    by_cases hk : tagsStringOf t = tagsStringOf s
    · have := ht.mp hk
      simp [hk, this]
    · have : ¬ (t.PumpId = s.PumpId ∧ t.ContainerName = s.ContainerName) := fun e => hk (ht.mpr e)
      simp [hk, this]

/-- C12, as stated, fails: two samples with different `(PumpId, ContainerName)` pairs have
the same joined key and are counted in one buffer entry. -/
theorem key_clash :
    tagsStringOf keyClashA = tagsStringOf keyClashB ∧
    ¬ (keyClashA.PumpId = keyClashB.PumpId ∧
      keyClashA.ContainerName = keyClashB.ContainerName) ∧
    drainChannel [] [keyClashA, keyClashB] =
      [(str "a,b,c", { ContainerName := str "c", PumpId := str "a,b", LogCount := 2 })] := by
  decide

/-- C12, amended: for samples whose `PumpId` contains no comma, the joined keys of two
samples are equal exactly when both their `PumpId` and their `ContainerName` are equal; a
drained sample changes the buffer entry of its joined key and no other; and after a drain
from the empty buffer the entry of a sample's key counts the samples with the same pair. -/
theorem same_entry_iff_same_pair (s1 s2 : MetricSample) (h1 : commaByte ∉ s1.PumpId)
    (h2 : commaByte ∉ s2.PumpId) :
    (tagsStringOf s1 = tagsStringOf s2 ↔
      s1.PumpId = s2.PumpId ∧ s1.ContainerName = s2.ContainerName) ∧
    (∀ (buf : GoMap MetricSample) (k : Bytes), k ≠ tagsStringOf s1 →
      (drainSample buf s1).get k = buf.get k) ∧
    (∀ buf : GoMap MetricSample,
      ((drainSample buf s1).get (tagsStringOf s1)).map (fun b => b.LogCount) =
        some (match buf.get (tagsStringOf s1) with
          | none => 1
          | some b => b.LogCount + 1)) ∧
    (∀ samples : List MetricSample, (∀ t ∈ samples, commaByte ∉ t.PumpId) →
      ((drainChannel [] samples).get (tagsStringOf s1)).map (fun b => b.LogCount) =
        if samples.countP (fun t => t.PumpId = s1.PumpId ∧
            t.ContainerName = s1.ContainerName) = 0 then none
        else some ((samples.countP (fun t => t.PumpId = s1.PumpId ∧
            t.ContainerName = s1.ContainerName) : Nat) : Int)) := by
  refine ⟨tagsStringOf_eq_iff s1 s2 h1 h2, fun buf k hk => drainSample_get_other buf s1 k hk,
    fun buf => drainSample_get_self buf s1, ?_⟩
  intro samples hall
  have h := drainChannel_count samples [] (tagsStringOf s1)
  rw [countP_same_key samples s1 h1 hall] at h
  simpa [GoMap.get] using h

theorem same_entry_iff_same_pair_witness :
    (tagsStringOf (sampleOf 1) = tagsStringOf (sampleOf 2) ↔
      (sampleOf 1).PumpId = (sampleOf 2).PumpId ∧
        (sampleOf 1).ContainerName = (sampleOf 2).ContainerName) ∧
    (∀ (buf : GoMap MetricSample) (k : Bytes), k ≠ tagsStringOf (sampleOf 1) →
      (drainSample buf (sampleOf 1)).get k = buf.get k) ∧
    (∀ buf : GoMap MetricSample,
      ((drainSample buf (sampleOf 1)).get (tagsStringOf (sampleOf 1))).map
          (fun b => b.LogCount) =
        some (match buf.get (tagsStringOf (sampleOf 1)) with
          | none => 1
          | some b => b.LogCount + 1)) ∧
    (∀ samples : List MetricSample, (∀ t ∈ samples, commaByte ∉ t.PumpId) →
      ((drainChannel [] samples).get (tagsStringOf (sampleOf 1))).map (fun b => b.LogCount) =
        if samples.countP (fun t => t.PumpId = (sampleOf 1).PumpId ∧
            t.ContainerName = (sampleOf 1).ContainerName) = 0 then none
        else some ((samples.countP (fun t => t.PumpId = (sampleOf 1).PumpId ∧
            t.ContainerName = (sampleOf 1).ContainerName) : Nat) : Int)) :=
  same_entry_iff_same_pair (sampleOf 1) (sampleOf 2) (by decide) (by decide)

/-! ## Ticks -/

theorem drained_wf (st : State) (samples : List MetricSample) (hwf : st.WF) :
    State.WF { st with metricBuffer := drainChannel st.metricBuffer samples } := by
  obtain ⟨hbn, hhn, hbc, hhc, hlen⟩ := hwf
  have hd := drainChannel_wf samples st.metricBuffer hbn hbc
  exact ⟨hd.1, hhn, hd.2, hhc, hlen⟩

theorem publishCycle_total (cfg : Config) (st : State) (now : Nat → Int) (nowAfter : Int)
    (hwf : st.WF) : ∃ st' out, publishCycle cfg st now nowAfter = some (st', out) := by
  obtain ⟨newHist, alerts, hp, _, _⟩ := publishCycle_spec cfg st now nowAfter hwf
  exact ⟨_, _, hp⟩

theorem aggregateAndSendMetrics_publish (cfg : Config) (st : State) (inp : TickInput)
    (ht : inp.now - st.lastMetricSent > cfg.metricsFlushInterval) :
    aggregateAndSendMetrics cfg st inp =
      (publishCycle cfg { st with metricBuffer := drainChannel st.metricBuffer inp.samples }
        inp.pointTime inp.nowAfter).map (fun r => (r.1, some r.2)) := by
  unfold aggregateAndSendMetrics
  simp only [ht, if_true]
  cases publishCycle cfg { st with metricBuffer := drainChannel st.metricBuffer inp.samples }
    inp.pointTime inp.nowAfter <;> rfl

theorem aggregateAndSendMetrics_idle (cfg : Config) (st : State) (inp : TickInput)
    (ht : ¬ inp.now - st.lastMetricSent > cfg.metricsFlushInterval) :
    aggregateAndSendMetrics cfg st inp =
      some ({ st with metricBuffer := drainChannel st.metricBuffer inp.samples }, none) := by
  unfold aggregateAndSendMetrics
  simp only [ht, if_false]

/-- C13: a run of `aggregateAndSendMetrics` from a reachable state returns; it runs the
publish cycle (on the drained buffer) exactly when the time since the last publish is
strictly greater than the flush interval; a run that does not publish hands out nothing
(no payload, no alert), leaves `metricHistory` and `lastMetricSent` as they were, and its
buffer is the old one with the drained samples added. -/
theorem tick_publishes_iff (cfg : Config) (st : State) (inp : TickInput)
    (hr : Reachable cfg st) :
    ∃ st' out, aggregateAndSendMetrics cfg st inp = some (st', out) ∧
      (out.isSome = true ↔ inp.now - st.lastMetricSent > cfg.metricsFlushInterval) ∧
      (∀ p, out = some p →
        publishCycle cfg { st with metricBuffer := drainChannel st.metricBuffer inp.samples }
          inp.pointTime inp.nowAfter = some (st', p)) ∧
      (out = none →
        st'.metricHistory = st.metricHistory ∧ st'.lastMetricSent = st.lastMetricSent ∧
        st'.metricBuffer = drainChannel st.metricBuffer inp.samples) := by
  have hwf1 := drained_wf st inp.samples (reachable_wf cfg st hr)
  by_cases ht : inp.now - st.lastMetricSent > cfg.metricsFlushInterval
  · obtain ⟨st2, p, hp⟩ := publishCycle_total cfg _ inp.pointTime inp.nowAfter hwf1
    refine ⟨st2, some p, ?_, ?_, ?_, ?_⟩
    · rw [aggregateAndSendMetrics_publish cfg st inp ht, hp]
      rfl
    · simp [ht]
    · intro q hq
      simp only [Option.some.injEq] at hq
      rw [← hq]
      exact hp
    · intro hn
      exact absurd hn (by simp)
  · refine ⟨_, none, aggregateAndSendMetrics_idle cfg st inp ht, ?_, ?_, ?_⟩
    · simp [ht]
    · intro q hq
      exact absurd hq (by simp)
    · intro _
      exact ⟨rfl, rfl, rfl⟩

theorem tick_publishes_iff_witness :
    ∃ st' out, aggregateAndSendMetrics demoConfig demoState demoTickB = some (st', out) ∧
      (out.isSome = true ↔
        demoTickB.now - demoState.lastMetricSent > demoConfig.metricsFlushInterval) ∧
      (∀ p, out = some p →
        publishCycle demoConfig
          { demoState with
            metricBuffer := drainChannel demoState.metricBuffer demoTickB.samples }
          demoTickB.pointTime demoTickB.nowAfter = some (st', p)) ∧
      (out = none →
        st'.metricHistory = demoState.metricHistory ∧
        st'.lastMetricSent = demoState.lastMetricSent ∧
        st'.metricBuffer = drainChannel demoState.metricBuffer demoTickB.samples) :=
  tick_publishes_iff demoConfig demoState demoTickB demoState_reachable

/-! ## Keys of the history -/

/-- C14: a publish cycle from a reachable state returns with an empty `metricBuffer`,
whatever the buffer held, and the keys of the new `metricHistory` are those of the old
history together with those of the buffer that was published; so every key of the history
is still a key after any run of `aggregateAndSendMetrics`. -/
theorem publish_resets_buffer (cfg : Config) (st : State) (hr : Reachable cfg st) :
    (∀ (now : Nat → Int) (nowAfter : Int),
      ∃ st' out, publishCycle cfg st now nowAfter = some (st', out) ∧
        st'.metricBuffer = [] ∧
        ∀ k, k ∈ st'.metricHistory.keys ↔
          k ∈ st.metricHistory.keys ∨ k ∈ st.metricBuffer.keys) ∧
    ∀ (inp : TickInput) (st' : State) (out : Option Published),
      aggregateAndSendMetrics cfg st inp = some (st', out) →
        ∀ k ∈ st.metricHistory.keys, k ∈ st'.metricHistory.keys := by
  have hwf := reachable_wf cfg st hr
  constructor
  · intro now nowAfter
    obtain ⟨newHist, alerts, hp, _, hkeys⟩ := publishCycle_spec cfg st now nowAfter hwf
    refine ⟨_, _, hp, rfl, ?_⟩
    intro k
    simp only []
    rw [hkeys]
    exact addMissing_mem_keys _ _ k
  · intro inp st' out h k hk
    by_cases ht : inp.now - st.lastMetricSent > cfg.metricsFlushInterval
    · rw [aggregateAndSendMetrics_publish cfg st inp ht] at h
      obtain ⟨newHist, alerts, hp, _, hkeys⟩ := publishCycle_spec cfg
        { st with metricBuffer := drainChannel st.metricBuffer inp.samples }
        inp.pointTime inp.nowAfter (drained_wf st inp.samples hwf)
      rw [hp] at h
      simp only [Option.map_some', Option.some.injEq, Prod.mk.injEq] at h
      rw [← h.1]
      simp only []
      rw [hkeys]
      exact (addMissing_mem_keys _ _ k).mpr (Or.inl hk)
    · rw [aggregateAndSendMetrics_idle cfg st inp ht] at h
      simp only [Option.some.injEq, Prod.mk.injEq] at h
      rw [← h.1]
      exact hk

theorem publish_resets_buffer_witness :
    (∀ (now : Nat → Int) (nowAfter : Int),
      ∃ st' out, publishCycle demoConfig demoState now nowAfter = some (st', out) ∧
        st'.metricBuffer = [] ∧
        ∀ k, k ∈ st'.metricHistory.keys ↔
          k ∈ demoState.metricHistory.keys ∨ k ∈ demoState.metricBuffer.keys) ∧
    ∀ (inp : TickInput) (st' : State) (out : Option Published),
      aggregateAndSendMetrics demoConfig demoState inp = some (st', out) →
        ∀ k ∈ demoState.metricHistory.keys, k ∈ st'.metricHistory.keys :=
  publish_resets_buffer demoConfig demoState demoState_reachable

/-! ## Splitting the joined key -/

theorem Split_of_not_mem (c : Bytes) (sep : UInt8) (hc : sep ∉ c) : Split c sep = [c] := by
  induction c with
  | nil => rfl
  | cons a c ih =>
    have ha : a ≠ sep := fun e => hc (e ▸ List.mem_cons_self a c)
    have hi := ih (fun hm => hc (List.mem_cons_of_mem _ hm))
    simp only [Split, if_neg ha, hi]

theorem Split_append_sep (p c : Bytes) (sep : UInt8) (hp : sep ∉ p) :
    Split (p ++ sep :: c) sep = p :: Split c sep := by
  induction p with
  | nil => simp [Split]
  | cons a p ih =>
    have ha : a ≠ sep := fun e => hp (e ▸ List.mem_cons_self a p)
    have hi := ih (fun hm => hp (List.mem_cons_of_mem _ hm))
    rw [List.cons_append]
    simp only [Split, if_neg ha]
    rw [hi]

theorem Split_tagsStringOf (s : MetricSample) (hp : commaByte ∉ s.PumpId)
    (hc : commaByte ∉ s.ContainerName) :
    Split (tagsStringOf s) commaByte = [s.PumpId, s.ContainerName] := by
  unfold tagsStringOf
  rw [Split_append_sep _ _ _ hp, Split_of_not_mem _ _ hc]

/-- C18: when neither the `PumpId` nor the `ContainerName` of a sample contains a comma,
`strings.Split` of its joined key gives exactly the two names; the zero sample that the
publish cycle makes for the key when it is not in the buffer carries these two names; and
the alert sent for the key carries the `PumpId`. -/
theorem split_joined_key (s : MetricSample) (hp : commaByte ∉ s.PumpId)
    (hc : commaByte ∉ s.ContainerName) :
    Split (tagsStringOf s) commaByte = [s.PumpId, s.ContainerName] ∧
    (∀ metricBuffer : GoMap MetricSample, metricBuffer.get (tagsStringOf s) = none →
      sampleFor metricBuffer (tagsStringOf s) =
        some { PumpId := s.PumpId, ContainerName := s.ContainerName, LogCount := 0 }) ∧
    (∀ (metricsFlushInterval : Int) (h : List MetricSample) (alert : DeadPumpAlert),
      checkLogStream metricsFlushInterval (tagsStringOf s) h = some [alert] →
        alert.PumpId = s.PumpId) := by
  have hsplit := Split_tagsStringOf s hp hc
  refine ⟨hsplit, ?_, ?_⟩
  · intro metricBuffer hg
    unfold sampleFor
    rw [hg, hsplit]
    rfl
  · intro metricsFlushInterval h alert ha
    rw [checkLogStream_flagged, hsplit] at ha
    by_cases hf : flagged h = true
    · rw [if_pos hf] at ha
      simp only [Option.some.injEq, List.cons.injEq, and_true] at ha
      rw [← ha]
      rfl
    · rw [if_neg hf] at ha
      exact absurd ha (by simp)

theorem split_joined_key_witness :
    Split (tagsStringOf (sampleOf 3)) commaByte =
      [(sampleOf 3).PumpId, (sampleOf 3).ContainerName] ∧
    (∀ metricBuffer : GoMap MetricSample,
      metricBuffer.get (tagsStringOf (sampleOf 3)) = none →
      sampleFor metricBuffer (tagsStringOf (sampleOf 3)) =
        some { PumpId := (sampleOf 3).PumpId, ContainerName := (sampleOf 3).ContainerName,
               LogCount := 0 }) ∧
    (∀ (metricsFlushInterval : Int) (h : List MetricSample) (alert : DeadPumpAlert),
      checkLogStream metricsFlushInterval (tagsStringOf (sampleOf 3)) h = some [alert] →
        alert.PumpId = (sampleOf 3).PumpId) :=
  split_joined_key (sampleOf 3) (by decide) (by decide)

/-! ## The examples of the comment in the detector -/

/-- C16: the detector on the examples of its comment.  With zero two standard deviations
from the mean and one zero sample, the test is `2 > 6/1` and no alert is sent; with zero
one standard deviation from the mean, no alert is sent after one zero sample (`1 > 6/1`)
nor after two (`1 > 6/2`). -/
theorem comment_examples_no_alert :
    (zeroRun twoSigmaOneZero = 1 ∧
      mean (baseline twoSigmaOneZero) = F64.ofInt 4 ∧
      stdDev (baseline twoSigmaOneZero) = F64.ofInt 2 ∧
      F64.div (mean (baseline twoSigmaOneZero)) (stdDev (baseline twoSigmaOneZero)) =
        F64.ofInt 2 ∧
      checkLogStream 10 (str "p,c") twoSigmaOneZero = some []) ∧
    (zeroRun oneSigmaOneZero = 1 ∧
      F64.div (mean (baseline oneSigmaOneZero)) (stdDev (baseline oneSigmaOneZero)) =
        F64.ofInt 1 ∧
      checkLogStream 10 (str "p,c") oneSigmaOneZero = some []) ∧
    (zeroRun oneSigmaTwoZeros = 2 ∧
      F64.div (mean (baseline oneSigmaTwoZeros)) (stdDev (baseline oneSigmaTwoZeros)) =
        F64.ofInt 1 ∧
      checkLogStream 10 (str "p,c") oneSigmaTwoZeros = some []) := by
  refine ⟨⟨by decide, by decide!, by decide!, by decide!, by decide!⟩,
    ⟨by decide, by decide!, by decide!⟩, ⟨by decide, by decide!, by decide!⟩⟩

/-! ## Index safety -/

theorem aggregateAndSendMetrics_total (cfg : Config) (st : State) (inp : TickInput)
    (hwf : st.WF) : ∃ st' out, aggregateAndSendMetrics cfg st inp = some (st', out) := by
  by_cases ht : inp.now - st.lastMetricSent > cfg.metricsFlushInterval
  · obtain ⟨st2, p, hp⟩ := publishCycle_total cfg _ inp.pointTime inp.nowAfter
      (drained_wf st inp.samples hwf)
    exact ⟨st2, some p, by rw [aggregateAndSendMetrics_publish cfg st inp ht, hp]; rfl⟩
  · exact ⟨_, none, aggregateAndSendMetrics_idle cfg st inp ht⟩

theorem key_of_comma (k : Bytes) (hk : commaByte ∈ k) :
    (∃ s : MetricSample, k = tagsStringOf s) ∧
    ∃ a b, (Split k commaByte)[0]? = some a ∧ (Split k commaByte)[1]? = some b := by
  constructor
  · obtain ⟨p, c, rfl⟩ := List.append_of_mem hk
    exact ⟨{ PumpId := p, ContainerName := c, LogCount := 0 }, rfl⟩
  · have hl := Split_length_of_mem k commaByte hk
    exact ⟨(Split k commaByte)[0], (Split k commaByte)[1],
      List.getElem?_eq_getElem _, List.getElem?_eq_getElem _⟩

/-- C17: in a reachable state no index is out of range (an out-of-range index is the result
`none`).  Every key of `metricHistory` and of `metricBuffer` is the joined key of some
sample and `strings.Split` gives it a piece 0 and a piece 1; the copy loop returns for
every history; the detector returns on every entry; and so the publish cycle and the whole
run of `aggregateAndSendMetrics` return. -/
theorem no_index_out_of_range (cfg : Config) (st : State) (hr : Reachable cfg st) :
    (∀ k, (k ∈ st.metricHistory.keys ∨ k ∈ st.metricBuffer.keys) →
      (∃ s : MetricSample, k = tagsStringOf s) ∧
      ∃ a b, (Split k commaByte)[0]? = some a ∧ (Split k commaByte)[1]? = some b) ∧
    (∀ k, (k ∈ st.metricHistory.keys ∨ k ∈ st.metricBuffer.keys) →
      ∃ sample, sampleFor st.metricBuffer k = some sample) ∧
    (∀ (sample : MetricSample) (historyForTheseTags : List MetricSample),
      newHistoryFor sample historyForTheseTags =
        some ((sample :: historyForTheseTags).take 20)) ∧
    (∀ (k : Bytes) (h : List MetricSample),
      ∃ alerts, checkLogStream cfg.metricsFlushInterval k h = some alerts) ∧
    (∀ m : GoMap (List MetricSample),
      ∃ alerts, checkMetricHistoryForDeadLogStreams cfg.metricsFlushInterval m =
        some alerts) ∧
    (∀ (now : Nat → Int) (nowAfter : Int),
      ∃ st' out, publishCycle cfg st now nowAfter = some (st', out)) ∧
    ∀ inp : TickInput, ∃ st' out, aggregateAndSendMetrics cfg st inp = some (st', out) := by
  have hwf := reachable_wf cfg st hr
  obtain ⟨hbn, hhn, hbc, hhc, hlen⟩ := hwf
  have hcomma : ∀ k, (k ∈ st.metricHistory.keys ∨ k ∈ st.metricBuffer.keys) →
      commaByte ∈ k := by
    intro k hk
    rcases hk with e | e
    · exact hhc k e
    · exact hbc k e
  refine ⟨fun k hk => key_of_comma k (hcomma k hk), ?_, newHistoryFor_eq,
    checkLogStream_total cfg.metricsFlushInterval,
    checkMetricHistory_total cfg.metricsFlushInterval,
    fun now nowAfter => publishCycle_total cfg st now nowAfter ⟨hbn, hhn, hbc, hhc, hlen⟩,
    fun inp => aggregateAndSendMetrics_total cfg st inp ⟨hbn, hhn, hbc, hhc, hlen⟩⟩
  intro k hk
  obtain ⟨s, hs, _⟩ := sampleFor_total st.metricBuffer k (Or.inr (hcomma k hk))
  exact ⟨s, hs⟩

theorem no_index_out_of_range_witness :
    (∀ k, (k ∈ fullState.metricHistory.keys ∨ k ∈ fullState.metricBuffer.keys) →
      (∃ s : MetricSample, k = tagsStringOf s) ∧
      ∃ a b, (Split k commaByte)[0]? = some a ∧ (Split k commaByte)[1]? = some b) ∧
    (∀ k, (k ∈ fullState.metricHistory.keys ∨ k ∈ fullState.metricBuffer.keys) →
      ∃ sample, sampleFor fullState.metricBuffer k = some sample) ∧
    (∀ (sample : MetricSample) (historyForTheseTags : List MetricSample),
      newHistoryFor sample historyForTheseTags =
        some ((sample :: historyForTheseTags).take 20)) ∧
    (∀ (k : Bytes) (h : List MetricSample),
      ∃ alerts, checkLogStream demoConfig.metricsFlushInterval k h = some alerts) ∧
    (∀ m : GoMap (List MetricSample),
      ∃ alerts, checkMetricHistoryForDeadLogStreams demoConfig.metricsFlushInterval m =
        some alerts) ∧
    (∀ (now : Nat → Int) (nowAfter : Int),
      ∃ st' out, publishCycle demoConfig fullState now nowAfter = some (st', out)) ∧
    ∀ inp : TickInput,
      ∃ st' out, aggregateAndSendMetrics demoConfig fullState inp = some (st', out) :=
  no_index_out_of_range demoConfig fullState fullState_reachable

/-! ## The alert channel -/

theorem chanSendAll_append (queue a b : List DeadPumpAlert) :
    chanSendAll queue (a ++ b) =
      match chanSendAll queue a with
      | Run.done queue' => chanSendAll queue' b
      | Run.waiting q x => Run.waiting q x
      | Run.panicked => Run.panicked := by
  induction a generalizing queue with
  | nil => rfl
  | cons x a ih =>
    simp only [List.cons_append, chanSendAll]
    cases chanSend queue x with
    | done q => exact ih q
    | waiting q y => rfl
    | panicked => rfl

theorem checkMetricHistoryOnChannel_eq (metricsFlushInterval : Int)
    (m : GoMap (List MetricSample)) (queue alerts : List DeadPumpAlert)
    (h : checkMetricHistoryForDeadLogStreams metricsFlushInterval m = some alerts) :
    checkMetricHistoryOnChannel metricsFlushInterval m queue = chanSendAll queue alerts := by
  induction m generalizing queue alerts with
  | nil =>
    simp only [checkMetricHistoryForDeadLogStreams, Option.some.injEq] at h
    rw [← h]
    rfl
  | cons e rest ih =>
    obtain ⟨k, hist⟩ := e
    obtain ⟨a, ha⟩ := checkLogStream_total metricsFlushInterval k hist
    obtain ⟨more, hm⟩ := checkMetricHistory_total metricsFlushInterval rest
    rw [checkMetricHistory_cons _ _ _ _ _ _ ha hm] at h
    simp only [Option.some.injEq] at h
    rw [← h, chanSendAll_append]
    simp only [checkMetricHistoryOnChannel, ha]
    cases chanSendAll queue a with
    | done q => exact ih q more hm
    | waiting q y => rfl
    | panicked => rfl

theorem chanSendAll_room (queue alerts : List DeadPumpAlert)
    (h : queue.length + alerts.length ≤ deadLogStreamAlertChannelSize) :
    chanSendAll queue alerts = Run.done (queue ++ alerts) := by
  induction alerts generalizing queue with
  | nil => simp [chanSendAll]
  | cons a rest ih =>
    simp only [List.length_cons] at h
    have hlt : queue.length < deadLogStreamAlertChannelSize := by omega
    simp only [chanSendAll, chanSend, if_pos hlt]
    rw [ih (queue ++ [a]) (by simp only [List.length_append, List.length_singleton]; omega)]
    simp

theorem chanSendAll_full (queue : List DeadPumpAlert) (alert : DeadPumpAlert)
    (rest : List DeadPumpAlert) (h : deadLogStreamAlertChannelSize ≤ queue.length) :
    chanSendAll queue (alert :: rest) = Run.waiting queue alert := by
  have hlt : ¬ queue.length < deadLogStreamAlertChannelSize := by omega
  simp only [chanSendAll, chanSend, if_neg hlt]

theorem publishCycleOnChannel_eq (cfg : Config) (st st' : State) (now : Nat → Int)
    (nowAfter : Int) (out : Published) (queue : List DeadPumpAlert)
    (h : publishCycle cfg st now nowAfter = some (st', out)) :
    publishCycleOnChannel cfg st now nowAfter queue =
      match chanSendAll queue out.alerts with
      | Run.done queue' => Run.done (st', out.payload, queue')
      | Run.waiting q a => Run.waiting q a
      | Run.panicked => Run.panicked := by
  unfold publishCycle at h
  unfold publishCycleOnChannel
  cases he : encodeLoop cfg.metricName now st.metricBuffer.length st.metricBuffer 0 []
      st.metricHistory with
  | none => rw [he] at h; exact absurd h (by simp)
  | some r =>
    obtain ⟨buffer, metricHistory⟩ := r
    rw [he] at h
    simp only [] at h ⊢
    cases hh : historyLoop st.metricBuffer metricHistory [] with
    | none => rw [hh] at h; exact absurd h (by simp)
    | some newMetricHistory =>
      rw [hh] at h
      simp only [] at h ⊢
      cases hc : checkMetricHistoryForDeadLogStreams cfg.metricsFlushInterval
          newMetricHistory with
      | none => rw [hc] at h; exact absurd h (by simp)
      | some alerts =>
        rw [hc] at h
        simp only [Option.some.injEq, Prod.mk.injEq] at h
        obtain ⟨hst, hout⟩ := h
        rw [checkMetricHistoryOnChannel_eq _ _ queue alerts hc, ← hout, ← hst]
        cases chanSendAll queue alerts <;> rfl

theorem silentState_reachable : Reachable demoConfig silentState :=
  reachable_runTicks demoConfig silentTicks (initState 0) silentState
    (Reachable.init 0) (by decide!)

/-- C11, as stated, fails: with one hundred alerts in the queue and a flagged stream, the
detector does not complete with the queue unchanged; it is parked at the send of the new
alert, and so is the publish cycle that called it (from a reachable state). -/
theorem full_queue_blocks :
    fullQueue.length = deadLogStreamAlertChannelSize ∧
    flagged twoZeroHistory = true ∧
    checkMetricHistoryOnChannel 10 [(str "p,c", twoZeroHistory)] fullQueue =
      Run.waiting fullQueue { PumpId := str "p", DeadFor := 20 } ∧
    checkMetricHistoryOnChannel 10 [(str "p,c", twoZeroHistory)] fullQueue ≠
      Run.done fullQueue ∧
    Reachable demoConfig silentState ∧
    publishCycleOnChannel demoConfig silentState (fun _ => 0) 30 fullQueue =
      Run.waiting fullQueue { PumpId := str "p", DeadFor := 20 } := by
  have h1 : checkMetricHistoryOnChannel 10 [(str "p,c", twoZeroHistory)] fullQueue =
      Run.waiting fullQueue { PumpId := str "p", DeadFor := 20 } := by decide!
  refine ⟨by decide, by decide!, h1, ?_, silentState_reachable, by decide!⟩
  rw [h1]
  exact fun h => Run.noConfusion h

/-- C11, amended: when the alert queue holds one hundred alerts and the detector flags a
stream, the send of the new alert waits for room: the detector ends parked at that send,
with the queue unchanged and the alert still to be sent, and so does the publish cycle
that called it; a detector that flags nothing completes with the queue unchanged. -/
theorem full_queue_send_waits (cfg : Config) (queue : List DeadPumpAlert)
    (hfull : queue.length = deadLogStreamAlertChannelSize) :
    (∀ (key : Bytes) (h : List MetricSample) (pre post : GoMap (List MetricSample)),
      flagged h = true → (∀ e ∈ pre, flagged e.2 = false) →
      checkMetricHistoryOnChannel cfg.metricsFlushInterval (pre ++ (key, h) :: post) queue =
        Run.waiting queue { PumpId := (Split key commaByte).headD [],
                            DeadFor := (zeroRun h : Int) * cfg.metricsFlushInterval }) ∧
    (∀ m : GoMap (List MetricSample), (∀ e ∈ m, flagged e.2 = false) →
      checkMetricHistoryOnChannel cfg.metricsFlushInterval m queue = Run.done queue) ∧
    (∀ (st st' : State) (now : Nat → Int) (nowAfter : Int) (out : Published)
        (alert : DeadPumpAlert) (rest : List DeadPumpAlert),
      publishCycle cfg st now nowAfter = some (st', out) → out.alerts = alert :: rest →
      publishCycleOnChannel cfg st now nowAfter queue = Run.waiting queue alert) ∧
    (∀ (st st' : State) (now : Nat → Int) (nowAfter : Int) (out : Published),
      publishCycle cfg st now nowAfter = some (st', out) → out.alerts = [] →
      publishCycleOnChannel cfg st now nowAfter queue =
        Run.done (st', out.payload, queue)) := by
  have hquiet : ∀ m : GoMap (List MetricSample), (∀ e ∈ m, flagged e.2 = false) →
      checkMetricHistoryForDeadLogStreams cfg.metricsFlushInterval m = some [] := by
    intro m hm
    induction m with
    | nil => rfl
    | cons e rest ih =>
      obtain ⟨k, hist⟩ := e
      have hk : checkLogStream cfg.metricsFlushInterval k hist = some [] := by
        rw [checkLogStream_flagged, hm (k, hist) (List.mem_cons_self _ _)]
        rfl
      rw [checkMetricHistory_cons _ _ _ _ _ _ hk
        (ih (fun e he => hm e (List.mem_cons_of_mem _ he)))]
      rfl
  refine ⟨?_, ?_, ?_, ?_⟩
  · intro key h pre post hf hpre
    obtain ⟨b, hb⟩ := checkMetricHistory_total cfg.metricsFlushInterval post
    have hk : checkLogStream cfg.metricsFlushInterval key h =
        some [{ PumpId := (Split key commaByte).headD [],
                DeadFor := (zeroRun h : Int) * cfg.metricsFlushInterval }] := by
      rw [checkLogStream_flagged, hf]
      rfl
    have hall := checkMetricHistory_append cfg.metricsFlushInterval pre ((key, h) :: post)
      _ _ (hquiet pre hpre) (checkMetricHistory_cons _ _ _ _ _ _ hk hb)
    rw [checkMetricHistoryOnChannel_eq _ _ queue _ hall]
    exact chanSendAll_full queue _ _ (by omega)
  · intro m hm
    rw [checkMetricHistoryOnChannel_eq _ _ queue _ (hquiet m hm)]
    rfl
  · intro st st' now nowAfter out alert rest hp ha
    rw [publishCycleOnChannel_eq cfg st st' now nowAfter out queue hp, ha,
      chanSendAll_full queue alert rest (by omega)]
  · intro st st' now nowAfter out hp ha
    rw [publishCycleOnChannel_eq cfg st st' now nowAfter out queue hp, ha]
    rfl

theorem full_queue_send_waits_witness :
    (∀ (key : Bytes) (h : List MetricSample) (pre post : GoMap (List MetricSample)),
      flagged h = true → (∀ e ∈ pre, flagged e.2 = false) →
      checkMetricHistoryOnChannel demoConfig.metricsFlushInterval
          (pre ++ (key, h) :: post) fullQueue =
        Run.waiting fullQueue
          { PumpId := (Split key commaByte).headD [],
            DeadFor := (zeroRun h : Int) * demoConfig.metricsFlushInterval }) ∧
    (∀ m : GoMap (List MetricSample), (∀ e ∈ m, flagged e.2 = false) →
      checkMetricHistoryOnChannel demoConfig.metricsFlushInterval m fullQueue =
        Run.done fullQueue) ∧
    (∀ (st st' : State) (now : Nat → Int) (nowAfter : Int) (out : Published)
        (alert : DeadPumpAlert) (rest : List DeadPumpAlert),
      publishCycle demoConfig st now nowAfter = some (st', out) → out.alerts = alert :: rest →
      publishCycleOnChannel demoConfig st now nowAfter fullQueue =
        Run.waiting fullQueue alert) ∧
    (∀ (st st' : State) (now : Nat → Int) (nowAfter : Int) (out : Published),
      publishCycle demoConfig st now nowAfter = some (st', out) → out.alerts = [] →
      publishCycleOnChannel demoConfig st now nowAfter fullQueue =
        Run.done (st', out.payload, fullQueue)) :=
  full_queue_send_waits demoConfig fullQueue (by decide)

/-! ## Start-up -/

/-- C15: when the two duration strings parse, `init` panics exactly when the configured
protocol is none of `udp`, `http` and `https`; and after an `init` that returns, the
protocol is one of the three and the dispatch of the publish cycle never takes the branch
for an unsupported protocol. -/
theorem init_validates_protocol (getopt : Bytes → Bytes → Bytes)
    (ParseDuration : Bytes → Option Int) (now : Int)
    (hd1 : (ParseDuration metricsChannelFlushIntervalString).isSome = true)
    (hd2 : (ParseDuration (getopt (str "METRICS_FLUSH_INTERVAL") (str "10s"))).isSome =
      true) :
    (init getopt ParseDuration now = none ↔
      (getopt (str "METRICS_PROTOCOL") (str "udp") ≠ str "udp" ∧
        getopt (str "METRICS_PROTOCOL") (str "udp") ≠ str "http" ∧
        getopt (str "METRICS_PROTOCOL") (str "udp") ≠ str "https")) ∧
    ∀ (s : Settings) (st : State), init getopt ParseDuration now = some (s, st) →
      s.metricsProtocol = getopt (str "METRICS_PROTOCOL") (str "udp") ∧
      (s.metricsProtocol = str "udp" ∨ s.metricsProtocol = str "http" ∨
        s.metricsProtocol = str "https") ∧
      st = initState now ∧
      ∀ buffer : Bytes, dispatch s buffer ≠ Dispatch.unsupported := by
  obtain ⟨d1, h1⟩ := Option.isSome_iff_exists.mp hd1
  obtain ⟨d2, h2⟩ := Option.isSome_iff_exists.mp hd2
  by_cases hp : getopt (str "METRICS_PROTOCOL") (str "udp") ≠ str "udp" ∧
      getopt (str "METRICS_PROTOCOL") (str "udp") ≠ str "http" ∧
      getopt (str "METRICS_PROTOCOL") (str "udp") ≠ str "https"
  · have hi : init getopt ParseDuration now = none := by
      unfold init
      simp only [h1, h2, if_pos hp]
    refine ⟨⟨fun _ => hp, fun _ => hi⟩, ?_⟩
    intro s st hs
    rw [hi] at hs
    exact absurd hs (by simp)
  · have hi : init getopt ParseDuration now =
        some ({ metricsProtocol := getopt (str "METRICS_PROTOCOL") (str "udp")
                metricsHostPort := getopt (str "METRICS_HOST_PORT") (str "172.17.0.1:8092")
                metricsDatabaseName := getopt (str "METRICS_DATABASE_NAME") (str "aws")
                metricName :=
                  getopt (str "METRIC_NAME") (str "logspout_log_count_by_container")
                logMetrics := getopt (str "LOG_METRICS") (str "0")
                metricsChannelFlushInterval := d1
                metricsFlushInterval := d2 },
              initState now) := by
      unfold init
      simp only [h1, h2, if_neg hp]
    refine ⟨⟨fun hn => by rw [hi] at hn; exact absurd hn (by simp), fun h => absurd h hp⟩, ?_⟩
    intro s st hs
    rw [hi] at hs
    simp only [Option.some.injEq, Prod.mk.injEq] at hs
    obtain ⟨hs1, hs2⟩ := hs
    have hprot : s.metricsProtocol = getopt (str "METRICS_PROTOCOL") (str "udp") := by
      rw [← hs1]
    have hone : s.metricsProtocol = str "udp" ∨ s.metricsProtocol = str "http" ∨
        s.metricsProtocol = str "https" := by
      rw [hprot]
      by_contra hc
      push_neg at hc
      exact hp hc
    refine ⟨hprot, hone, hs2.symm, ?_⟩
    intro buffer
    unfold dispatch
    rcases hone with e | e | e
    · have hne : ¬ (s.metricsProtocol = str "http" ∨ s.metricsProtocol = str "https") := by
        rw [e]
        decide
      rw [if_neg hne, if_pos e]
      exact fun h => Dispatch.noConfusion h
    · rw [if_pos (Or.inl e)]
      exact fun h => Dispatch.noConfusion h
    · rw [if_pos (Or.inr e)]
      exact fun h => Dispatch.noConfusion h

theorem init_tcp_panics :
    init tcpEnv parseTwo 0 = none ∧ (init noEnv parseTwo 0).isSome = true := by
  decide

theorem init_validates_protocol_witness :
    (init noEnv parseTwo 0 = none ↔
      (noEnv (str "METRICS_PROTOCOL") (str "udp") ≠ str "udp" ∧
        noEnv (str "METRICS_PROTOCOL") (str "udp") ≠ str "http" ∧
        noEnv (str "METRICS_PROTOCOL") (str "udp") ≠ str "https")) ∧
    ∀ (s : Settings) (st : State), init noEnv parseTwo 0 = some (s, st) →
      s.metricsProtocol = noEnv (str "METRICS_PROTOCOL") (str "udp") ∧
      (s.metricsProtocol = str "udp" ∨ s.metricsProtocol = str "http" ∨
        s.metricsProtocol = str "https") ∧
      st = initState 0 ∧
      ∀ buffer : Bytes, dispatch s buffer ≠ Dispatch.unsupported :=
  init_validates_protocol noEnv parseTwo 0 (by decide) (by decide)

/-! ## The length of a history -/

theorem cyclesSince_append (key : Bytes) (bufs : List (GoMap MetricSample))
    (b : GoMap MetricSample) :
    cyclesSince key (bufs ++ [b]) =
      if 0 < cyclesSince key bufs then cyclesSince key bufs + 1
      else if key ∈ b.keys then 1 else 0 := by
  induction bufs with
  | nil => simp [cyclesSince]
  | cons a rest ih =>
    by_cases ha : key ∈ a.keys
    · simp [cyclesSince, ha]
    · simp only [List.cons_append, cyclesSince, if_neg ha]
      exact ih

theorem reachableAfter_reachable (cfg : Config) (bufs : List (GoMap MetricSample))
    (st : State) (hr : ReachableAfter cfg bufs st) : Reachable cfg st := by
  induction hr with
  | init now => exact Reachable.init now
  | idle bufs st st' inp _ h ih => exact Reachable.tick st st' inp none ih h
  | publish bufs st st' inp out _ h ih => exact Reachable.tick st st' inp (some out) ih h
  | shuffle bufs st buf hist _ hb hh ih => exact Reachable.shuffle st buf hist ih hb hh

theorem GoMap.get_perm {β : Type} (m m' : GoMap β) (hp : m'.Perm m) (hn : m.keys.Nodup)
    (k : Bytes) : m'.get k = m.get k := by
  have hk : (GoMap.keys m').Perm (GoMap.keys m) := hp.map _
  cases hg : m.get k with
  | none =>
    apply GoMap.get_eq_none
    intro hmem
    obtain ⟨v, hv⟩ := GoMap.get_of_mem_keys m k (hk.subset hmem)
    rw [hv] at hg
    exact absurd hg (by simp)
  | some v =>
    exact GoMap.get_of_mem m' k v (hk.nodup_iff.mpr hn) (hp.symm.subset (GoMap.mem_of_get m k v hg))

/-- The length of each history after a publish cycle from a well-formed state. -/
theorem publishCycle_histLen (cfg : Config) (st st' : State) (now : Nat → Int)
    (nowAfter : Int) (out : Published) (hwf : st.WF)
    (h : publishCycle cfg st now nowAfter = some (st', out)) (key : Bytes) :
    st'.metricHistory.get key =
      match st.metricHistory.get key with
      | some old => some ((recorded st.metricBuffer key :: old).take 20)
      | none =>
        if key ∈ st.metricBuffer.keys then some [recorded st.metricBuffer key] else none := by
  obtain ⟨newHist, alerts, hp, hget, _⟩ := publishCycle_spec cfg st now nowAfter hwf
  rw [hp] at h
  simp only [Option.some.injEq, Prod.mk.injEq] at h
  rw [← h.1]
  simp only []
  rw [hget, addMissing_get]
  cases st.metricHistory.get key with
  | some old => rfl
  | none =>
    by_cases hb : key ∈ GoMap.keys st.metricBuffer
    · simp [hb]
    · simp [hb]

theorem tick_idle_inv (cfg : Config) (st st' : State) (inp : TickInput)
    (h : aggregateAndSendMetrics cfg st inp = some (st', none)) :
    st'.metricHistory = st.metricHistory := by
  by_cases ht : inp.now - st.lastMetricSent > cfg.metricsFlushInterval
  · rw [aggregateAndSendMetrics_publish cfg st inp ht] at h
    cases hp : publishCycle cfg
        { st with metricBuffer := drainChannel st.metricBuffer inp.samples }
        inp.pointTime inp.nowAfter with
    | none => rw [hp] at h; exact absurd h (by simp)
    | some r => rw [hp] at h; simp at h
  · rw [aggregateAndSendMetrics_idle cfg st inp ht] at h
    simp only [Option.some.injEq, Prod.mk.injEq, and_true] at h
    rw [← h]

theorem tick_publish_inv (cfg : Config) (st st' : State) (inp : TickInput) (out : Published)
    (h : aggregateAndSendMetrics cfg st inp = some (st', some out)) :
    publishCycle cfg { st with metricBuffer := drainChannel st.metricBuffer inp.samples }
      inp.pointTime inp.nowAfter = some (st', out) := by
  by_cases ht : inp.now - st.lastMetricSent > cfg.metricsFlushInterval
  · rw [aggregateAndSendMetrics_publish cfg st inp ht] at h
    cases hp : publishCycle cfg
        { st with metricBuffer := drainChannel st.metricBuffer inp.samples }
        inp.pointTime inp.nowAfter with
    | none => rw [hp] at h; exact absurd h (by simp)
    | some r =>
      obtain ⟨s2, o⟩ := r
      rw [hp] at h
      simp only [Option.map_some', Option.some.injEq, Prod.mk.injEq] at h
      rw [h.1, h.2]
  · rw [aggregateAndSendMetrics_idle cfg st inp ht] at h
    simp at h

/-- The invariant of a run from `init`: a key has a history exactly when some publish cycle
had it in its buffer, and the length of the history is the number of cycles since, at most
20. -/
theorem reachableAfter_length (cfg : Config) (bufs : List (GoMap MetricSample)) (st : State)
    (hr : ReachableAfter cfg bufs st) (key : Bytes) :
    match st.metricHistory.get key with
    | some h => 0 < cyclesSince key bufs ∧ h.length = min 20 (cyclesSince key bufs)
    | none => cyclesSince key bufs = 0 := by
  induction hr with
  | init now => rfl
  | idle bufs st st' inp _ h ih =>
    rw [tick_idle_inv cfg st st' inp h]
    exact ih
  | publish bufs st st' inp out hprev h ih =>
    have hwf := drained_wf st inp.samples
      (reachable_wf cfg st (reachableAfter_reachable cfg bufs st hprev))
    have hp := tick_publish_inv cfg st st' inp out h
    rw [publishCycle_histLen cfg _ st' _ _ out hwf hp key, cyclesSince_append]
    simp only []
    cases hg : st.metricHistory.get key with
    | some old =>
      rw [hg] at ih
      simp only [] at ih ⊢
      obtain ⟨hpos, hlen⟩ := ih
      rw [if_pos hpos, List.length_take, List.length_cons, hlen]
      omega
    | none =>
      rw [hg] at ih
      simp only [] at ih ⊢
      rw [ih]
      by_cases hb : key ∈ GoMap.keys (drainChannel st.metricBuffer inp.samples)
      · simp [hb]
      · simp [hb]
  | shuffle bufs st buf hist hprev hb hh ih =>
    have hwf := reachable_wf cfg st (reachableAfter_reachable cfg bufs st hprev)
    simp only []
    rw [GoMap.get_perm st.metricHistory hist hh hwf.2.1 key]
    exact ih

theorem reachableAfter_runTicks (cfg : Config) (inputs : List TickInput)
    (bufs : List (GoMap MetricSample)) (st st' : State) (hr : ReachableAfter cfg bufs st)
    (h : (runTicks cfg st inputs).map Prod.fst = some st') :
    ReachableAfter cfg (bufs ++ publishedBuffers cfg st inputs) st' := by
  induction inputs generalizing st bufs with
  | nil =>
    simp only [runTicks, Option.map_some', Option.some.injEq] at h
    simp only [publishedBuffers, List.append_nil]
    exact h ▸ hr
  | cons inp rest ih =>
    simp only [runTicks] at h
    cases ha : aggregateAndSendMetrics cfg st inp with
    | none => rw [ha] at h; simp at h
    | some r =>
      obtain ⟨st1, out⟩ := r
      rw [ha] at h
      simp only [] at h
      have hrest : (runTicks cfg st1 rest).map Prod.fst = some st' := by
        cases hrt : runTicks cfg st1 rest with
        | none => rw [hrt] at h; simp at h
        | some r2 =>
          obtain ⟨st2, outs⟩ := r2
          rw [hrt] at h
          simpa using h
      cases out with
      | none =>
        have := ih bufs st1 (ReachableAfter.idle bufs st st1 inp hr ha) hrest
        simpa only [publishedBuffers, ha] using this
      | some p =>
        have := ih _ st1 (ReachableAfter.publish bufs st st1 inp p hr ha) hrest
        simpa only [publishedBuffers, ha, List.append_assoc, List.singleton_append] using this

theorem cyclesSince_le_append (key : Bytes) (bufs : List (GoMap MetricSample))
    (b : GoMap MetricSample) : cyclesSince key bufs ≤ cyclesSince key (bufs ++ [b]) := by
  rw [cyclesSince_append]
  by_cases h : 0 < cyclesSince key bufs
  · rw [if_pos h]
    omega
  · rw [if_neg h]
    omega

theorem reachableAfter_histLen (cfg : Config) (bufs : List (GoMap MetricSample)) (st : State)
    (hr : ReachableAfter cfg bufs st) (key : Bytes) :
    histLen st.metricHistory key = min 20 (cyclesSince key bufs) := by
  have h := reachableAfter_length cfg bufs st hr key
  unfold histLen
  cases hg : st.metricHistory.get key with
  | some old =>
    rw [hg] at h
    simp only [Option.map_some', Option.getD_some]
    exact h.2
  | none =>
    rw [hg] at h
    simp only [] at h
    simp [h]

/-- C19: in a run from `init` (empty history), the history of a key is as long as the
number `k` of publish cycles run since, and including, the first one whose buffer held the
key, at most 20 (a key has a history exactly when `k > 0`); so the detector sends no alert
for a key whose `k` is below 20; and no run of `aggregateAndSendMetrics` makes the history
of a key shorter. -/
theorem history_length_cycles (cfg : Config) (bufs : List (GoMap MetricSample)) (st : State)
    (hr : ReachableAfter cfg bufs st) :
    (∀ key, histLen st.metricHistory key = min 20 (cyclesSince key bufs)) ∧
    (∀ key, key ∈ st.metricHistory.keys ↔ 0 < cyclesSince key bufs) ∧
    (∀ key h, st.metricHistory.get key = some h → cyclesSince key bufs < 20 →
      checkLogStream cfg.metricsFlushInterval key h = some []) ∧
    (∀ (inp : TickInput) (st' : State) (out : Option Published),
      aggregateAndSendMetrics cfg st inp = some (st', out) →
        ∀ key, histLen st.metricHistory key ≤ histLen st'.metricHistory key) := by
  refine ⟨reachableAfter_histLen cfg bufs st hr, ?_, ?_, ?_⟩
  · intro key
    have h := reachableAfter_length cfg bufs st hr key
    constructor
    · intro hk
      obtain ⟨v, hv⟩ := GoMap.get_of_mem_keys _ key hk
      rw [hv] at h
      exact h.1
    · intro hpos
      cases hg : st.metricHistory.get key with
      | some old => exact GoMap.mem_keys_of_get _ _ _ hg
      | none =>
        rw [hg] at h
        simp only [] at h
        omega
  · intro key h hg hlt
    have hl := reachableAfter_length cfg bufs st hr key
    rw [hg] at hl
    simp only [] at hl
    have hshort : h.length < 20 := by
      rw [hl.2]
      omega
    rw [checkLogStream_eq, if_pos hshort]
  · intro inp st' out h key
    rw [reachableAfter_histLen cfg bufs st hr key]
    cases out with
    | none =>
      rw [reachableAfter_histLen cfg bufs st' (ReachableAfter.idle bufs st st' inp hr h) key]
    | some p =>
      rw [reachableAfter_histLen cfg _ st' (ReachableAfter.publish bufs st st' inp p hr h) key]
      have := cyclesSince_le_append key bufs (drainChannel st.metricBuffer inp.samples)
      omega

theorem history_length_cycles_witness :
    (∀ key, histLen fullState.metricHistory key =
      min 20 (cyclesSince key ([] ++ publishedBuffers demoConfig (initState 0) commaTicks))) ∧
    (∀ key, key ∈ fullState.metricHistory.keys ↔
      0 < cyclesSince key ([] ++ publishedBuffers demoConfig (initState 0) commaTicks)) ∧
    (∀ key h, fullState.metricHistory.get key = some h →
      cyclesSince key ([] ++ publishedBuffers demoConfig (initState 0) commaTicks) < 20 →
      checkLogStream demoConfig.metricsFlushInterval key h = some []) ∧
    (∀ (inp : TickInput) (st' : State) (out : Option Published),
      aggregateAndSendMetrics demoConfig fullState inp = some (st', out) →
        ∀ key, histLen fullState.metricHistory key ≤ histLen st'.metricHistory key) :=
  history_length_cycles demoConfig _ fullState
    (reachableAfter_runTicks demoConfig commaTicks [] (initState 0) fullState
      (ReachableAfter.init 0) (by decide!))

end Logspout
